import Mathlib

/-!
Verification of the OpenFang runtime core against its specification.

This file gives a shallow embedding, in Lean 4, of the runtime components of
the `openfang` repository — the Markdown-aware stream chunker, the context
budget and guard, the overflow-recovery pipeline, the hand registry, the
external-content wrapper (SHA-256 boundary derivation), the HTML→Markdown
extractor and the Anthropic message conversion — and proves (or refutes, by
explicit counterexample) the specified properties of each.

Modelling conventions:
* Rust `String`/`&str` values are modelled as lists of UTF-8 bytes
  (`Bytes := List Nat`, each element < 256), because the source code indexes
  and slices strings by *byte* offset (`len()`, `is_char_boundary`,
  range slicing).  Where a byte-accurate model is irrelevant to the claims,
  ordinary Lean `String` is used and noted.
* Rust slicing `s[a..b]` is modelled as `(s.take b).drop a`.  Rust panics if
  `a` or `b` is not a char boundary; where a claim is about panic freedom
  (the HTML extractor) slicing is modelled partially via `Option`, and
  elsewhere it is modelled totally, which agrees with Rust on every input on
  which Rust returns.
* Ambient effects (environment variables, the PATH lookup `which_binary`,
  fresh UUIDs, clock reads) are passed explicitly as parameters.
-/

set_option maxRecDepth 100000

/-! ## Byte strings -/

/-- Byte strings: Rust `String` / `&str` as its UTF-8 byte sequence. -/
abbrev Bytes := List Nat

/-- UTF-8 encoding of a single scalar value (by code point ranges). -/
def charUtf8 (c : Char) : Bytes :=
  let n := c.toNat
  if n < 0x80 then [n]
  else if n < 0x800 then
    [0xC0 + n / 0x40, 0x80 + n % 0x40]
  else if n < 0x10000 then
    [0xE0 + n / 0x1000, 0x80 + n / 0x40 % 0x40, 0x80 + n % 0x40]
  else
    [0xF0 + n / 0x40000, 0x80 + n / 0x1000 % 0x40, 0x80 + n / 0x40 % 0x40,
      0x80 + n % 0x40]

/-- UTF-8 bytes of a Lean string, used to transcribe Rust string literals. -/
def strBytes (s : String) : Bytes :=
  s.data.flatMap charUtf8

/-- Rust `str::is_char_boundary` (byte-value criterion): true at 0 and at the
end; inside the string, true iff the byte is not a UTF-8 continuation byte. -/
def isCharBoundary (s : Bytes) (i : Nat) : Bool :=
  if i = 0 then true
  else if i < s.length then
    let b := s.getD i 0
    decide (b < 0x80) || decide (0xC0 ≤ b)
  else decide (i = s.length)

/-- Whether `pattern` occurs in `text` starting at byte index `i`. -/
def patternAt (text pattern : Bytes) (i : Nat) : Bool :=
  decide ((text.drop i).take pattern.length = pattern)

/-- Rust `str::find` for a nonempty literal pattern: first match index. -/
def findPat (text pattern : Bytes) : Option Nat :=
  (List.range (text.length + 1)).find? (fun i => patternAt text pattern i)

/-- Rust `str::rfind` for a literal pattern: last match index. -/
def rfindPat (text pattern : Bytes) : Option Nat :=
  (List.range (text.length + 1)).reverse.find? (fun i => patternAt text pattern i)

/-- Rust `str::rfind('\n')` specialised to one byte (newline etc.). -/
def rfindByte (text : Bytes) (b : Nat) : Option Nat :=
  rfindPat text [b]

/-- Byte index of the start of the last char of `s.take i` (the model of
`s[..i].char_indices().next_back().map(|(i,_)| i).unwrap_or(0)`): the largest
`j < i` holding a non-continuation byte, else 0. -/
def lastCharStartBefore (s : Bytes) : Nat → Nat
  | 0 => 0
  | j + 1 =>
    let b := s.getD j 0
    if b < 0x80 || 0xC0 ≤ b then j else lastCharStartBefore s j

/-! ## Hand registry (`openfang-hands/src/registry.rs`)

The types `HandDefinition`, `HandInstance`, `HandStatus`, `HandError`,
`HandRequirement` and the constructor `HandInstance::new` live in the crate
root, which is not among the sources; they are modelled from the spec
(§3 data model, §4.9).  The registry operations themselves are translated
from `registry.rs`.  `DashMap`s are modelled as association lists, UUIDs and
timestamps as `Nat` passed in explicitly, and the ambient environment /
PATH lookup as explicit parameters. -/

/-- Modelled from the spec: hand instance status, `{Active, Paused, Error(msg)}`. -/
inductive HandStatus
  | active
  | paused
  | error (msg : String)
deriving BEq, DecidableEq, Repr

/-- Modelled from the spec: hand operation errors `NotFound`, `InstanceNotFound`,
`AlreadyActive`. -/
inductive HandError
  | notFound (id : String)
  | instanceNotFound (instanceId : Nat)
  | alreadyActive (id : String)
deriving BEq, DecidableEq, Repr

/-- Requirement kinds (`RequirementType` in the crate root, from the spec:
`kind ∈ binary | env_var | api_key`). -/
inductive RequirementType
  | binary
  | envVar
  | apiKey
deriving BEq, DecidableEq, Repr

/-- Modelled from the spec: a hand requirement `{kind, check_value, ...}`. -/
structure HandRequirement where
  key : String
  label : String
  requirement_type : RequirementType
  check_value : String
deriving BEq, DecidableEq, Repr

/-- Modelled from the spec: a hand definition (only the fields the registry
operations read: its id, display name and the backing agent name,
plus the requirement list). -/
structure HandDefinition where
  id : String
  name : String
  agent_name : String
  requires : List HandRequirement
deriving Repr

/-- Instance configuration (opaque pass-through of
`HashMap<String, serde_json::Value>`). -/
abbrev HandConfig := List (String × String)

/-- Modelled from the spec: a hand instance
`{instance_id, hand_id, agent_id?, status, config, activated_at, updated_at}`. -/
structure HandInstance where
  instance_id : Nat
  hand_id : String
  agent_id : Option Nat
  status : HandStatus
  config : HandConfig
  activated_at : Nat
  updated_at : Nat
deriving BEq, DecidableEq, Repr

/-- Modelled from the spec: `HandInstance::new` — fresh instance, `Active`,
`agent_id = None`, both timestamps set to now. -/
def HandInstance.new (handId : String) (config : HandConfig)
    (freshId : Nat) (now : Nat) : HandInstance :=
  { instance_id := freshId
    hand_id := handId
    agent_id := none
    status := .active
    config := config
    activated_at := now
    updated_at := now }

/-- The hand registry: definitions keyed by hand id, instances keyed by
instance UUID (association-list model of the two maps). -/
structure HandRegistry where
  definitions : List (String × HandDefinition)
  instances : List (Nat × HandInstance)

/-- Look up a definition by hand id (`self.definitions.get(hand_id)`). -/
def HandRegistry.get_definition (reg : HandRegistry) (handId : String) :
    Option HandDefinition :=
  (reg.definitions.find? (fun p => p.1 == handId)).map (·.2)

/-- Look up an instance by instance id (`self.instances.get_mut(&id)` hit test). -/
def HandRegistry.get_instance (reg : HandRegistry) (instanceId : Nat) :
    Option HandInstance :=
  (reg.instances.find? (fun p => p.1 == instanceId)).map (·.2)

/-- Pointwise update of the instance map at a key. -/
def updateInstance (insts : List (Nat × HandInstance)) (instanceId : Nat)
    (f : HandInstance → HandInstance) : List (Nat × HandInstance) :=
  insts.map (fun p => if p.1 == instanceId then (p.1, f p.2) else p)

/-- `HandRegistry::activate`: `NotFound` if the definition is unknown;
`AlreadyActive` if any current instance for that hand id has status `Active`;
otherwise build a fresh instance and store it.  The fresh UUID and the clock
value are explicit parameters. -/
def HandRegistry.activate (reg : HandRegistry) (handId : String)
    (config : HandConfig) (freshId : Nat) (now : Nat) :
    Except HandError HandInstance × HandRegistry :=
  match reg.definitions.find? (fun p => p.1 == handId) with
  | none => (.error (.notFound handId), reg)
  | some _ =>
    if reg.instances.any
        (fun p => p.2.hand_id == handId && p.2.status == HandStatus.active) then
      (.error (.alreadyActive handId), reg)
    else
      let inst := HandInstance.new handId config freshId now
      (.ok inst, { reg with instances := (freshId, inst) :: reg.instances })

/-- `HandRegistry::pause`: set the status of an existing instance to `Paused`
and touch `updated_at`; `InstanceNotFound` otherwise (no state change). -/
def HandRegistry.pause (reg : HandRegistry) (instanceId : Nat) (now : Nat) :
    Option HandError × HandRegistry :=
  match reg.instances.find? (fun p => p.1 == instanceId) with
  | none => (some (.instanceNotFound instanceId), reg)
  | some _ =>
    let insts := updateInstance reg.instances instanceId
      (fun i => { i with status := .paused, updated_at := now })
    (none, { reg with instances := insts })

/-- `HandRegistry::resume`: set the status of an existing instance to `Active`
and touch `updated_at`; `InstanceNotFound` otherwise (no state change). -/
def HandRegistry.resume (reg : HandRegistry) (instanceId : Nat) (now : Nat) :
    Option HandError × HandRegistry :=
  match reg.instances.find? (fun p => p.1 == instanceId) with
  | none => (some (.instanceNotFound instanceId), reg)
  | some _ =>
    let insts := updateInstance reg.instances instanceId
      (fun i => { i with status := .active, updated_at := now })
    (none, { reg with instances := insts })

/-- The ambient process environment, passed explicitly: variable name to value. -/
abbrev EnvMap := List (String × String)

/-- Rust `std::env::var(name)` over the explicit environment. -/
def envVarLookup (env : EnvMap) (name : String) : Option String :=
  (env.find? (fun p => p.1 == name)).map (·.2)

/-- The recurring idiom `std::env::var(name).map(|v| !v.is_empty()).unwrap_or(false)`. -/
def envNonempty (env : EnvMap) (name : String) : Bool :=
  match envVarLookup env name with
  | some v => !v.isEmpty
  | none => false

/-- `check_requirement`: `Binary` consults the PATH oracle; `EnvVar`/`ApiKey`
succeed iff the named variable is set and non-empty.  (Note: no special case
for `GEMINI_API_KEY` here — that lives in `check_option_available`.) -/
def check_requirement (env : EnvMap) (whichBinary : String → Bool)
    (req : HandRequirement) : Bool :=
  match req.requirement_type with
  | .binary => whichBinary req.check_value
  | .envVar | .apiKey => envNonempty env req.check_value

/-- `check_option_available`: availability of a setting option from its
`provider_env` and `binary` fields, with the documented `GEMINI_API_KEY` /
`GOOGLE_API_KEY` special case and an early return when the direct variable
is set. -/
def check_option_available (env : EnvMap) (whichBinary : String → Bool)
    (provider_env : Option String) (binary : Option String) : Bool :=
  match provider_env with
  | none =>
    match binary with
    | some b => whichBinary b
    | none => true
  | some e =>
    let direct := envNonempty env e
    if direct then
      match binary with
      | some b => whichBinary b
      | none => true
    else
      let env_ok :=
        if e == "GEMINI_API_KEY" then envNonempty env "GOOGLE_API_KEY"
        else false
      if !env_ok then false
      else
        match binary with
        | some b => whichBinary b
        | none => true

/-- `HandRegistry::check_requirements`: `NotFound` for an unknown hand;
otherwise each requirement paired with its satisfaction. -/
def HandRegistry.check_requirements (reg : HandRegistry) (env : EnvMap)
    (whichBinary : String → Bool) (handId : String) :
    Except HandError (List (HandRequirement × Bool)) :=
  match reg.get_definition handId with
  | none => .error (.notFound handId)
  | some d => .ok (d.requires.map (fun req => (req, check_requirement env whichBinary req)))

/-! ## Context budget (`openfang-runtime/src/context_budget.rs`)

`ContextBudget::new` fixes `tool_chars_per_token = 2.0` and
`general_chars_per_token = 4.0`; the `f64` products with the constants
`0.30`, `0.50`, `0.75` and the `×2.0` char conversion are modelled by exact
integer arithmetic (`(w as f64 * c) as usize` agrees with the integer
computation for every window size in `f64`'s exact integer range). -/

/-- Budget parameters derived from the model's context window. -/
structure ContextBudget where
  context_window_tokens : Nat

/-- Per-result character cap: 30% of context window × 2 chars/token. -/
def ContextBudget.per_result_cap (b : ContextBudget) : Nat :=
  let tokens_for_tool := 3 * b.context_window_tokens / 10
  tokens_for_tool * 2

/-- Single result absolute max: 50% of context window × 2 chars/token. -/
def ContextBudget.single_result_max (b : ContextBudget) : Nat :=
  let tokens := b.context_window_tokens / 2
  tokens * 2

/-- Total tool result headroom: 75% of context window × 2 chars/token. -/
def ContextBudget.total_tool_headroom_chars (b : ContextBudget) : Nat :=
  let tokens := 3 * b.context_window_tokens / 4
  tokens * 2

/-- The `[TRUNCATED: …]` marker appended by `truncate_tool_result_dynamic`. -/
def truncMarker (origLen breakPoint window : Nat) : Bytes :=
  strBytes ("\n\n[TRUNCATED: result was " ++ Nat.repr origLen ++
    " chars, showing first " ++ Nat.repr breakPoint ++ " (budget: 30% of " ++
    Nat.repr (window / 1000) ++ "K context window)]")

/-- Layer 1, `truncate_tool_result_dynamic`: keep short results; otherwise cut
at the last newline in the 200-byte window ending at the cap (100 bytes back
if none), snap to a char boundary, and append the marker.  (Rust would panic
slicing `content[..cap]` when `cap` is not a char boundary; slices are
modelled as byte prefixes here, which agrees whenever Rust returns.) -/
def truncate_tool_result_dynamic (content : Bytes) (budget : ContextBudget) :
    Bytes :=
  let cap := budget.per_result_cap
  if content.length ≤ cap then content
  else
    let safe_cap :=
      if isCharBoundary content cap then cap else lastCharStartBefore content cap
    let search_start := safe_cap - 200
    let break_point :=
      match rfindByte ((content.take safe_cap).drop search_start) 10 with
      | some pos => search_start + pos
      | none => safe_cap - 100
    let break_point :=
      if isCharBoundary content break_point then break_point
      else lastCharStartBefore content break_point
    content.take break_point ++
      truncMarker content.length break_point budget.context_window_tokens

/-! ## Stream chunker (`openfang-api/src/stream_chunker.rs`)

Translated byte-for-byte from the source; `line.trim()` is modelled as
trimming ASCII whitespace (Rust's `trim` also strips the rarer Unicode
whitespace code points, which is immaterial to the properties below, whose
inputs and counterexamples are ASCII). -/

/-- ASCII whitespace bytes (space and the control whitespace). -/
def isWsByte (b : Nat) : Bool :=
  b == 9 || b == 10 || b == 11 || b == 12 || b == 13 || b == 32

/-- The model of `line.trim()` on bytes. -/
def trimBytes (s : Bytes) : Bytes :=
  ((s.dropWhile isWsByte).reverse.dropWhile isWsByte).reverse

/-- Rust `str::split_inclusive('\n')`: segments each ending with the newline
byte (the last one possibly without it); an empty string yields no segments. -/
def split_inclusive_nl : Bytes → List Bytes
  | [] => []
  | x :: xs =>
    match split_inclusive_nl xs with
    | [] => [[x]]
    | y :: ys => if x == 10 then [x] :: y :: ys else (x :: y) :: ys

/-- Markdown-aware stream chunker state. -/
structure StreamChunker where
  buffer : Bytes
  in_code_fence : Bool
  fence_marker : Bytes
  min_chunk_chars : Nat
  max_chunk_chars : Nat
deriving DecidableEq, Repr

/-- `StreamChunker::new`. -/
def StreamChunker.new (minChunkChars maxChunkChars : Nat) : StreamChunker :=
  { buffer := []
    in_code_fence := false
    fence_marker := []
    min_chunk_chars := minChunkChars
    max_chunk_chars := maxChunkChars }

/-- One iteration of the `for line in text.split_inclusive('\n')` loop of
`StreamChunker::push`: append the line, then track code-fence state. -/
def StreamChunker.pushLine (c : StreamChunker) (line : Bytes) : StreamChunker :=
  let c := { c with buffer := c.buffer ++ line }
  let trimmed := trimBytes line
  if [96, 96, 96].isPrefixOf trimmed then
    if c.in_code_fence then
      if trimmed == [96, 96, 96] || c.fence_marker.isPrefixOf trimmed then
        { c with in_code_fence := false, fence_marker := [] }
      else c
    else
      { c with in_code_fence := true, fence_marker := [96, 96, 96] }
  else c

/-- `StreamChunker::push`. -/
def StreamChunker.push (c : StreamChunker) (text : Bytes) : StreamChunker :=
  (split_inclusive_nl text).foldl StreamChunker.pushLine c

/-- `find_last_in_range`: last occurrence of `pattern` inside
`text[rStart..min(rEnd, len)]`, as an index into `text`.  (Rust would panic
when `rStart` exceeds the clipped end or falls off a char boundary; the slice
is modelled totally.) -/
def find_last_in_range (text pattern : Bytes) (rStart rEnd : Nat) : Option Nat :=
  (rfindPat ((text.take (min rEnd text.length)).drop rStart) pattern).map
    (fun pos => rStart + pos)

/-- The decrementing `while break_at > 0 && !is_char_boundary` loop of the
forced-break arm of `try_flush`. -/
def boundaryDecLoop (s : Bytes) : Nat → Nat
  | 0 => 0
  | i + 1 => if isCharBoundary s (i + 1) then i + 1 else boundaryDecLoop s i

/-- `StreamChunker::try_flush`: returns the emitted chunk (if any) and the
successor state. -/
def StreamChunker.try_flush (c : StreamChunker) : Option Bytes × StreamChunker :=
  if c.buffer.length < c.min_chunk_chars then (none, c)
  else if c.in_code_fence && decide (c.buffer.length < c.max_chunk_chars) then
    (none, c)
  else if c.in_code_fence && decide (c.max_chunk_chars ≤ c.buffer.length) then
    let chunk := c.buffer ++ strBytes ("\n```\n")
    let reopened := strBytes ("```") ++ c.fence_marker.dropWhile (· == 96) ++ [10]
    (some chunk, { c with buffer := reopened })
  else
    let rEnd := min c.buffer.length c.max_chunk_chars
    match find_last_in_range c.buffer [10, 10] c.min_chunk_chars rEnd with
    | some pos =>
      let break_at := pos + 2
      (some (c.buffer.take break_at), { c with buffer := c.buffer.drop break_at })
    | none =>
    match find_last_in_range c.buffer [10] c.min_chunk_chars rEnd with
    | some pos =>
      let break_at := pos + 1
      (some (c.buffer.take break_at), { c with buffer := c.buffer.drop break_at })
    | none =>
    match find_last_in_range c.buffer [46, 32] c.min_chunk_chars rEnd with
    | some pos =>
      let break_at := pos + 2
      (some (c.buffer.take break_at), { c with buffer := c.buffer.drop break_at })
    | none =>
    match find_last_in_range c.buffer [33, 32] c.min_chunk_chars rEnd with
    | some pos =>
      let break_at := pos + 2
      (some (c.buffer.take break_at), { c with buffer := c.buffer.drop break_at })
    | none =>
    match find_last_in_range c.buffer [63, 32] c.min_chunk_chars rEnd with
    | some pos =>
      let break_at := pos + 2
      (some (c.buffer.take break_at), { c with buffer := c.buffer.drop break_at })
    | none =>
      if c.max_chunk_chars ≤ c.buffer.length then
        let b0 := boundaryDecLoop c.buffer c.max_chunk_chars
        let break_at := if b0 = 0 then c.buffer.length else b0
        (some (c.buffer.take break_at), { c with buffer := c.buffer.drop break_at })
      else (none, c)

/-- `StreamChunker::flush_remaining`. -/
def StreamChunker.flush_remaining (c : StreamChunker) : Option Bytes × StreamChunker :=
  if c.buffer.isEmpty then (none, c)
  else (some c.buffer, { c with buffer := [] })

/-- A trace step against the chunker: a `push` or a `try_flush` call. -/
inductive ChunkOp
  | push (text : Bytes)
  | tryFlush

/-- Run a trace, collecting the chunks emitted by the `try_flush` calls. -/
def runChunkOps (c : StreamChunker) : List ChunkOp → StreamChunker × List Bytes
  | [] => (c, [])
  | .push t :: ops => runChunkOps (c.push t) ops
  | .tryFlush :: ops =>
    let r := c.try_flush
    let rest := runChunkOps r.2 ops
    (rest.1, r.1.toList ++ rest.2)

/-- All text pushed by a trace, in order. -/
def pushedTexts (ops : List ChunkOp) : List Bytes :=
  ops.filterMap (fun op => match op with
    | .push t => some t
    | .tryFlush => none)

/-- Concatenation of every chunk emitted during the trace followed by the
final `flush_remaining` output. -/
def chunkerOutputConcat (c : StreamChunker) (ops : List ChunkOp) : Bytes :=
  ((runChunkOps c ops).2).flatten ++
    (((runChunkOps c ops).1.flush_remaining).1).getD []

/-- Whether a `try_flush` on this state would take the force-close arm
(inside a fence with `min_chunk ≤ buffer_len` and `max_chunk ≤ buffer_len`). -/
def StreamChunker.forceCloseFires (c : StreamChunker) : Bool :=
  !decide (c.buffer.length < c.min_chunk_chars) && c.in_code_fence &&
    decide (c.max_chunk_chars ≤ c.buffer.length)

/-- Whether the force-close arm never fires over a whole trace. -/
def noForceClose (c : StreamChunker) : List ChunkOp → Bool
  | [] => true
  | .push t :: ops => noForceClose (c.push t) ops
  | .tryFlush :: ops => !c.forceCloseFires && noForceClose (c.try_flush).2 ops

/-! ## Message types (`openfang-types/src/message.rs`) -/

/-- Message sender role. -/
inductive Role
  | system
  | user
  | assistant
deriving BEq, DecidableEq, Repr

/-- A content block within a message.  `serde_json::Value` tool inputs are
opaque pass-through payloads, modelled by their serialized text. -/
inductive ContentBlock
  | text (text : Bytes)
  | image (media_type data : Bytes)
  | toolUse (id name : Bytes) (input : String)
  | toolResult (tool_use_id tool_name : Bytes) (content : Bytes) (is_error : Bool)
  | thinking (thinking : Bytes)
  | unknown
deriving DecidableEq, Repr

/-- Message content: flat text or structured blocks. -/
inductive MessageContent
  | text (s : Bytes)
  | blocks (bs : List ContentBlock)
deriving DecidableEq, Repr

/-- A message in an LLM conversation. -/
structure Message where
  role : Role
  content : MessageContent
deriving DecidableEq, Repr

/-- `MessageContent::text_length`: `Text`, `ToolResult.content` and
`Thinking.thinking` lengths count; other blocks contribute 0. -/
def MessageContent.text_length : MessageContent → Nat
  | .text s => s.length
  | .blocks bs =>
    (bs.map (fun b => match b with
      | .text t => t.length
      | .toolResult _ _ c _ => c.length
      | .thinking t => t.length
      | _ => 0)).sum

/-- `Message::user`. -/
def Message.user (t : Bytes) : Message := ⟨.user, .text t⟩

/-! ## Overflow recovery (`openfang-runtime/src/context_overflow.rs`) -/

/-- Modelled from the spec: `crate::compactor::estimate_token_count` is not
among the sources; the spec fixes the heuristic "estimated token count:
chars/4".  Messages contribute their `text_length`, the system prompt its
length and the tool definitions an opaque character total. -/
def estimate_token_count (messages : List Message) (systemLen toolsLen : Nat) :
    Nat :=
  ((messages.map (fun m => m.content.text_length)).sum + systemLen + toolsLen) / 4

/-- The recovery stage applied. -/
inductive RecoveryStage
  | none
  | autoCompaction (removed : Nat)
  | overflowCompaction (removed : Nat)
  | toolResultTruncation (truncated : Nat)
  | finalError
deriving DecidableEq, Repr

/-- The 70% threshold, `(context_window as f64 * 0.70) as usize` (exact
integer arithmetic model of the `f64` computation). -/
def threshold70 (context_window : Nat) : Nat := 7 * context_window / 10

/-- The 90% threshold, `(context_window as f64 * 0.90) as usize`. -/
def threshold90 (context_window : Nat) : Nat := 9 * context_window / 10

/-- Stage 1 (moderate trim): when the estimate is within the 90% band, keep
the last 10 messages; returns the (possibly drained) history and the number
of removed messages. -/
def overflowStage1 (messages : List Message) (estimated thresh90 : Nat) :
    List Message × Nat :=
  if estimated ≤ thresh90 then
    let keep := min 10 messages.length
    let remove := messages.length - keep
    if 0 < remove then (messages.drop remove, remove) else (messages, 0)
  else (messages, 0)

/-- The stage-2 summary note prepended after aggressive compaction. -/
def overflowSummaryText (remove : Nat) : Bytes :=
  strBytes ("[System: " ++ Nat.repr remove ++
    " earlier messages were removed due to context overflow. The conversation continues from here. Use /compact for smarter summarization.]")

/-- Stage 2 (aggressive trim): keep the last 4 messages and prepend the
summary note; returns the new history and the number removed. -/
def overflowStage2 (msgs : List Message) : List Message × Nat :=
  let keep := min 4 msgs.length
  let remove := msgs.length - keep
  if 0 < remove then
    (Message.user (overflowSummaryText remove) :: msgs.drop remove, remove)
  else (msgs, 0)

/-- Stage 3 on one block: truncate a `ToolResult` over 2,000 bytes to the
char boundary at or before 1,920 bytes plus an overflow-recovery marker;
returns the block and whether it was truncated. -/
def overflowTruncBlock (b : ContentBlock) : ContentBlock × Nat :=
  match b with
  | .toolResult id name content is_error =>
    if 2000 < content.length then
      let keep := 2000 - 80
      let safe_keep :=
        if isCharBoundary content keep then keep
        else lastCharStartBefore content keep
      (.toolResult id name
        (content.take safe_keep ++
          strBytes ("\n\n[OVERFLOW RECOVERY: truncated from " ++
            Nat.repr content.length ++ " to " ++ Nat.repr safe_keep ++ " chars]"))
        is_error, 1)
    else (b, 0)
  | _ => (b, 0)

/-- Stage 3 over one message. -/
def overflowTruncMsg (m : Message) : Message × Nat :=
  match m.content with
  | .blocks bs =>
    let rs := bs.map overflowTruncBlock
    (⟨m.role, .blocks (rs.map (·.1))⟩, (rs.map (·.2)).sum)
  | _ => (m, 0)

/-- Stage 3 over the whole history: truncate every over-limit tool result. -/
def overflowTruncAll (msgs : List Message) : List Message × Nat :=
  let rs := msgs.map overflowTruncMsg
  (rs.map (·.1), (rs.map (·.2)).sum)

/-- `recover_from_overflow`: the strictly ordered 4-stage pipeline; returns
the applied stage and the resulting history. -/
def recover_from_overflow (messages : List Message)
    (systemLen toolsLen context_window : Nat) : RecoveryStage × List Message :=
  let estimated := estimate_token_count messages systemLen toolsLen
  if estimated ≤ threshold70 context_window then (.none, messages)
  else
    let s1 := overflowStage1 messages estimated (threshold90 context_window)
    if 0 < s1.2 ∧
        estimate_token_count s1.1 systemLen toolsLen ≤ threshold70 context_window then
      (.autoCompaction s1.2, s1.1)
    else
      let s2 := overflowStage2 s1.1
      if 0 < s2.2 ∧
          estimate_token_count s2.1 systemLen toolsLen ≤ threshold90 context_window then
        (.overflowCompaction s2.2, s2.1)
      else
        let s3 := overflowTruncAll s2.1
        if 0 < s3.2 ∧
            estimate_token_count s3.1 systemLen toolsLen ≤ threshold90 context_window then
          (.toolResultTruncation s3.2, s3.1)
        else (.finalError, s3.1)

/-! ## External content boundary (`openfang-runtime/src/web_content.rs`)

`content_boundary` hashes the URL with SHA-256 (the `sha2` crate) and takes
the lowercase hex of the first 6 bytes.  SHA-256 itself is library code, not
repository code; it is embedded here in full (FIPS 180-4) over byte lists,
with 32-bit words as `Nat` reduced mod 2^32. -/

/-- Reduction to a 32-bit word. -/
def w32 (x : Nat) : Nat := x % 4294967296

/-- 32-bit rotate right. -/
def rotr32 (n x : Nat) : Nat := ((x >>> n) ||| (x <<< (32 - n))) % 4294967296

/-- SHA-256 σ₀. -/
def smallSigma0 (x : Nat) : Nat := (rotr32 7 x) ^^^ (rotr32 18 x) ^^^ (x >>> 3)

/-- SHA-256 σ₁. -/
def smallSigma1 (x : Nat) : Nat := (rotr32 17 x) ^^^ (rotr32 19 x) ^^^ (x >>> 10)

/-- SHA-256 Σ₀. -/
def bigSigma0 (x : Nat) : Nat := (rotr32 2 x) ^^^ (rotr32 13 x) ^^^ (rotr32 22 x)

/-- SHA-256 Σ₁. -/
def bigSigma1 (x : Nat) : Nat := (rotr32 6 x) ^^^ (rotr32 11 x) ^^^ (rotr32 25 x)

/-- The 64 SHA-256 round constants. -/
def sha256K : List Nat :=
  [1116352408, 1899447441, 3049323471, 3921009573, 961987163, 1508970993,
   2453635748, 2870763221, 3624381080, 310598401, 607225278, 1426881987,
   1925078388, 2162078206, 2614888103, 3248222580, 3835390401, 4022224774,
   264347078, 604807628, 770255983, 1249150122, 1555081692, 1996064986,
   2554220882, 2821834349, 2952996808, 3210313671, 3336571891, 3584528711,
   113926993, 338241895, 666307205, 773529912, 1294757372, 1396182291,
   1695183700, 1986661051, 2177026350, 2456956037, 2730485921, 2820302411,
   3259730800, 3345764771, 3516065817, 3600352804, 4094571909, 275423344,
   430227734, 506948616, 659060556, 883997877, 958139571, 1322822218,
   1537002063, 1747873779, 1955562222, 2024104815, 2227730452, 2361852424,
   2428436474, 2756734187, 3204031479, 3329325298]

/-- The SHA-256 initial hash value. -/
def sha256H0 : List Nat :=
  [1779033703, 3144134277, 1013904242, 2773480762, 1359893119, 2600822924,
   528734635, 1541459225]

/-- SHA-256 padding: `0x80`, zeros, 64-bit big-endian bit length. -/
def sha256Pad (msg : Bytes) : Bytes :=
  let bitLen := 8 * msg.length
  let padZeros := (64 - ((msg.length + 9) % 64)) % 64
  msg ++ [0x80] ++ List.replicate padZeros 0 ++
    (List.range 8).map (fun i => (bitLen >>> (8 * (7 - i))) % 256)

/-- Big-endian 32-bit words from bytes. -/
def bytesToWords : Bytes → List Nat
  | b0 :: b1 :: b2 :: b3 :: rest =>
    (((b0 * 256 + b1) * 256 + b2) * 256 + b3) :: bytesToWords rest
  | _ => []

/-- Split into 64-byte blocks (with a structural fuel so the definition
reduces inside the kernel; `b.length` steps always suffice). -/
def chunks64Go : Nat → Bytes → List Bytes
  | 0, _ => []
  | fuel + 1, b => if b = [] then [] else b.take 64 :: chunks64Go fuel (b.drop 64)

/-- Split into 64-byte blocks. -/
def chunks64 (b : Bytes) : List Bytes := chunks64Go b.length b

/-- Extend the 16-word schedule by `n` further words. -/
def extendSchedule : List Nat → Nat → List Nat
  | ws, 0 => ws
  | ws, n + 1 =>
    let t := ws.length
    let w := w32 (smallSigma1 (ws.getD (t - 2) 0) + ws.getD (t - 7) 0 +
      smallSigma0 (ws.getD (t - 15) 0) + ws.getD (t - 16) 0)
    extendSchedule (ws ++ [w]) n

/-- One SHA-256 compression round on the eight-word state. -/
def sha256Round (st : List Nat) (kw : Nat × Nat) : List Nat :=
  match st with
  | [a, b, c, d, e, f, g, h] =>
    let ch := (e &&& f) ^^^ ((e ^^^ 4294967295) &&& g)
    let maj := (a &&& b) ^^^ (a &&& c) ^^^ (b &&& c)
    let t1 := w32 (h + bigSigma1 e + ch + kw.1 + kw.2)
    let t2 := w32 (bigSigma0 a + maj)
    [w32 (t1 + t2), a, b, c, w32 (d + t1), e, f, g]
  | _ => st

/-- SHA-256 block compression. -/
def sha256Compress (h : List Nat) (block : Bytes) : List Nat :=
  let ws := extendSchedule (bytesToWords block) 48
  let st := (sha256K.zip ws).foldl sha256Round h
  (h.zip st).map (fun p => w32 (p.1 + p.2))

/-- SHA-256 of a byte string, as its 32-byte big-endian digest. -/
def sha256 (msg : Bytes) : Bytes :=
  let final := (chunks64 (sha256Pad msg)).foldl sha256Compress sha256H0
  final.flatMap
    (fun w => [(w >>> 24) % 256, (w >>> 16) % 256, (w >>> 8) % 256, w % 256])

/-- One lowercase hex digit. -/
def hexDigit (n : Nat) : Char :=
  if n < 10 then Char.ofNat (48 + n) else Char.ofNat (87 + n)

/-- Lowercase hex encoding (`hex::encode`). -/
def hexEncode (bs : Bytes) : List Char :=
  bs.flatMap (fun b => [hexDigit (b / 16), hexDigit (b % 16)])

/-- `content_boundary`: `"EXTCONTENT_"` followed by the lowercase hex of the
first 6 bytes (12 hex chars) of SHA-256 of the URL bytes. -/
def content_boundary (source_url : Bytes) : String :=
  String.mk (("EXTCONTENT_".data) ++ hexEncode ((sha256 source_url).take 6))

/-! ## Anthropic driver message conversion
(`openfang-runtime/src/drivers/anthropic.rs`)

Both `complete` and `stream` build their outbound message list with the same
pipeline: `request.messages.iter().filter(|m| m.role != Role::System)
.map(convert_message).collect()`.  The serializable request block type
(`ApiContentBlock`) has exactly the four variants `text`, `image`,
`tool_use`, `tool_result`. -/

/-- An outbound Anthropic API content block (`#[serde(tag = "type")]`). -/
inductive ApiContentBlock
  | text (text : Bytes)
  | image (source_type media_type data : Bytes)
  | toolUse (id name : Bytes) (input : String)
  | toolResult (tool_use_id : Bytes) (content : Bytes) (is_error : Bool)
deriving DecidableEq, Repr

/-- Outbound message content: flat text or blocks. -/
inductive ApiContent
  | text (s : Bytes)
  | blocks (bs : List ApiContentBlock)
deriving DecidableEq, Repr

/-- An outbound Anthropic API message. -/
structure ApiMessage where
  role : Bytes
  content : ApiContent
deriving DecidableEq, Repr

/-- The `filter_map` closure of `convert_message`: `Thinking` and `Unknown`
map to `None`, the four serializable kinds pass through. -/
def convert_block (block : ContentBlock) : Option ApiContentBlock :=
  match block with
  | .text t => some (.text t)
  | .image mt d => some (.image (strBytes ("base64")) mt d)
  | .toolUse id name input => some (.toolUse id name input)
  | .toolResult tuid _ content is_error => some (.toolResult tuid content is_error)
  | .thinking _ => none
  | .unknown => none

/-- `convert_message`: role mapping (`System` degrades to `"user"`, though it
is filtered out upstream) and block conversion. -/
def convert_message (msg : Message) : ApiMessage :=
  let role := match msg.role with
    | .user => strBytes ("user")
    | .assistant => strBytes ("assistant")
    | .system => strBytes ("user")
  let content := match msg.content with
    | .text t => ApiContent.text t
    | .blocks bs => ApiContent.blocks (bs.filterMap convert_block)
  ⟨role, content⟩

/-- The shared outbound pipeline of `complete` and `stream`: drop system-role
messages, convert the rest. -/
def build_api_messages (messages : List Message) : List ApiMessage :=
  (messages.filter (fun m => !(m.role == Role.system))).map convert_message

/-- Whether a block survives conversion (not `Thinking`, not `Unknown`). -/
def isSerializableBlock (b : ContentBlock) : Bool :=
  match b with
  | .thinking _ => false
  | .unknown => false
  | _ => true

/-- A message with its `Thinking` and `Unknown` blocks deleted. -/
def stripThinkingUnknown (msg : Message) : Message :=
  match msg.content with
  | .blocks bs => ⟨msg.role, .blocks (bs.filter isSerializableBlock)⟩
  | _ => msg

/-- Sample assistant message with a reasoning trace, for exercising the
outbound conversion. -/
def sampleC9Msg : Message :=
  ⟨.assistant, .blocks
    [.text (strBytes ("hi")), .thinking (strBytes ("secret chain of thought")),
      .toolUse (strBytes ("t1")) (strBytes ("web_search")) "\x7b\x7d", .unknown]⟩

/-- Sample history for exercising the overflow pipeline: twelve ten-byte
user messages (120 chars ⇒ estimate 30 tokens). -/
def sampleOverflowHistory : List Message :=
  List.replicate 12 (Message.user (List.replicate 10 97))

/-! ## Context guard (`openfang-runtime/src/context_budget.rs`, Layer 2)

`apply_context_guard` collects `(msg_idx, block_idx, char_len)` locations of
every `ToolResult` block in chronological order, early-returns when the total
is within headroom, then runs two passes that mutate the history in place by
index.  Lists are addressed structurally by the same indices. -/

/-- The `[COMPACTED: …]` marker appended by `truncate_to`. -/
def compactMarker (origLen breakPoint : Nat) : Bytes :=
  strBytes ("\n\n[COMPACTED: " ++ Nat.repr origLen ++ " → " ++
    Nat.repr breakPoint ++ " chars by context guard]")

/-- `truncate_to`: keep short content; otherwise cut at the last newline in
the 100-byte window ending at `max_chars − 80` (falling back to that point)
and append the marker. -/
def truncate_to (content : Bytes) (max_chars : Nat) : Bytes :=
  if content.length ≤ max_chars then content
  else
    let keep := max_chars - 80
    let break_point :=
      match rfindByte ((content.take keep).drop (keep - 100)) 10 with
      | some pos => (keep - 100) + pos
      | none => keep
    content.take break_point ++ compactMarker content.length break_point

/-- A `ToolResult` location recorded by the guard's collection scan. -/
structure ToolResultLoc where
  msg_idx : Nat
  block_idx : Nat
  char_len : Nat
deriving DecidableEq, Repr

/-- Collection scan over one message's blocks, from block index `bi`. -/
def collectBlocks (mi bi : Nat) : List ContentBlock → List ToolResultLoc
  | [] => []
  | b :: rest =>
    (match b with
      | .toolResult _ _ c _ => [⟨mi, bi, c.length⟩]
      | _ => []) ++ collectBlocks mi (bi + 1) rest

/-- The blocks of a message (`[]` for flat text). -/
def blocksOf (m : Message) : List ContentBlock :=
  match m.content with
  | .blocks bs => bs
  | _ => []

/-- Collection scan from message index `mi`. -/
def collectFrom (mi : Nat) : List Message → List ToolResultLoc
  | [] => []
  | m :: rest => collectBlocks mi 0 (blocksOf m) ++ collectFrom (mi + 1) rest

/-- All `ToolResult` locations, in chronological order. -/
def collectToolResults (ms : List Message) : List ToolResultLoc :=
  collectFrom 0 ms

/-- Read a `ToolResult` content in a block list at an index. -/
def getBlockTR : List ContentBlock → Nat → Option Bytes
  | [], _ => none
  | b :: _, 0 =>
    match b with
    | .toolResult _ _ c _ => some c
    | _ => none
  | _ :: rest, bi + 1 => getBlockTR rest bi

/-- Read a `ToolResult` content at `(msg_idx, block_idx)`. -/
def getToolResultContent : List Message → Nat → Nat → Option Bytes
  | [], _, _ => none
  | m :: _, 0, bi => getBlockTR (blocksOf m) bi
  | _ :: rest, mi + 1, bi => getToolResultContent rest mi bi

/-- Overwrite the content of the `ToolResult` at a block index (no-op when
the index misses or the block is not a `ToolResult`, mirroring the nested
`if let` writes). -/
def setBlocks (c' : Bytes) : List ContentBlock → Nat → List ContentBlock
  | [], _ => []
  | b :: rest, 0 =>
    (match b with
      | .toolResult id nm _ ie => ContentBlock.toolResult id nm c' ie
      | _ => b) :: rest
  | b :: rest, bi + 1 => b :: setBlocks c' rest bi

/-- Overwrite the `ToolResult` content at `(msg_idx, block_idx)`. -/
def setToolResultContent : List Message → Nat → Nat → Bytes → List Message
  | [], _, _, _ => []
  | m :: rest, 0, bi, c' =>
    (match m.content with
      | .blocks bs => ⟨m.role, .blocks (setBlocks c' bs bi)⟩
      | _ => m) :: rest
  | m :: rest, mi + 1, bi, c' => m :: setToolResultContent rest mi bi c'

/-- Total `ToolResult` content bytes in a block list. -/
def sumBlocksTR : List ContentBlock → Nat
  | [] => 0
  | b :: rest =>
    (match b with
      | .toolResult _ _ c _ => c.length
      | _ => 0) + sumBlocksTR rest

/-- Total `ToolResult` content bytes in a history. -/
def sumTR : List Message → Nat
  | [] => 0
  | m :: rest =>
    (match m.content with
      | .blocks bs => sumBlocksTR bs
      | _ => 0) + sumTR rest

/-- Guard state: the history, the running `total_chars`, and the `compacted`
counter. -/
abbrev GuardState := List Message × Nat × Nat

/-- First pass: cap any single result above `single_max` (walking the
pre-collected locations). -/
def guardPass1 (single_max : Nat) (locs : List ToolResultLoc)
    (st : GuardState) : GuardState :=
  locs.foldl (fun st loc =>
    if single_max < loc.char_len then
      match getToolResultContent st.1 loc.msg_idx loc.block_idx with
      | some content =>
        let newC := truncate_to content single_max
        (setToolResultContent st.1 loc.msg_idx loc.block_idx newC,
          st.2.1 - content.length + newC.length, st.2.2 + 1)
      | none => st
    else st) st

/-- Second pass: compact oldest results above the compact target until the
total is within headroom (early break when it is). -/
def guardPass2 (headroom compact_target : Nat) :
    List ToolResultLoc → GuardState → GuardState
  | [], st => st
  | loc :: rest, st =>
    if st.2.1 ≤ headroom then st
    else if loc.char_len ≤ compact_target then
      guardPass2 headroom compact_target rest st
    else
      match getToolResultContent st.1 loc.msg_idx loc.block_idx with
      | some content =>
        if compact_target < content.length then
          let newC := truncate_to content compact_target
          guardPass2 headroom compact_target rest
            (setToolResultContent st.1 loc.msg_idx loc.block_idx newC,
              st.2.1 - content.length + newC.length, st.2.2 + 1)
        else guardPass2 headroom compact_target rest st
      | none => guardPass2 headroom compact_target rest st

/-- `apply_context_guard`: early return when the total is within headroom,
else the two passes; returns the history and the `compacted` count. -/
def apply_context_guard (messages : List Message) (budget : ContextBudget) :
    List Message × Nat :=
  let headroom := budget.total_tool_headroom_chars
  let single_max := budget.single_result_max
  let locations := collectToolResults messages
  let total_chars := (locations.map (·.char_len)).sum
  if total_chars ≤ headroom then (messages, 0)
  else
    let st1 := guardPass1 single_max locations (messages, total_chars, 0)
    let st2 := guardPass2 headroom 2000 locations st1
    (st2.1, st2.2.2)

/-- Two locations at different positions. -/
def locNe (a b : ToolResultLoc) : Prop :=
  a.msg_idx ≠ b.msg_idx ∨ a.block_idx ≠ b.block_idx

/-- Guaranteed outcome of the guard once initial tool-result content exceeds
the headroom: after the first pass (and still at the end) no `ToolResult` is
above `single_result_max`, and the final total is within headroom unless every
`ToolResult` is already at or below the 2,000-byte compact target. -/
def guardConclusion (messages : List Message) (budget : ContextBudget) : Prop :=
  (∀ mi bi c,
      getToolResultContent
        (guardPass1 budget.single_result_max (collectToolResults messages)
          (messages, sumTR messages, 0)).1 mi bi = some c →
      c.length ≤ budget.single_result_max) ∧
  (∀ mi bi c,
      getToolResultContent (apply_context_guard messages budget).1 mi bi =
        some c →
      c.length ≤ budget.single_result_max) ∧
  (sumTR (apply_context_guard messages budget).1 ≤
      budget.total_tool_headroom_chars ∨
    ∀ mi bi c,
      getToolResultContent (apply_context_guard messages budget).1 mi bi =
        some c →
      c.length ≤ 2000)

/-- A history whose lone 120-byte `ToolResult` is within the headroom of a
100-token window (150 chars) but above its `single_result_max` (100 chars). -/
def guardCexMsgs : List Message :=
  [⟨.user, .blocks [.toolResult [] [] (List.replicate 120 97) false]⟩]

/-- A history whose lone 3,100-byte `ToolResult` exceeds the headroom of a
2,000-token window (3,000 chars), so the guard actually runs. -/
def guardWitMsgs : List Message :=
  [⟨.user, .blocks [.toolResult [] [] (List.replicate 3100 97) false]⟩]


/-! ## HTML → Markdown (`openfang-runtime/src/web_content.rs`)

The extraction pipeline works on the raw UTF-8 bytes of Rust strings.  A
Rust byte slice `s[a..b]` panics unless `a ≤ b ≤ s.len()` and both ends are
char boundaries, so the embedding threads `Option`: `none` arises exactly
where the Rust code would panic.  The `while` loops advance their cursor
strictly, so they are given fuel `length + 1`; running out of fuel also
yields `none`, and the totality theorem shows this never happens.  Helpers
that never index (`strip_all_tags`, `decode_entities`,
`collapse_whitespace`) are total; `trim` is modelled on ASCII whitespace
(Rust trims Unicode whitespace — same bytes on the inputs at issue, and
immaterial for panic-freedom). -/

/-- A UTF-8 continuation byte (`0x80..0xBF`). -/
def contByte (b : Nat) : Bool :=
  decide (0x80 ≤ b) && decide (b < 0xC0)

/-- No continuation byte directly follows an ASCII byte.  Every valid UTF-8
byte string satisfies this; it is exactly what makes the position after a
matched ASCII byte a char boundary. -/
def okSeq : Bytes → Bool
  | [] => true
  | [_] => true
  | a :: b :: rest => !(decide (a < 0x80) && contByte b) && okSeq (b :: rest)

/-- The first byte, if any, is not a continuation byte (holds for valid
UTF-8). -/
def headOk : Bytes → Bool
  | [] => true
  | b :: _ => !contByte b

/-- Coarse well-formedness: all the pipeline needs of valid UTF-8. -/
def okStr (s : Bytes) : Bool := okSeq s && headOk s

/-- Checked byte slice `s[a..b]`: `none` exactly when Rust would panic
(ends out of order, out of range, or off a char boundary). -/
def sliceCB (s : Bytes) (a b : Nat) : Option Bytes :=
  if decide (a ≤ b) && decide (b ≤ s.length) &&
      isCharBoundary s a && isCharBoundary s b then
    some ((s.take b).drop a)
  else none

/-- `u8::to_ascii_lowercase`. -/
def toAsciiLower (b : Nat) : Nat :=
  if 0x41 ≤ b ∧ b ≤ 0x5A then b + 32 else b

/-- `u8::eq_ignore_ascii_case`. -/
def eqIgnoreAsciiCase (a b : Nat) : Bool :=
  toAsciiLower a == toAsciiLower b

/-- The inner loop of `find_ci`: the needle matches at `i`,
ASCII-case-insensitively. -/
def matchCiAt (h n : Bytes) (i : Nat) : Bool :=
  (List.range n.length).all fun j =>
    eqIgnoreAsciiCase (h.getD (i + j) 0) (n.getD j 0)

/-- `find_ci`: first ASCII-case-insensitive occurrence of `n` in `h` at or
after byte offset `f` (`None` on an empty needle or when no window fits). -/
def find_ci (h n : Bytes) (f : Nat) : Option Nat :=
  if n.length = 0 ∨ h.length < f + n.length then none
  else (List.range' f (h.length - n.length + 1 - f)).find? (matchCiAt h n)

/-- Rust `str::find(char)` for one ASCII byte, as used on tag suffixes. -/
def findByte (s : Bytes) (b : Nat) : Option Nat :=
  findPat s [b]

/-- The loop of `remove_tag_blocks`, fuelled. -/
def removeTagBlocksGo (html op cl : Bytes) :
    Nat → Nat → Bytes → Option Bytes
  | 0, _, _ => none
  | fuel + 1, pos, acc =>
    if pos < html.length then
      match find_ci html op pos with
      | some abs_start =>
        match sliceCB html pos abs_start with
        | none => none
        | some piece =>
          match find_ci html cl abs_start with
          | some e =>
            removeTagBlocksGo html op cl fuel (e + cl.length) (acc ++ piece)
          | none =>
            match sliceCB html abs_start html.length with
            | none => none
            | some tail =>
              match findByte tail 62 with
              | some gt =>
                removeTagBlocksGo html op cl fuel (abs_start + gt + 1)
                  (acc ++ piece)
              | none =>
                removeTagBlocksGo html op cl fuel html.length (acc ++ piece)
      | none =>
        match sliceCB html pos html.length with
        | none => none
        | some rest => some (acc ++ rest)
    else some acc

/-- `remove_tag_blocks`: drop every `<tag …>…</tag>` block
(ASCII-case-insensitively). -/
def remove_tag_blocks (html tag : Bytes) : Option Bytes :=
  removeTagBlocksGo html (strBytes "<" ++ tag)
    (strBytes "</" ++ tag ++ strBytes ">") (html.length + 1) 0 []

/-- The HTML-comment removal loop of `remove_non_content_blocks`, fuelled
(each step removes at least four bytes). -/
def removeCommentsGo : Nat → Bytes → Option Bytes
  | 0, _ => none
  | fuel + 1, s =>
    match findPat s (strBytes "<!--") with
    | none => some s
    | some start =>
      match findPat s (strBytes "-->") with
      | none => some s
      | some e =>
        if start < e then
          match sliceCB s 0 start with
          | none => none
          | some a =>
            match sliceCB s (e + 3) s.length with
            | none => none
            | some b => removeCommentsGo fuel (a ++ b)
        else some s

/-- The tags stripped with their contents, in source order. -/
def tags_to_remove : List Bytes :=
  [strBytes "script", strBytes "style", strBytes "nav", strBytes "footer",
    strBytes "iframe", strBytes "svg", strBytes "form", strBytes "noscript",
    strBytes "header"]

/-- `remove_non_content_blocks`: strip the non-content tag blocks, then
HTML comments. -/
def remove_non_content_blocks (html : Bytes) : Option Bytes :=
  (tags_to_remove.foldlM (fun r tag => remove_tag_blocks r tag) html).bind
    fun r => removeCommentsGo (r.length + 1) r

/-- One tag attempt of `extract_main_content`.  Outer `none` is a panic;
`some none` means this tag did not yield a content area. -/
def extractTry (html tag : Bytes) : Option (Option Bytes) :=
  match find_ci html (strBytes "<" ++ tag) 0 with
  | none => some none
  | some start =>
    match sliceCB html start html.length with
    | none => none
    | some tail =>
      match findByte tail 62 with
      | none => some none
      | some gt =>
        match find_ci html (strBytes "</" ++ tag ++ strBytes ">")
            (start + gt + 1) with
        | none => some none
        | some e =>
          match sliceCB html (start + gt + 1) e with
          | none => none
          | some c => some (some c)

/-- `extract_main_content`: `<main>`, `<article>`, `<body>` in priority
order, falling back to the whole page. -/
def extract_main_content (html : Bytes) : Option Bytes :=
  match extractTry html (strBytes "main") with
  | none => none
  | some (some c) => some c
  | some none =>
    match extractTry html (strBytes "article") with
    | none => none
    | some (some c) => some c
    | some none =>
      match extractTry html (strBytes "body") with
      | none => none
      | some (some c) => some c
      | some none => some html

/-- The loop of `convert_inline_tag`, fuelled. -/
def convertInlineGo (html op cl mdOpen mdClose : Bytes) :
    Nat → Nat → Bytes → Option Bytes
  | 0, _, _ => none
  | fuel + 1, pos, acc =>
    if pos < html.length then
      match find_ci html op pos with
      | some abs_start =>
        match sliceCB html pos abs_start with
        | none => none
        | some piece =>
          match sliceCB html abs_start html.length with
          | none => none
          | some tail =>
            match findByte tail 62 with
            | some gt =>
              match find_ci html cl (abs_start + gt + 1) with
              | some e =>
                match sliceCB html (abs_start + gt + 1) e with
                | none => none
                | some inner =>
                  convertInlineGo html op cl mdOpen mdClose fuel
                    (e + cl.length)
                    (acc ++ piece ++ mdOpen ++ inner ++ mdClose)
              | none =>
                convertInlineGo html op cl mdOpen mdClose fuel
                  (abs_start + gt + 1) (acc ++ piece ++ mdOpen)
            | none =>
              match sliceCB html abs_start (abs_start + 1) with
              | none => none
              | some one =>
                convertInlineGo html op cl mdOpen mdClose fuel
                  (abs_start + 1) (acc ++ piece ++ one)
      | none =>
        match sliceCB html pos html.length with
        | none => none
        | some rest => some (acc ++ rest)
    else some acc

/-- `convert_inline_tag`: rewrite `<op …>…</cl>` pairs to Markdown
markers. -/
def convert_inline_tag (html op cl mdOpen mdClose : Bytes) : Option Bytes :=
  convertInlineGo html op cl mdOpen mdClose (html.length + 1) 0 []

/-- `str::replace`, scanning left to right, fuelled by the input length. -/
def replaceAllGo (pat rep : Bytes) : Nat → Bytes → Option Bytes
  | _, [] => some []
  | 0, _ :: _ => none
  | fuel + 1, b :: rest =>
    if patternAt (b :: rest) pat 0 then
      match replaceAllGo pat rep fuel ((b :: rest).drop pat.length) with
      | some r => some (rep ++ r)
      | none => none
    else
      match replaceAllGo pat rep fuel rest with
      | some r => some (b :: r)
      | none => none

/-- `s.replace(pat, rep)`. -/
def replaceAll (s pat rep : Bytes) : Option Bytes :=
  replaceAllGo pat rep s.length s

/-- The scan of `strip_all_tags` (byte-level: `<` and `>` are ASCII, so
the char scan of the source visits exactly these bytes). -/
def stripTagsGo : Bool → Bytes → Bytes
  | _, [] => []
  | in_tag, b :: rest =>
    if b = 60 then stripTagsGo true rest
    else if b = 62 then stripTagsGo false rest
    else if in_tag then stripTagsGo in_tag rest
    else b :: stripTagsGo in_tag rest

/-- `strip_all_tags`: drop everything between `<` and `>`. -/
def strip_all_tags (s : Bytes) : Bytes := stripTagsGo false s

/-- The single-quote fallback of `extract_attribute`. -/
def extractAttrSq (tag attr : Bytes) : Option (Option Bytes) :=
  match find_ci tag (attr ++ strBytes "='") 0 with
  | none => some none
  | some start =>
    match sliceCB tag (start + (attr ++ strBytes "='").length)
        tag.length with
    | none => none
    | some tailq =>
      match findByte tailq 39 with
      | none => some none
      | some e =>
        match sliceCB tag (start + (attr ++ strBytes "='").length)
            (start + (attr ++ strBytes "='").length + e) with
        | none => none
        | some v => some (some v)

/-- `extract_attribute`: a double-quoted value, else a single-quoted one. -/
def extract_attribute (tag attr : Bytes) : Option (Option Bytes) :=
  match find_ci tag (attr ++ strBytes "=" ++ strBytes "\"") 0 with
  | none => extractAttrSq tag attr
  | some start =>
    match sliceCB tag (start + (attr ++ strBytes "=" ++ strBytes "\"").length)
        tag.length with
    | none => none
    | some tailq =>
      match findByte tailq 34 with
      | none => extractAttrSq tag attr
      | some e =>
        match sliceCB tag
            (start + (attr ++ strBytes "=" ++ strBytes "\"").length)
            (start + (attr ++ strBytes "=" ++ strBytes "\"").length + e) with
        | none => none
        | some v => some (some v)

/-- The loop of `convert_links`, fuelled. -/
def convertLinksGo (html : Bytes) : Nat → Nat → Bytes → Option Bytes
  | 0, _, _ => none
  | fuel + 1, pos, acc =>
    if pos < html.length then
      match find_ci html (strBytes "<a ") pos with
      | some abs_start =>
        match sliceCB html pos abs_start with
        | none => none
        | some piece =>
          match sliceCB html abs_start html.length with
          | none => none
          | some tag_content =>
            match extract_attribute tag_content (strBytes "href") with
            | none => none
            | some href =>
              match findByte tag_content 62 with
              | some gt =>
                match find_ci html (strBytes "</a>") (abs_start + gt + 1) with
                | some e =>
                  match sliceCB html (abs_start + gt + 1) e with
                  | none => none
                  | some txt =>
                    convertLinksGo html fuel (e + 4)
                      (acc ++ piece ++
                        match href with
                        | some url =>
                          strBytes "[" ++ trimBytes (strip_all_tags txt) ++
                            strBytes "](" ++ url ++ strBytes ")"
                        | none => trimBytes (strip_all_tags txt))
                | none =>
                  convertLinksGo html fuel (abs_start + gt + 1)
                    (acc ++ piece)
              | none =>
                match sliceCB html abs_start (abs_start + 1) with
                | none => none
                | some one =>
                  convertLinksGo html fuel (abs_start + 1)
                    (acc ++ piece ++ one)
      | none =>
        match sliceCB html pos html.length with
        | none => none
        | some rest => some (acc ++ rest)
    else some acc

/-- `convert_links`: rewrite `<a href="url">text</a>` to `[text](url)`. -/
def convert_links (html : Bytes) : Option Bytes :=
  convertLinksGo html (html.length + 1) 0 []

/-- First half of the `decode_entities` replacement chain (split to keep
elaboration linear). -/
def decodeEntitiesA (s : Bytes) : Option Bytes :=
  (replaceAll s (strBytes "&amp;") (strBytes "&")).bind fun s =>
  (replaceAll s (strBytes "&lt;") (strBytes "<")).bind fun s =>
  (replaceAll s (strBytes "&gt;") (strBytes ">")).bind fun s =>
  (replaceAll s (strBytes "&quot;") (strBytes "\"")).bind fun s =>
  (replaceAll s (strBytes "&#x27;") (strBytes "'")).bind fun s =>
  (replaceAll s (strBytes "&#39;") (strBytes "'")).bind fun s =>
  replaceAll s (strBytes "&nbsp;") (strBytes " ")

/-- Second half of the `decode_entities` replacement chain. -/
def decodeEntitiesB (s : Bytes) : Option Bytes :=
  (replaceAll s (strBytes "&mdash;") (strBytes "—")).bind fun s =>
  (replaceAll s (strBytes "&ndash;") (strBytes "–")).bind fun s =>
  (replaceAll s (strBytes "&hellip;") (strBytes "…")).bind fun s =>
  (replaceAll s (strBytes "&copy;") (strBytes "©")).bind fun s =>
  (replaceAll s (strBytes "&reg;") (strBytes "®")).bind fun s =>
  replaceAll s (strBytes "&trade;") (strBytes "™")

/-- `decode_entities`: the full entity replacement chain. -/
def decode_entities (s : Bytes) : Option Bytes :=
  (decodeEntitiesA s).bind decodeEntitiesB

/-- Split at newline bytes (keeping a final empty segment). -/
def splitOnNl : Bytes → List Bytes
  | [] => [[]]
  | b :: rest =>
    if b = 10 then [] :: splitOnNl rest
    else
      match splitOnNl rest with
      | [] => [[b]]
      | l :: ls => (b :: l) :: ls

/-- Strip one trailing carriage return. -/
def stripCr (l : Bytes) : Bytes :=
  if l.getLast? = some 13 then l.dropLast else l

/-- Rust `str::lines`: split at `\n`, drop a final empty segment, strip a
trailing `\r` from each line. -/
def rustLines (s : Bytes) : List Bytes :=
  (match (splitOnNl s).reverse with
    | [] => []
    | last :: revInit =>
      if last = [] then revInit.reverse
      else (last :: revInit).reverse).map stripCr

/-- The line fold of `collapse_whitespace`, tracking `blank_count`. -/
def collapseGo : List Bytes → Nat → Bytes → Bytes
  | [], _, acc => acc
  | l :: ls, blanks, acc =>
    if l = [] then
      if blanks + 1 ≤ 2 then collapseGo ls (blanks + 1) (acc ++ [10])
      else collapseGo ls (blanks + 1) acc
    else collapseGo ls 0 (acc ++ l ++ [10])

/-- `collapse_whitespace`: trim lines, cap blank runs at two, trim the
result. -/
def collapse_whitespace (s : Bytes) : Bytes :=
  trimBytes (collapseGo ((rustLines s).map trimBytes) 0 [])

/-- The heading loop of `convert_elements` (`for level in (1..=6).rev()`). -/
def convertHeadings (r : Bytes) : Option Bytes :=
  (convert_inline_tag r (strBytes "<h6") (strBytes "</h6>")
      (strBytes "\n\n###### ") (strBytes "\n\n")).bind fun r =>
  (convert_inline_tag r (strBytes "<h5") (strBytes "</h5>")
      (strBytes "\n\n##### ") (strBytes "\n\n")).bind fun r =>
  (convert_inline_tag r (strBytes "<h4") (strBytes "</h4>")
      (strBytes "\n\n#### ") (strBytes "\n\n")).bind fun r =>
  (convert_inline_tag r (strBytes "<h3") (strBytes "</h3>")
      (strBytes "\n\n### ") (strBytes "\n\n")).bind fun r =>
  (convert_inline_tag r (strBytes "<h2") (strBytes "</h2>")
      (strBytes "\n\n## ") (strBytes "\n\n")).bind fun r =>
  convert_inline_tag r (strBytes "<h1") (strBytes "</h1>")
    (strBytes "\n\n# ") (strBytes "\n\n")

/-- The three `<br>` replacements of `convert_elements`. -/
def convertBreaks (r : Bytes) : Option Bytes :=
  (replaceAll r (strBytes "<br>") (strBytes "\n")).bind fun r =>
  (replaceAll r (strBytes "<br/>") (strBytes "\n")).bind fun r =>
  replaceAll r (strBytes "<br />") (strBytes "\n")

/-- The bold and italic conversions of `convert_elements`. -/
def convertEmphasis (r : Bytes) : Option Bytes :=
  (convert_inline_tag r (strBytes "<strong") (strBytes "</strong>")
      (strBytes "**") (strBytes "**")).bind fun r =>
  (convert_inline_tag r (strBytes "<b") (strBytes "</b>")
      (strBytes "**") (strBytes "**")).bind fun r =>
  (convert_inline_tag r (strBytes "<em") (strBytes "</em>")
      (strBytes "*") (strBytes "*")).bind fun r =>
  convert_inline_tag r (strBytes "<i") (strBytes "</i>")
    (strBytes "*") (strBytes "*")

/-- The code-block and blockquote conversions of `convert_elements`. -/
def convertCodeQuote (r : Bytes) : Option Bytes :=
  (convert_inline_tag r (strBytes "<pre") (strBytes "</pre>")
      (strBytes "\n```\n") (strBytes "\n```\n")).bind fun r =>
  (convert_inline_tag r (strBytes "<code") (strBytes "</code>")
      (strBytes "`") (strBytes "`")).bind fun r =>
  convert_inline_tag r (strBytes "<blockquote") (strBytes "</blockquote>")
    (strBytes "\n> ") (strBytes "\n")

/-- The list conversions of `convert_elements`. -/
def convertLists (r : Bytes) : Option Bytes :=
  (convert_inline_tag r (strBytes "<ul") (strBytes "</ul>")
      (strBytes "\n") (strBytes "\n")).bind fun r =>
  (convert_inline_tag r (strBytes "<ol") (strBytes "</ol>")
      (strBytes "\n") (strBytes "\n")).bind fun r =>
  convert_inline_tag r (strBytes "<li") (strBytes "</li>")
    (strBytes "- ") (strBytes "\n")

/-- The div, span and section conversions of `convert_elements`. -/
def convertContainers (r : Bytes) : Option Bytes :=
  (convert_inline_tag r (strBytes "<div") (strBytes "</div>")
      (strBytes "\n") (strBytes "\n")).bind fun r =>
  (convert_inline_tag r (strBytes "<span") (strBytes "</span>")
      (strBytes "") (strBytes "")).bind fun r =>
  convert_inline_tag r (strBytes "<section") (strBytes "</section>")
    (strBytes "\n") (strBytes "\n")

/-- `convert_elements`: the full Markdown conversion chain, in source
order. -/
def convert_elements (html : Bytes) : Option Bytes :=
  (convertHeadings html).bind fun r =>
  (convert_inline_tag r (strBytes "<p") (strBytes "</p>")
      (strBytes "\n\n") (strBytes "\n\n")).bind fun r =>
  (convertBreaks r).bind fun r =>
  (convertEmphasis r).bind fun r =>
  (convertCodeQuote r).bind fun r =>
  (convertLists r).bind fun r =>
  (convert_links r).bind fun r =>
  (convertContainers r).bind fun r =>
  decode_entities (strip_all_tags r)

/-- `html_to_markdown`: the four-phase pipeline. -/
def html_to_markdown (html : Bytes) : Option Bytes :=
  (remove_non_content_blocks html).bind fun cleaned =>
  (extract_main_content cleaned).bind fun content =>
  (convert_elements content).map collapse_whitespace

/-- The pipeline step returned without a panic, with a well-formed
result. -/
def TotOk (r : Option Bytes) : Prop := ∃ t, r = some t ∧ okStr t = true

/-! ## Theorems -/

/-- Helper: `lastCharStartBefore` never moves forward. -/
theorem lastCharStartBefore_le (s : Bytes) : ∀ i, lastCharStartBefore s i ≤ i := by
  intro i
  induction i with
  | zero => simp [lastCharStartBefore]
  | succ j ih =>
    unfold lastCharStartBefore
    dsimp only
    split
    · exact Nat.le_succ j
    · exact Nat.le_trans ih (Nat.le_succ j)

/-- Helper: a pattern match at `i` fits inside the text. -/
theorem patternAt_add_le {t p : Bytes} {i : Nat} (h : patternAt t p i = true)
    (hi : i ≤ t.length) : i + p.length ≤ t.length := by
  unfold patternAt at h
  have hlen := congrArg List.length (of_decide_eq_true h)
  simp only [List.length_take, List.length_drop] at hlen
  omega

/-- Helper: soundness of `rfindPat` — the match holds and fits in the text. -/
theorem rfindPat_sound {t p : Bytes} {i : Nat} (h : rfindPat t p = some i) :
    patternAt t p i = true ∧ i + p.length ≤ t.length := by
  unfold rfindPat at h
  have hp := List.find?_some h
  have hm := List.mem_of_find?_eq_some h
  rw [List.mem_reverse, List.mem_range] at hm
  exact ⟨hp, patternAt_add_le hp (by omega)⟩

/-- Helper: soundness of `findPat`. -/
theorem findPat_sound {t p : Bytes} {i : Nat} (h : findPat t p = some i) :
    patternAt t p i = true ∧ i + p.length ≤ t.length := by
  unfold findPat at h
  have hp := List.find?_some h
  have hm := List.mem_of_find?_eq_some h
  rw [List.mem_range] at hm
  exact ⟨hp, patternAt_add_le hp (by omega)⟩

/-- Helper: the env-var nonemptiness check succeeds iff the variable is set
to a non-empty value. -/
theorem envNonempty_iff (env : EnvMap) (name : String) :
    envNonempty env name = true ↔
      ∃ v, envVarLookup env name = some v ∧ v ≠ "" := by
  unfold envNonempty
  cases h : envVarLookup env name with
  | none => simp
  | some v =>
    simp only [Bool.not_eq_true', Option.some.injEq]
    constructor
    · intro hv
      refine ⟨v, rfl, fun hEq => ?_⟩
      subst hEq
      exact absurd hv (by decide)
    · rintro ⟨w, hw, hne⟩
      cases hw
      cases hve : v.isEmpty
      · rfl
      · exact absurd ((String.isEmpty_iff v).mp hve) hne

/-- C5: `activate(id, config)` returns `Err(NotFound)` iff `id` is not a known
definition; when the definition is known it returns `Err(AlreadyActive)` iff
some existing instance with `hand_id = id` currently has status `Active`; and
otherwise it returns `Ok` with a freshly stored instance whose status is
`Active`, whose `agent_id` is `None` and whose timestamps are set. -/
theorem activate_spec (reg : HandRegistry) (handId : String) (config : HandConfig)
    (freshId now : Nat) :
    (((reg.activate handId config freshId now).1 = .error (.notFound handId)) ↔
      (reg.get_definition handId).isSome = false) ∧
    ((reg.get_definition handId).isSome = true →
      (((reg.activate handId config freshId now).1 = .error (.alreadyActive handId)) ↔
        reg.instances.any
          (fun p => p.2.hand_id == handId && p.2.status == HandStatus.active) = true)) ∧
    ((reg.get_definition handId).isSome = true →
      reg.instances.any
        (fun p => p.2.hand_id == handId && p.2.status == HandStatus.active) = false →
      (reg.activate handId config freshId now).1 =
        .ok (HandInstance.new handId config freshId now) ∧
      (HandInstance.new handId config freshId now).status = .active ∧
      (HandInstance.new handId config freshId now).agent_id = none ∧
      (HandInstance.new handId config freshId now).activated_at = now ∧
      (HandInstance.new handId config freshId now).updated_at = now ∧
      (freshId, HandInstance.new handId config freshId now) ∈
        (reg.activate handId config freshId now).2.instances) := by
  unfold HandRegistry.activate HandRegistry.get_definition
  cases hd : reg.definitions.find? (fun p => p.1 == handId) with
  | none =>
    simp only [Option.map_none', Option.isSome_none]
    refine ⟨by simp, by simp, by simp⟩
  | some d =>
    simp only [Option.map_some', Option.isSome_some]
    cases ha : reg.instances.any
        (fun p => p.2.hand_id == handId && p.2.status == HandStatus.active) with
    | true => refine ⟨by simp, by simp, by simp⟩
    | false =>
      refine ⟨by simp, by simp, ?_⟩
      intro _ _
      refine ⟨rfl, rfl, rfl, rfl, rfl, ?_⟩
      simp [HandInstance.new]

/-- C5 witness: activating `clip` in a registry that knows the definition and
has no active instance succeeds with a fresh `Active` instance. -/
theorem activate_spec_witness :
    (HandRegistry.activate
        ⟨[("clip", ⟨"clip", "Clip Hand", "clip-agent", []⟩)], []⟩ "clip" [] 7 42).1 =
      .ok (HandInstance.new "clip" [] 7 42) ∧
    (HandInstance.new "clip" [] 7 42).status = .active ∧
    (HandInstance.new "clip" [] 7 42).agent_id = none ∧
    (HandInstance.new "clip" [] 7 42).activated_at = 42 ∧
    (HandInstance.new "clip" [] 7 42).updated_at = 42 ∧
    (7, HandInstance.new "clip" [] 7 42) ∈
      (HandRegistry.activate
        ⟨[("clip", ⟨"clip", "Clip Hand", "clip-agent", []⟩)], []⟩ "clip" [] 7 42).2.instances :=
  (activate_spec ⟨[("clip", ⟨"clip", "Clip Hand", "clip-agent", []⟩)], []⟩
    "clip" [] 7 42).2.2 (by decide) (by decide)

/-- C6 counterexample: a requirement on `GEMINI_API_KEY` in an environment
where only `GOOGLE_API_KEY` is set (non-empty) is reported *unsatisfied* by
`check_requirement` — the claimed special case does not exist there (it lives
in `check_option_available`). -/
theorem check_requirement_gemini_counterexample :
    check_requirement [("GOOGLE_API_KEY", "k")] (fun _ => false)
      { key := "g", label := "g", requirement_type := .apiKey,
        check_value := "GEMINI_API_KEY" } = false ∧
    envVarLookup [("GOOGLE_API_KEY", "k")] "GOOGLE_API_KEY" = some ("k") ∧
    ("k" : String) ≠ "" ∧
    envVarLookup [("GOOGLE_API_KEY", "k")] "GEMINI_API_KEY" = none := by
  refine ⟨by decide, by decide, by decide, by decide⟩

/-- C6 (amended): `check_requirements` reports an `EnvVar`/`ApiKey`
requirement satisfied iff the environment variable named by `check_value` is
set and non-empty, with *no* special case; the `GEMINI_API_KEY` /
`GOOGLE_API_KEY` special case instead applies to setting-option availability:
`check_option_available` with `provider_env = GEMINI_API_KEY` and no binary
succeeds iff `GEMINI_API_KEY` or `GOOGLE_API_KEY` is set and non-empty. -/
theorem check_requirement_spec (env : EnvMap) (whichBinary : String → Bool)
    (req : HandRequirement)
    (hk : req.requirement_type = .envVar ∨ req.requirement_type = .apiKey) :
    (check_requirement env whichBinary req = true ↔
      ∃ v, envVarLookup env req.check_value = some v ∧ v ≠ "") ∧
    (check_option_available env whichBinary (some ("GEMINI_API_KEY")) none = true ↔
      (∃ v, envVarLookup env "GEMINI_API_KEY" = some v ∧ v ≠ "") ∨
      (∃ v, envVarLookup env "GOOGLE_API_KEY" = some v ∧ v ≠ "")) := by
  constructor
  · unfold check_requirement
    rcases hk with hk | hk <;> rw [hk] <;> exact envNonempty_iff env req.check_value
  · unfold check_option_available
    rw [← envNonempty_iff env "GEMINI_API_KEY", ← envNonempty_iff env "GOOGLE_API_KEY"]
    simp only [beq_self_eq_true, if_true]
    cases hg : envNonempty env "GEMINI_API_KEY" <;>
      cases ho : envNonempty env "GOOGLE_API_KEY" <;> simp

/-- C6 witness: for a plain `EnvVar` requirement on a set, non-empty variable
the amended characterisation evaluates as stated. -/
theorem check_requirement_spec_witness :
    (check_requirement [("K", "x")] (fun _ => false)
        { key := "k", label := "k", requirement_type := .envVar,
          check_value := "K" } = true ↔
      ∃ v, envVarLookup [("K", "x")] "K" = some v ∧ v ≠ "") ∧
    (check_option_available [("K", "x")] (fun _ => false)
        (some ("GEMINI_API_KEY")) none = true ↔
      (∃ v, envVarLookup [("K", "x")] "GEMINI_API_KEY" = some v ∧ v ≠ "") ∨
      (∃ v, envVarLookup [("K", "x")] "GOOGLE_API_KEY" = some v ∧ v ≠ "")) :=
  check_requirement_spec [("K", "x")] (fun _ => false)
    { key := "k", label := "k", requirement_type := .envVar, check_value := "K" }
    (Or.inl rfl)

/-- C10: for an existing instance, `resume` sets status `Active` and `pause`
sets status `Paused` unconditionally — whatever the previous status, including
`Error(msg)` — and both update `updated_at`; all other instances are
untouched.  A missing `instance_id` yields `InstanceNotFound` and leaves the
registry unchanged. -/
theorem pause_resume_spec (reg : HandRegistry) (instanceId now : Nat) :
    ((reg.get_instance instanceId).isSome = true →
      (reg.pause instanceId now).1 = none ∧
      (reg.resume instanceId now).1 = none ∧
      (∀ p ∈ (reg.pause instanceId now).2.instances,
        (p.1 = instanceId → ∃ q ∈ reg.instances, q.1 = instanceId ∧
            p.2 = { q.2 with status := .paused, updated_at := now }) ∧
        (p.1 ≠ instanceId → p ∈ reg.instances)) ∧
      (∀ p ∈ (reg.resume instanceId now).2.instances,
        (p.1 = instanceId → ∃ q ∈ reg.instances, q.1 = instanceId ∧
            p.2 = { q.2 with status := .active, updated_at := now }) ∧
        (p.1 ≠ instanceId → p ∈ reg.instances))) ∧
    ((reg.get_instance instanceId).isSome = false →
      reg.pause instanceId now = (some (.instanceNotFound instanceId), reg) ∧
      reg.resume instanceId now = (some (.instanceNotFound instanceId), reg)) := by
  unfold HandRegistry.pause HandRegistry.resume HandRegistry.get_instance
  cases hf : reg.instances.find? (fun p => p.1 == instanceId) with
  | none => exact ⟨by simp, by simp⟩
  | some q0 =>
    refine ⟨fun _ => ⟨rfl, rfl, ?_, ?_⟩, by simp⟩ <;>
    · intro p hp
      simp only [updateInstance, List.mem_map] at hp
      obtain ⟨q, hq, hpq⟩ := hp
      by_cases hqi : q.1 = instanceId
      · constructor
        · intro _
          refine ⟨q, hq, hqi, ?_⟩
          rw [← hpq]
          simp [hqi]
        · intro hne
          exfalso
          apply hne
          rw [← hpq]
          simp [hqi]
      · have : p = q := by rw [← hpq]; simp [hqi]
        subst this
        exact ⟨fun h => absurd h hqi, fun _ => hq⟩

/-- C10 witness: pausing an instance currently in `Error` status succeeds and
stores `Paused` with the new timestamp. -/
theorem pause_resume_spec_witness :
    (HandRegistry.pause
      ⟨[], [(3, ⟨3, "clip", none, .error ("boom"), [], 1, 1⟩)]⟩ 3 9).1 = none ∧
    (HandRegistry.resume
      ⟨[], [(3, ⟨3, "clip", none, .error ("boom"), [], 1, 1⟩)]⟩ 3 9).1 = none :=
  ⟨((pause_resume_spec ⟨[], [(3, ⟨3, "clip", none, .error ("boom"), [], 1, 1⟩)]⟩
      3 9).1 (by decide)).1,
   ((pause_resume_spec ⟨[], [(3, ⟨3, "clip", none, .error ("boom"), [], 1, 1⟩)]⟩
      3 9).1 (by decide)).2.1⟩

/-- C2 counterexample: with a 100-token window (`per_result_cap = 60`), a
70-byte tool result with a newline at byte 59 is truncated to its 59-byte
prefix *plus* the appended marker, and the returned string is longer than
`per_result_cap` — the claimed bound fails because the marker is appended on
top of the capped prefix. -/
theorem truncate_tool_result_counterexample :
    (truncate_tool_result_dynamic
        (List.replicate 59 97 ++ [10] ++ List.replicate 10 98)
        ⟨100⟩).length > (ContextBudget.mk 100).per_result_cap := by decide

/-- Helper: the newline-snapped, boundary-snapped break point computed by
`truncate_tool_result_dynamic` never exceeds the (already capped) search
ceiling `S`, hence not the cap. -/
theorem truncBreak_le (content : Bytes) (S cap : Nat) (hS : S ≤ cap) :
    (if isCharBoundary content
          (match rfindByte ((content.take S).drop (S - 200)) 10 with
           | some pos => S - 200 + pos
           | none => S - 100) then
        (match rfindByte ((content.take S).drop (S - 200)) 10 with
         | some pos => S - 200 + pos
         | none => S - 100)
      else lastCharStartBefore content
        (match rfindByte ((content.take S).drop (S - 200)) 10 with
         | some pos => S - 200 + pos
         | none => S - 100)) ≤ cap := by
  cases hr : rfindByte ((content.take S).drop (S - 200)) 10 with
  | none =>
    dsimp only
    have hx : S - 100 ≤ cap := by omega
    split
    · exact hx
    · exact le_trans (lastCharStartBefore_le _ _) hx
  | some pos =>
    dsimp only
    have hb := (rfindPat_sound
      (show rfindPat ((content.take S).drop (S - 200)) [10] = some pos from hr)).2
    have hlen : ((content.take S).drop (S - 200)).length ≤ S - (S - 200) := by
      simp only [List.length_drop, List.length_take]
      omega
    simp only [List.length_cons, List.length_nil] at hb
    have hx : S - 200 + pos ≤ cap := by omega
    split
    · exact hx
    · exact le_trans (lastCharStartBefore_le _ _) hx

/-- C2 (amended): a tool result no longer than `per_result_cap` is returned
unchanged; a longer one is truncated to a prefix of at most `per_result_cap`
bytes (snapped to the last newline in the 200-byte window ending at the cap,
falling back 100 bytes, then to a char boundary) with the `[TRUNCATED: …]`
marker appended after that prefix — so the *kept content* never exceeds the
cap, while the returned string may exceed it by the marker length. -/
theorem truncate_tool_result_spec (content : Bytes) (budget : ContextBudget) :
    (content.length ≤ budget.per_result_cap →
      truncate_tool_result_dynamic content budget = content) ∧
    (budget.per_result_cap < content.length →
      ∃ bp, bp ≤ budget.per_result_cap ∧
        truncate_tool_result_dynamic content budget =
          content.take bp ++
            truncMarker content.length bp budget.context_window_tokens) := by
  constructor
  · intro h
    simp only [truncate_tool_result_dynamic]
    rw [if_pos h]
  · intro h
    simp only [truncate_tool_result_dynamic]
    rw [if_neg (not_le.mpr h)]
    refine ⟨_, ?_, rfl⟩
    exact truncBreak_le content _ budget.per_result_cap
      (by split
          · exact le_refl _
          · exact lastCharStartBefore_le content _)

/-- C2 witness: the amended statement applied at the 70-byte result and the
100-token window. -/
theorem truncate_tool_result_spec_witness :
    ∃ bp, bp ≤ (ContextBudget.mk 100).per_result_cap ∧
      truncate_tool_result_dynamic
          (List.replicate 59 97 ++ [10] ++ List.replicate 10 98) ⟨100⟩ =
        (List.replicate 59 97 ++ [10] ++ List.replicate 10 98).take bp ++
          truncMarker (List.replicate 59 97 ++ [10] ++ List.replicate 10 98).length
            bp 100 :=
  (truncate_tool_result_spec
    (List.replicate 59 97 ++ [10] ++ List.replicate 10 98) ⟨100⟩).2 (by decide)

/-- Helper: `split_inclusive('\n')` loses no bytes. -/
theorem split_inclusive_nl_flatten (t : Bytes) :
    (split_inclusive_nl t).flatten = t := by
  induction t with
  | nil => rfl
  | cons x xs ih =>
    unfold split_inclusive_nl
    cases hs : split_inclusive_nl xs with
    | nil =>
      rw [hs] at ih
      simp only [List.flatten_nil] at ih
      simp [← ih]
    | cons y ys =>
      rw [hs] at ih
      dsimp only
      split
      · simp only [List.flatten_cons, List.flatten_cons] at ih ⊢
        simp [ih]
      · simp only [List.flatten_cons] at ih ⊢
        simp [← List.append_assoc, ih]

/-- Helper: `pushLine` appends the line to the buffer and leaves the chunk
thresholds unchanged. -/
theorem pushLine_buffer (c : StreamChunker) (l : Bytes) :
    (c.pushLine l).buffer = c.buffer ++ l ∧
    (c.pushLine l).min_chunk_chars = c.min_chunk_chars ∧
    (c.pushLine l).max_chunk_chars = c.max_chunk_chars := by
  unfold StreamChunker.pushLine
  dsimp only
  split
  · split
    · split <;> exact ⟨rfl, rfl, rfl⟩
    · exact ⟨rfl, rfl, rfl⟩
  · exact ⟨rfl, rfl, rfl⟩

/-- Helper: folding `pushLine` over a line list appends their concatenation. -/
theorem foldl_pushLine_buffer (lines : List Bytes) :
    ∀ c : StreamChunker,
      ((lines.foldl StreamChunker.pushLine c).buffer = c.buffer ++ lines.flatten) := by
  induction lines with
  | nil => intro c; simp
  | cons l ls ih =>
    intro c
    simp only [List.foldl_cons, List.flatten_cons]
    rw [ih (c.pushLine l), (pushLine_buffer c l).1, List.append_assoc]

/-- Helper: `push` appends the pushed text to the buffer. -/
theorem push_buffer (c : StreamChunker) (t : Bytes) :
    (c.push t).buffer = c.buffer ++ t := by
  unfold StreamChunker.push
  rw [foldl_pushLine_buffer, split_inclusive_nl_flatten]

/-- Helper: when the force-close arm does not fire, the chunk returned by
`try_flush` (if any) plus the new buffer is exactly the old buffer. -/
theorem try_flush_concat (c : StreamChunker) (h : c.forceCloseFires = false) :
    ((c.try_flush).1.getD []) ++ (c.try_flush).2.buffer = c.buffer := by
  unfold StreamChunker.try_flush
  split
  · simp
  next h1 =>
  split
  · simp
  next h2 =>
  split
  next h3 =>
    exfalso
    unfold StreamChunker.forceCloseFires at h
    rw [Bool.and_eq_true] at h3
    rw [decide_eq_true_eq] at h3
    simp [h1, h3.1, h3.2] at h
  next h3 =>
  dsimp only
  split
  · simp
  next =>
  split
  · simp
  next =>
  split
  · simp
  next =>
  split
  · simp
  next =>
  split
  · simp
  next =>
  split
  · simp
  · simp

/-- Helper: flattening an optional chunk. -/
theorem optToList_flatten (o : Option Bytes) : (o.toList).flatten = o.getD [] := by
  cases o <;> simp

/-- C1 counterexample: with `min=5, max=30`, pushing a 45-byte unterminated
fenced block and calling `try_flush` (the force-close arm) then
`flush_remaining` emits the pushed text *plus* a synthesized closing fence
and a reopening fence marker — the concatenation of all chunks and
`flush_remaining` differs from the concatenation of the pushes. -/
theorem stream_chunker_concat_counterexample :
    chunkerOutputConcat (StreamChunker.new 5 30)
        [.push (strBytes ("```python\nline1\nline2\nline3\nline4\nline5\nline6\n")),
          .tryFlush] ≠
      (pushedTexts
        [.push (strBytes ("```python\nline1\nline2\nline3\nline4\nline5\nline6\n")),
          .tryFlush]).flatten := by decide

/-- C1 (amended): provided the force-close arm of `try_flush` (inside a fence
with `buffer_len ≥ max_chunk`) never fires during the trace, the
concatenation of all chunks returned by `try_flush` followed by the output of
`flush_remaining` equals the initial buffer plus the concatenation of all
pushed text; the force-close arm inserts a synthesized closing fence and a
reopening fence marker, so the equality fails in general. -/
theorem stream_chunker_concat (ops : List ChunkOp) :
    ∀ c : StreamChunker, noForceClose c ops = true →
      chunkerOutputConcat c ops = c.buffer ++ (pushedTexts ops).flatten := by
  induction ops with
  | nil =>
    intro c _
    show ([] : List Bytes).flatten ++ ((c.flush_remaining).1).getD [] =
      c.buffer ++ ([] : List Bytes).flatten
    unfold StreamChunker.flush_remaining
    split
    next he => simp [List.isEmpty_iff.mp he]
    next => simp
  | cons op ops ih =>
    intro c h
    cases op with
    | push t =>
      have e1 : chunkerOutputConcat c (.push t :: ops) =
          chunkerOutputConcat (c.push t) ops := rfl
      have e2 : pushedTexts (.push t :: ops) = t :: pushedTexts ops := rfl
      have h2 : noForceClose (c.push t) ops = true := h
      rw [e1, e2, ih (c.push t) h2, push_buffer, List.flatten_cons,
        List.append_assoc]
    | tryFlush =>
      have h0 : noForceClose c (.tryFlush :: ops) =
          (!c.forceCloseFires && noForceClose (c.try_flush).2 ops) := rfl
      rw [h0, Bool.and_eq_true, Bool.not_eq_true'] at h
      have e1 : chunkerOutputConcat c (.tryFlush :: ops) =
          ((c.try_flush).1.toList ++ (runChunkOps (c.try_flush).2 ops).2).flatten ++
            (((runChunkOps (c.try_flush).2 ops).1.flush_remaining).1).getD [] := rfl
      have e2 : pushedTexts (.tryFlush :: ops) = pushedTexts ops := rfl
      rw [e1, e2, List.flatten_append, List.append_assoc]
      have := ih (c.try_flush).2 h.2
      unfold chunkerOutputConcat at this
      rw [this, optToList_flatten, ← List.append_assoc, try_flush_concat c h.1]

/-- C1 witness: a plain-text trace (no fences, so the force-close arm cannot
fire) reassembles exactly to the pushed text. -/
theorem stream_chunker_concat_witness :
    chunkerOutputConcat (StreamChunker.new 5 30)
        [.push (strBytes ("Hello world.\nMore")), .tryFlush] =
      (StreamChunker.new 5 30).buffer ++
        (pushedTexts [.push (strBytes ("Hello world.\nMore")), .tryFlush]).flatten :=
  stream_chunker_concat
    [.push (strBytes ("Hello world.\nMore")), .tryFlush]
    (StreamChunker.new 5 30) (by decide)

/-- C4: `recover_from_overflow` returns `None` iff the initial chars/4
estimate is at most the 70% threshold; `AutoCompaction` implies the post-call
estimate is within the 70% threshold; `OverflowCompaction` and
`ToolResultTruncation` imply the post-call estimate is within the 90%
threshold; and the stage progression is monotonic — each stage's variant is
returned only when every earlier stage failed to resolve the overflow (its
guard or its post-trim re-check failed). -/
theorem recover_from_overflow_spec (messages : List Message)
    (systemLen toolsLen w e0 : Nat)
    (he0 : e0 = estimate_token_count messages systemLen toolsLen)
    (s1 : List Message × Nat) (hs1 : s1 = overflowStage1 messages e0 (threshold90 w))
    (s2 : List Message × Nat) (hs2 : s2 = overflowStage2 s1.1)
    (s3 : List Message × Nat) (hs3 : s3 = overflowTruncAll s2.1)
    (r : RecoveryStage × List Message)
    (hr : r = recover_from_overflow messages systemLen toolsLen w) :
    (r.1 = .none ↔ e0 ≤ threshold70 w) ∧
    (∀ n, r.1 = .autoCompaction n →
      threshold70 w < e0 ∧ n = s1.2 ∧ 0 < s1.2 ∧ r.2 = s1.1 ∧
      estimate_token_count r.2 systemLen toolsLen ≤ threshold70 w) ∧
    (∀ n, r.1 = .overflowCompaction n →
      threshold70 w < e0 ∧
      ¬(0 < s1.2 ∧ estimate_token_count s1.1 systemLen toolsLen ≤ threshold70 w) ∧
      n = s2.2 ∧ 0 < s2.2 ∧ r.2 = s2.1 ∧
      estimate_token_count r.2 systemLen toolsLen ≤ threshold90 w) ∧
    (∀ n, r.1 = .toolResultTruncation n →
      threshold70 w < e0 ∧
      ¬(0 < s1.2 ∧ estimate_token_count s1.1 systemLen toolsLen ≤ threshold70 w) ∧
      ¬(0 < s2.2 ∧ estimate_token_count s2.1 systemLen toolsLen ≤ threshold90 w) ∧
      n = s3.2 ∧ 0 < s3.2 ∧ r.2 = s3.1 ∧
      estimate_token_count r.2 systemLen toolsLen ≤ threshold90 w) ∧
    (r.1 = .finalError →
      threshold70 w < e0 ∧
      ¬(0 < s1.2 ∧ estimate_token_count s1.1 systemLen toolsLen ≤ threshold70 w) ∧
      ¬(0 < s2.2 ∧ estimate_token_count s2.1 systemLen toolsLen ≤ threshold90 w) ∧
      ¬(0 < s3.2 ∧ estimate_token_count s3.1 systemLen toolsLen ≤ threshold90 w) ∧
      r.2 = s3.1) := by
  subst he0 hs1 hs2 hs3
  simp only [recover_from_overflow] at hr
  by_cases h0 : estimate_token_count messages systemLen toolsLen ≤ threshold70 w
  · rw [if_pos h0] at hr
    subst hr
    refine ⟨by simpa using h0, ?_, ?_, ?_, ?_⟩ <;>
      first
      | (intro n h; simp at h)
      | (intro h; simp at h)
  · rw [if_neg h0] at hr
    have hlt : threshold70 w < estimate_token_count messages systemLen toolsLen :=
      Nat.lt_of_not_le (fun hc => h0 hc)
    by_cases h1 : 0 <
        (overflowStage1 messages (estimate_token_count messages systemLen toolsLen)
          (threshold90 w)).2 ∧
        estimate_token_count
          (overflowStage1 messages (estimate_token_count messages systemLen toolsLen)
            (threshold90 w)).1 systemLen toolsLen ≤ threshold70 w
    · rw [if_pos h1] at hr
      subst hr
      refine ⟨by simpa using h0, ?_, ?_, ?_, ?_⟩
      · intro n h
        simp only at h
        rw [RecoveryStage.autoCompaction.injEq] at h
        exact ⟨hlt, h.symm, h1.1, rfl, h1.2⟩
      all_goals first
        | (intro n h; simp at h)
        | (intro h; simp at h)
    · rw [if_neg h1] at hr
      by_cases h2 : 0 <
          (overflowStage2
            (overflowStage1 messages (estimate_token_count messages systemLen toolsLen)
              (threshold90 w)).1).2 ∧
          estimate_token_count
            (overflowStage2
              (overflowStage1 messages (estimate_token_count messages systemLen toolsLen)
                (threshold90 w)).1).1 systemLen toolsLen ≤ threshold90 w
      · rw [if_pos h2] at hr
        subst hr
        refine ⟨by simpa using h0, ?_, ?_, ?_, ?_⟩
        · intro n h; simp at h
        · intro n h
          simp only at h
          rw [RecoveryStage.overflowCompaction.injEq] at h
          exact ⟨hlt, h1, h.symm, h2.1, rfl, h2.2⟩
        all_goals first
          | (intro n h; simp at h)
          | (intro h; simp at h)
      · rw [if_neg h2] at hr
        by_cases h3 : 0 <
            (overflowTruncAll
              (overflowStage2
                (overflowStage1 messages
                  (estimate_token_count messages systemLen toolsLen)
                  (threshold90 w)).1).1).2 ∧
            estimate_token_count
              (overflowTruncAll
                (overflowStage2
                  (overflowStage1 messages
                    (estimate_token_count messages systemLen toolsLen)
                    (threshold90 w)).1).1).1 systemLen toolsLen ≤ threshold90 w
        · rw [if_pos h3] at hr
          subst hr
          refine ⟨by simpa using h0, ?_, ?_, ?_, ?_⟩
          · intro n h; simp at h
          · intro n h; simp at h
          · intro n h
            simp only at h
            rw [RecoveryStage.toolResultTruncation.injEq] at h
            exact ⟨hlt, h1, h2, h.symm, h3.1, rfl, h3.2⟩
          · intro h; simp at h
        · rw [if_neg h3] at hr
          subst hr
          refine ⟨by simpa using h0, ?_, ?_, ?_, ?_⟩
          · intro n h; simp at h
          · intro n h; simp at h
          · intro n h; simp at h
          · intro _
            exact ⟨hlt, h1, h2, h3, rfl⟩

/-- C4 witness: with a 40-token window (thresholds 28/36) and twelve
ten-byte messages (estimate 30), stage 1 removes two messages and resolves
(post-estimate 25 ≤ 28), returning `AutoCompaction`. -/
theorem recover_from_overflow_spec_witness :
    threshold70 40 < estimate_token_count sampleOverflowHistory 0 0 ∧
    2 = (overflowStage1 sampleOverflowHistory
          (estimate_token_count sampleOverflowHistory 0 0) (threshold90 40)).2 ∧
    0 < (overflowStage1 sampleOverflowHistory
          (estimate_token_count sampleOverflowHistory 0 0) (threshold90 40)).2 ∧
    (recover_from_overflow sampleOverflowHistory 0 0 40).2 =
      (overflowStage1 sampleOverflowHistory
        (estimate_token_count sampleOverflowHistory 0 0) (threshold90 40)).1 ∧
    estimate_token_count (recover_from_overflow sampleOverflowHistory 0 0 40).2 0 0 ≤
      threshold70 40 :=
  (recover_from_overflow_spec sampleOverflowHistory 0 0 40 _ rfl _ rfl _ rfl _ rfl
    _ rfl).2.1 2 (by decide)

/-- Helper: filtering out exactly the elements a `filterMap` drops does not
change its result. -/
theorem filterMap_filter_of_none {α β : Type} (f : α → Option β) (q : α → Bool)
    (h : ∀ a, q a = false → f a = none) (l : List α) :
    (l.filter q).filterMap f = l.filterMap f := by
  induction l with
  | nil => rfl
  | cons a l ih =>
    cases hq : q a with
    | false =>
      rw [List.filter_cons_of_neg (by simp [hq]), List.filterMap_cons_none (h a hq), ih]
    | true =>
      rw [List.filter_cons_of_pos (by simp [hq])]
      cases hf : f a with
      | none => rw [List.filterMap_cons_none hf, List.filterMap_cons_none hf, ih]
      | some b =>
        rw [List.filterMap_cons_some hf, List.filterMap_cons_some hf, ih]

/-- Helper: a `filterMap` that succeeds exactly on the elements a filter
keeps yields as many elements as the filter. -/
theorem length_filterMap_eq_length_filter {α β : Type} (f : α → Option β)
    (q : α → Bool) (h : ∀ a, (f a).isSome = q a) (l : List α) :
    (l.filterMap f).length = (l.filter q).length := by
  induction l with
  | nil => rfl
  | cons a l ih =>
    cases hf : f a with
    | none =>
      have hq : q a = false := by rw [← h a, hf]; rfl
      rw [List.filterMap_cons_none hf, List.filter_cons_of_neg (by simp [hq]), ih]
    | some b =>
      have hq : q a = true := by rw [← h a, hf]; rfl
      rw [List.filterMap_cons_some hf, List.filter_cons_of_pos (by simp [hq]),
        List.length_cons, List.length_cons, ih]

/-- Helper: a block failing the serializable filter converts to `None`. -/
theorem convert_block_none_of_not_serializable :
    ∀ b, isSerializableBlock b = false → convert_block b = none := by
  intro b
  cases b <;> simp [isSerializableBlock, convert_block]

/-- Helper: conversion success coincides with the serializable filter. -/
theorem convert_block_isSome :
    ∀ b, (convert_block b).isSome = isSerializableBlock b := by
  intro b
  cases b <;> rfl

/-- Helper: stripping `Thinking`/`Unknown` blocks does not change the
converted message. -/
theorem convert_message_strip (m : Message) :
    convert_message (stripThinkingUnknown m) = convert_message m := by
  cases m with
  | mk role content =>
    cases content with
    | text t => rfl
    | blocks bs =>
      unfold convert_message stripThinkingUnknown
      dsimp only
      rw [filterMap_filter_of_none convert_block isSerializableBlock
        convert_block_none_of_not_serializable bs]

/-- C9: both `complete` and `stream` build their outbound Anthropic request
through the same pipeline, which silently drops `Thinking` and `Unknown`
blocks: the built request equals the one built from the history with those
blocks deleted (so prior reasoning traces are never re-sent), and a converted
block list has exactly one outbound block — of the four serializable kinds —
per non-`Thinking`/non-`Unknown` source block, in order. -/
theorem convert_message_drops_thinking (messages : List Message) :
    build_api_messages messages =
      build_api_messages (messages.map stripThinkingUnknown) ∧
    (∀ msg ∈ messages, ∀ bs, msg.content = .blocks bs →
      ∀ apiBs, (convert_message msg).content = .blocks apiBs →
        apiBs = bs.filterMap convert_block ∧
        apiBs.length = (bs.filter isSerializableBlock).length) := by
  constructor
  · unfold build_api_messages
    rw [List.filter_map, List.map_map]
    have hrole : ∀ m ∈ messages,
        ((fun m => !(m.role == Role.system)) ∘ stripThinkingUnknown) m =
        (fun m => !(m.role == Role.system)) m := by
      intro m _
      cases m with
      | mk role content =>
        unfold stripThinkingUnknown
        cases content <;> rfl
    rw [List.filter_congr hrole]
    exact (List.map_congr_left
      (fun m _ => (convert_message_strip m))).symm
  · intro msg hmem bs hbs apiBs hapi
    unfold convert_message at hapi
    rw [hbs] at hapi
    dsimp only at hapi
    rw [ApiContent.blocks.injEq] at hapi
    subst hapi
    exact ⟨rfl, length_filterMap_eq_length_filter convert_block
      isSerializableBlock convert_block_isSome bs⟩

/-- C9 witness: converting an assistant message holding a text block, a
thinking trace, a tool use and an unknown block yields exactly the two
serializable outbound blocks, dropping the reasoning trace. -/
theorem convert_message_drops_thinking_witness :
    [ApiContentBlock.text (strBytes ("hi")),
      ApiContentBlock.toolUse (strBytes ("t1")) (strBytes ("web_search")) "\x7b\x7d"] =
      [ContentBlock.text (strBytes ("hi")),
        ContentBlock.thinking (strBytes ("secret chain of thought")),
        ContentBlock.toolUse (strBytes ("t1")) (strBytes ("web_search")) "\x7b\x7d",
        ContentBlock.unknown].filterMap convert_block ∧
    ([ApiContentBlock.text (strBytes ("hi")),
      ApiContentBlock.toolUse (strBytes ("t1")) (strBytes ("web_search")) "\x7b\x7d"]).length =
      ([ContentBlock.text (strBytes ("hi")),
        ContentBlock.thinking (strBytes ("secret chain of thought")),
        ContentBlock.toolUse (strBytes ("t1")) (strBytes ("web_search")) "\x7b\x7d",
        ContentBlock.unknown].filter isSerializableBlock).length :=
  (convert_message_drops_thinking [sampleC9Msg]).2 sampleC9Msg
    (List.mem_singleton.mpr rfl)
    [ContentBlock.text (strBytes ("hi")),
      ContentBlock.thinking (strBytes ("secret chain of thought")),
      ContentBlock.toolUse (strBytes ("t1")) (strBytes ("web_search")) "\x7b\x7d",
      ContentBlock.unknown] rfl
    [ApiContentBlock.text (strBytes ("hi")),
      ApiContentBlock.toolUse (strBytes ("t1")) (strBytes ("web_search")) "\x7b\x7d"]
    rfl

/-- Sanity anchor: the FIPS 180-4 test vector SHA-256("") for the embedded
implementation. -/
theorem sha256_empty_vector :
    sha256 [] =
      [0xe3, 0xb0, 0xc4, 0x42, 0x98, 0xfc, 0x1c, 0x14, 0x9a, 0xfb, 0xf4, 0xc8,
       0x99, 0x6f, 0xb9, 0x24, 0x27, 0xae, 0x41, 0xe4, 0x64, 0x9b, 0x93, 0x4c,
       0xa4, 0x95, 0x99, 0x1b, 0x78, 0x52, 0xb8, 0x55] := by decide

/-- Sanity anchor: the FIPS 180-4 test vector SHA-256("abc"). -/
theorem sha256_abc_vector :
    sha256 [0x61, 0x62, 0x63] =
      [0xba, 0x78, 0x16, 0xbf, 0x8f, 0x01, 0xcf, 0xea, 0x41, 0x41, 0x40, 0xde,
       0x5d, 0xae, 0x22, 0x23, 0xb0, 0x03, 0x61, 0xa3, 0x96, 0x17, 0x7a, 0x9c,
       0xb4, 0x10, 0xff, 0x61, 0xf2, 0x00, 0x15, 0xad] := by decide

/-- Helper: every byte of a SHA-256 digest is below 256. -/
theorem sha256_bytes_lt (msg : Bytes) : ∀ b ∈ sha256 msg, b < 256 := by
  intro b hb
  unfold sha256 at hb
  simp only [List.mem_flatMap] at hb
  obtain ⟨w, _, hw⟩ := hb
  simp only [List.mem_cons, List.not_mem_nil, or_false] at hw
  rcases hw with h | h | h | h <;> subst h <;>
    exact Nat.mod_lt _ (by norm_num)

/-- Helper: `hexDigit` is injective below 16. -/
theorem hexDigit_inj (a b : Nat) (ha : a < 16) (hb : b < 16)
    (h : hexDigit a = hexDigit b) : a = b := by
  have hall : ∀ x ∈ List.range 16, ∀ y ∈ List.range 16,
      hexDigit x = hexDigit y → x = y := by decide
  exact hall a (List.mem_range.mpr ha) b (List.mem_range.mpr hb) h

/-- Helper: `hexDigit` of a nibble is a lowercase hex character. -/
theorem hexDigit_mem (n : Nat) (hn : n < 16) :
    hexDigit n ∈ ("0123456789abcdef".data) := by
  have hall : ∀ x ∈ List.range 16, hexDigit x ∈ ("0123456789abcdef".data) := by
    decide
  exact hall n (List.mem_range.mpr hn)

/-- Helper: hex encoding is injective on byte lists. -/
theorem hexEncode_inj : ∀ b1 b2 : Bytes, (∀ x ∈ b1, x < 256) →
    (∀ x ∈ b2, x < 256) → hexEncode b1 = hexEncode b2 → b1 = b2 := by
  intro b1
  induction b1 with
  | nil =>
    intro b2 _ _ h
    cases b2 with
    | nil => rfl
    | cons c cs => simp [hexEncode] at h
  | cons a as ih =>
    intro b2 h1 h2 h
    cases b2 with
    | nil => simp [hexEncode] at h
    | cons c cs =>
      simp only [hexEncode, List.flatMap_cons, List.cons_append, List.nil_append] at h
      injection h with hd1 h
      injection h with hd2 h
      have ha : a < 256 := h1 a (by simp)
      have hc : c < 256 := h2 c (by simp)
      have e1 : a / 16 = c / 16 :=
        hexDigit_inj _ _ (by omega) (by omega) hd1
      have e2 : a % 16 = c % 16 :=
        hexDigit_inj _ _ (by omega) (by omega) hd2
      have : a = c := by omega
      subst this
      rw [ih cs (fun x hx => h1 x (by simp [hx])) (fun x hx => h2 x (by simp [hx]))
        (by exact h)]

/-- Helper: hex encoding doubles the length. -/
theorem hexEncode_length (bs : Bytes) : (hexEncode bs).length = 2 * bs.length := by
  induction bs with
  | nil => rfl
  | cons b bs ih =>
    simp only [hexEncode, List.flatMap_cons] at ih ⊢
    simp [ih]
    omega

/-- Helper: `sha256Round` preserves the state length. -/
theorem sha256Round_length (st : List Nat) (kw : Nat × Nat) :
    (sha256Round st kw).length = st.length := by
  unfold sha256Round
  rcases st with _ | ⟨a, _ | ⟨b, _ | ⟨c, _ | ⟨d, _ | ⟨e, _ | ⟨f, _ | ⟨g, _ | ⟨h, _ | ⟨i, rest⟩⟩⟩⟩⟩⟩⟩⟩⟩ <;> rfl

/-- Helper: the round fold preserves the state length. -/
theorem foldl_sha256Round_length (l : List (Nat × Nat)) :
    ∀ st : List Nat, (l.foldl sha256Round st).length = st.length := by
  induction l with
  | nil => intro st; rfl
  | cons p l ih =>
    intro st
    simp only [List.foldl_cons]
    rw [ih (sha256Round st p), sha256Round_length]

/-- Helper: compression preserves the 8-word state length. -/
theorem sha256Compress_length (h : List Nat) (block : Bytes) :
    (sha256Compress h block).length = h.length := by
  unfold sha256Compress
  simp only [List.length_map, List.length_zip]
  rw [foldl_sha256Round_length]
  omega

/-- Helper: the compression fold preserves the state length. -/
theorem foldl_sha256Compress_length (bs : List Bytes) :
    ∀ h : List Nat, (bs.foldl sha256Compress h).length = h.length := by
  induction bs with
  | nil => intro h; rfl
  | cons b bs ih =>
    intro h
    simp only [List.foldl_cons]
    rw [ih (sha256Compress h b), sha256Compress_length]

/-- Helper: a `flatMap` with constant-length images multiplies the length. -/
theorem flatMap_const_length {α β : Type} (f : α → List β) (k : Nat)
    (hf : ∀ a, (f a).length = k) : ∀ l : List α, (l.flatMap f).length = k * l.length := by
  intro l
  induction l with
  | nil => simp
  | cons a l ih =>
    simp only [List.flatMap_cons, List.length_append, ih, hf a, List.length_cons,
      Nat.mul_succ]
    omega

/-- Helper: a SHA-256 digest has 32 bytes. -/
theorem sha256_length (msg : Bytes) : (sha256 msg).length = 32 := by
  unfold sha256
  have h8 : ((chunks64 (sha256Pad msg)).foldl sha256Compress sha256H0).length = 8 := by
    rw [foldl_sha256Compress_length]
    rfl
  rw [flatMap_const_length
    (fun w => [(w >>> 24) % 256, (w >>> 16) % 256, (w >>> 8) % 256, w % 256]) 4
    (fun w => rfl), h8]

/-- C7: `content_boundary(url)` is `"EXTCONTENT_"` followed by the lowercase
hex encoding of the first 6 bytes of SHA-256(url) — 12 lowercase hex
characters; it is a pure function of the url (deterministic); and two urls
get the same boundary exactly when their SHA-256 digests agree on the first
6 bytes (so distinct urls coincide only on a hash collision). -/
theorem content_boundary_spec (u1 u2 : Bytes) :
    content_boundary u1 =
      String.mk (("EXTCONTENT_".data) ++ hexEncode ((sha256 u1).take 6)) ∧
    (hexEncode ((sha256 u1).take 6)).length = 12 ∧
    (∀ c ∈ hexEncode ((sha256 u1).take 6), c ∈ ("0123456789abcdef".data)) ∧
    (content_boundary u1 = content_boundary u2 ↔
      (sha256 u1).take 6 = (sha256 u2).take 6) := by
  refine ⟨rfl, ?_, ?_, ?_, ?_⟩
  · rw [hexEncode_length, List.length_take, sha256_length]
    omega
  · intro c hc
    simp only [hexEncode, List.mem_flatMap] at hc
    obtain ⟨b, hb, hcb⟩ := hc
    have hblt : b < 256 :=
      sha256_bytes_lt u1 b (List.mem_of_mem_take hb)
    simp only [List.mem_cons, List.not_mem_nil, or_false] at hcb
    rcases hcb with h | h <;> subst h <;> exact hexDigit_mem _ (by omega)
  · intro h
    unfold content_boundary at h
    have hd : ("EXTCONTENT_".data ++ hexEncode ((sha256 u1).take 6)) =
        ("EXTCONTENT_".data ++ hexEncode ((sha256 u2).take 6)) :=
      congrArg String.data h
    have hx := List.append_cancel_left hd
    exact hexEncode_inj _ _
      (fun x hx2 => sha256_bytes_lt u1 x (List.mem_of_mem_take hx2))
      (fun x hx2 => sha256_bytes_lt u2 x (List.mem_of_mem_take hx2)) hx
  · intro h
    unfold content_boundary
    rw [h]

/-- C7 witness: the characterisation applied at the concrete url of the
spec's scenario, giving the 12-character boundary suffix. -/
theorem content_boundary_spec_witness :
    content_boundary (strBytes ("https://example.com/page")) =
      String.mk (("EXTCONTENT_".data) ++
        hexEncode ((sha256 (strBytes ("https://example.com/page"))).take 6)) ∧
    (hexEncode ((sha256 (strBytes ("https://example.com/page"))).take 6)).length = 12 :=
  ⟨(content_boundary_spec (strBytes ("https://example.com/page"))
      (strBytes ("https://example.com/page"))).1,
   (content_boundary_spec (strBytes ("https://example.com/page"))
      (strBytes ("https://example.com/page"))).2.1⟩

/-- Helper: decimal digit characters are ASCII. -/
theorem digitChar_ascii (n : Nat) : (Nat.digitChar n).toNat < 128 := by
  rcases Nat.lt_or_ge n 16 with h | h
  · interval_cases n <;> decide
  · unfold Nat.digitChar
    repeat rw [if_neg (by omega)]
    decide

/-- Helper: `Nat.toDigitsCore` over an ASCII accumulator yields ASCII chars. -/
theorem toDigitsCore_ascii (b : Nat) :
    ∀ (f n : Nat) (acc : List Char), (∀ c ∈ acc, c.toNat < 128) →
      ∀ c ∈ Nat.toDigitsCore b f n acc, c.toNat < 128 := by
  intro f
  induction f with
  | zero => intro n acc hacc c hc; exact hacc c hc
  | succ f ih =>
    intro n acc hacc c hc
    unfold Nat.toDigitsCore at hc
    dsimp only at hc
    split at hc
    · rw [List.mem_cons] at hc
      rcases hc with h | h
      · subst h; exact digitChar_ascii _
      · exact hacc c h
    · refine ih (n / b) (Nat.digitChar (n % b) :: acc) ?_ c hc
      intro c2 hc2
      rw [List.mem_cons] at hc2
      rcases hc2 with h | h
      · subst h; exact digitChar_ascii _
      · exact hacc c2 h

/-- Helper: the decimal representation of a `Nat` is ASCII. -/
theorem repr_ascii (n : Nat) : ∀ c ∈ (Nat.repr n).data, c.toNat < 128 := by
  intro c hc
  exact toDigitsCore_ascii 10 (n + 1) n [] (by intro x hx; cases hx) c hc

/-- Helper: `strBytes` distributes over string append. -/
theorem strBytes_append (s t : String) :
    strBytes (s ++ t) = strBytes s ++ strBytes t := by
  unfold strBytes
  rw [String.data_append, List.flatMap_append]

/-- Helper: ASCII char lists encode one byte per character. -/
theorem flatMap_charUtf8_ascii_length :
    ∀ l : List Char, (∀ c ∈ l, c.toNat < 128) →
      (l.flatMap charUtf8).length = l.length := by
  intro l
  induction l with
  | nil => intro _; rfl
  | cons c cs ih =>
    intro h
    simp only [List.flatMap_cons, List.length_append, List.length_cons]
    rw [ih (fun x hx => h x (by simp [hx]))]
    have hcc : (charUtf8 c).length = 1 := by
      unfold charUtf8
      rw [if_pos (h c (by simp))]
      rfl
    omega

/-- Helper: an ASCII string's UTF-8 byte count is its character count. -/
theorem strBytes_ascii_length (s : String) (h : ∀ c ∈ s.data, c.toNat < 128) :
    (strBytes s).length = s.data.length :=
  flatMap_charUtf8_ascii_length s.data h

/-- Helper: the compaction marker's byte length. -/
theorem compactMarker_length (o bp : Nat) :
    (compactMarker o bp).length =
      43 + (Nat.repr o).length + (Nat.repr bp).length := by
  unfold compactMarker
  rw [strBytes_append, strBytes_append, strBytes_append, strBytes_append]
  simp only [List.length_append]
  rw [strBytes_ascii_length _ (repr_ascii o), strBytes_ascii_length _ (repr_ascii bp)]
  have h1 : (strBytes ("\n\n[COMPACTED: ")).length = 14 := by decide
  have h2 : (strBytes (" → ")).length = 5 := by decide
  have h3 : (strBytes (" chars by context guard]")).length = 24 := by decide
  simp only [String.length] at *
  omega

/-- Helper: decimal length bound for sizes below 10^15. -/
theorem repr_length_le15 (n : Nat) (h : n < 10 ^ 15) :
    (Nat.repr n).length ≤ 15 :=
  Nat.repr_length n 15 (by norm_num) h

/-- Helper: `truncate_to` really caps the length (for caps of at least 80
and sizes below 10^15, which keep the embedded decimals at 15 digits). -/
theorem truncate_to_length (content : Bytes) (m : Nat) (hm : 80 ≤ m)
    (hc : content.length < 10 ^ 15) (hmb : m < 10 ^ 15) :
    (truncate_to content m).length ≤ m := by
  unfold truncate_to
  split
  · assumption
  next hlong =>
  dsimp only
  set keep := m - 80 with hkeep
  clear_value keep
  have hbp : (match rfindByte ((content.take keep).drop (keep - 100)) 10 with
      | some pos => (keep - 100) + pos
      | none => keep) ≤ keep := by
    cases hr : rfindByte ((content.take keep).drop (keep - 100)) 10 with
    | none => exact le_refl keep
    | some pos =>
      dsimp only
      show keep - 100 + pos ≤ keep
      have hb := (rfindPat_sound
        (show rfindPat ((content.take keep).drop (keep - 100)) [10] = some pos from hr)).2
      have hlen : ((content.take keep).drop (keep - 100)).length ≤ keep - (keep - 100) := by
        simp only [List.length_drop, List.length_take]
        omega
      simp only [List.length_cons, List.length_nil] at hb
      omega
  set bp := (match rfindByte ((content.take keep).drop (keep - 100)) 10 with
      | some pos => (keep - 100) + pos
      | none => keep) with hbpdef
  clear_value bp
  simp only [List.length_append, compactMarker_length]
  have htake : (content.take bp).length ≤ bp := by
    simp [List.length_take]
  have hro : (Nat.repr content.length).length ≤ 15 := repr_length_le15 _ hc
  have hrbp : (Nat.repr bp).length ≤ 15 := repr_length_le15 _ (by omega)
  omega

/-- Helper: writing a tool result at a live block index is read back. -/
theorem getBlockTR_setBlocks_same : ∀ (bs : List ContentBlock) (bi : Nat)
    (c c' : Bytes), getBlockTR bs bi = some c →
    getBlockTR (setBlocks c' bs bi) bi = some c' := by
  intro bs
  induction bs with
  | nil => intro bi c c' h; simp [getBlockTR] at h
  | cons b rest ih =>
    intro bi c c' h
    cases bi with
    | zero => cases b <;> simp_all [getBlockTR, setBlocks]
    | succ bi =>
      simp only [getBlockTR, setBlocks] at h ⊢
      exact ih bi c c' h

/-- Helper: writing at a dead block index reads back dead. -/
theorem getBlockTR_setBlocks_same_none : ∀ (bs : List ContentBlock) (bi : Nat)
    (c' : Bytes), getBlockTR bs bi = none →
    getBlockTR (setBlocks c' bs bi) bi = none := by
  intro bs
  induction bs with
  | nil => intro bi c' _; cases bi <;> rfl
  | cons b rest ih =>
    intro bi c' h
    cases bi with
    | zero => cases b <;> simp_all [getBlockTR, setBlocks]
    | succ bi =>
      simp only [getBlockTR, setBlocks] at h ⊢
      exact ih bi c' h

/-- Helper: writing one block index leaves the others unchanged. -/
theorem getBlockTR_setBlocks_other : ∀ (bs : List ContentBlock) (bi bi' : Nat)
    (c' : Bytes), bi' ≠ bi →
    getBlockTR (setBlocks c' bs bi) bi' = getBlockTR bs bi' := by
  intro bs
  induction bs with
  | nil => intro bi bi' c' _; cases bi <;> rfl
  | cons b rest ih =>
    intro bi bi' c' hne
    cases bi with
    | zero =>
      cases bi' with
      | zero => exact absurd rfl hne
      | succ bi' => cases b <;> rfl
    | succ bi =>
      cases bi' with
      | zero => rfl
      | succ bi' =>
        simp only [getBlockTR, setBlocks]
        exact ih bi bi' c' (fun hEq => hne (by rw [hEq]))

/-- Helper: writing a tool result at a live position is read back. -/
theorem getTRC_setTRC_same : ∀ (ms : List Message) (mi bi : Nat) (c c' : Bytes),
    getToolResultContent ms mi bi = some c →
    getToolResultContent (setToolResultContent ms mi bi c') mi bi = some c' := by
  intro ms
  induction ms with
  | nil => intro mi bi c c' h; cases mi <;> simp [getToolResultContent] at h
  | cons m rest ih =>
    intro mi bi c c' h
    cases mi with
    | zero =>
      simp only [getToolResultContent, setToolResultContent] at h ⊢
      unfold blocksOf at h ⊢
      cases hm : m.content with
      | text t =>
        rw [hm] at h
        dsimp only at h
        simp [getBlockTR] at h
      | blocks bs =>
        rw [hm] at h
        dsimp only at h
        dsimp only
        exact getBlockTR_setBlocks_same bs bi c c' h
    | succ mi =>
      simp only [getToolResultContent, setToolResultContent] at h ⊢
      exact ih mi bi c c' h

/-- Helper: writing one position leaves the other positions unchanged. -/
theorem getTRC_setTRC_other : ∀ (ms : List Message) (mi bi mi' bi' : Nat)
    (c' : Bytes), ¬(mi' = mi ∧ bi' = bi) →
    getToolResultContent (setToolResultContent ms mi bi c') mi' bi' =
      getToolResultContent ms mi' bi' := by
  intro ms
  induction ms with
  | nil => intro mi bi mi' bi' c' _; cases mi <;> cases mi' <;> rfl
  | cons m rest ih =>
    intro mi bi mi' bi' c' hne
    cases mi with
    | zero =>
      cases mi' with
      | zero =>
        have hbi : bi' ≠ bi := fun hEq => hne ⟨rfl, hEq⟩
        simp only [getToolResultContent, setToolResultContent]
        unfold blocksOf
        cases hm : m.content with
        | text t =>
          dsimp only
          rw [hm]
        | blocks bs =>
          dsimp only
          exact getBlockTR_setBlocks_other bs bi bi' c' hbi
      | succ mi' => rfl
    | succ mi =>
      cases mi' with
      | zero => rfl
      | succ mi' =>
        simp only [getToolResultContent, setToolResultContent]
        exact ih mi bi mi' bi' c' (fun hp => hne ⟨by rw [hp.1], hp.2⟩)

/-- Helper: tool-result byte totals after a block write. -/
theorem sumBlocksTR_setBlocks : ∀ (bs : List ContentBlock) (bi : Nat)
    (c c' : Bytes), getBlockTR bs bi = some c →
    sumBlocksTR (setBlocks c' bs bi) + c.length = sumBlocksTR bs + c'.length := by
  intro bs
  induction bs with
  | nil => intro bi c c' h; simp [getBlockTR] at h
  | cons b rest ih =>
    intro bi c c' h
    cases bi with
    | zero =>
      cases b <;> simp_all [getBlockTR, setBlocks, sumBlocksTR]
      omega
    | succ bi =>
      simp only [getBlockTR, setBlocks, sumBlocksTR] at h ⊢
      have := ih bi c c' h
      omega

/-- Helper: tool-result byte totals after a position write. -/
theorem sumTR_setTRC : ∀ (ms : List Message) (mi bi : Nat) (c c' : Bytes),
    getToolResultContent ms mi bi = some c →
    sumTR (setToolResultContent ms mi bi c') + c.length = sumTR ms + c'.length := by
  intro ms
  induction ms with
  | nil => intro mi bi c c' h; cases mi <;> simp [getToolResultContent] at h
  | cons m rest ih =>
    intro mi bi c c' h
    cases mi with
    | zero =>
      simp only [getToolResultContent, setToolResultContent] at h ⊢
      unfold blocksOf at h
      simp only [sumTR]
      cases hm : m.content with
      | text t =>
        rw [hm] at h
        dsimp only at h
        simp [getBlockTR] at h
      | blocks bs =>
        rw [hm] at h
        dsimp only at h
        dsimp only
        have := sumBlocksTR_setBlocks bs bi c c' h
        omega
    | succ mi =>
      simp only [getToolResultContent, setToolResultContent, sumTR] at h ⊢
      have := ih mi bi c c' h
      omega

/-- Helper: a live tool result's bytes are at most the block total. -/
theorem getBlockTR_le_sum : ∀ (bs : List ContentBlock) (bi : Nat) (c : Bytes),
    getBlockTR bs bi = some c → c.length ≤ sumBlocksTR bs := by
  intro bs
  induction bs with
  | nil => intro bi c h; simp [getBlockTR] at h
  | cons b rest ih =>
    intro bi c h
    cases bi with
    | zero =>
      cases b <;> simp_all [getBlockTR, sumBlocksTR]
    | succ bi =>
      simp only [getBlockTR, sumBlocksTR] at h ⊢
      have := ih bi c h
      omega

/-- Helper: a live tool result's bytes are at most the history total. -/
theorem getTRC_le_sumTR : ∀ (ms : List Message) (mi bi : Nat) (c : Bytes),
    getToolResultContent ms mi bi = some c → c.length ≤ sumTR ms := by
  intro ms
  induction ms with
  | nil => intro mi bi c h; cases mi <;> simp [getToolResultContent] at h
  | cons m rest ih =>
    intro mi bi c h
    cases mi with
    | zero =>
      simp only [getToolResultContent] at h
      simp only [sumTR]
      unfold blocksOf at h
      cases hm : m.content with
      | text t =>
        rw [hm] at h
        dsimp only at h
        simp [getBlockTR] at h
      | blocks bs =>
        rw [hm] at h
        dsimp only at h
        dsimp only
        have := getBlockTR_le_sum bs bi c h
        omega
    | succ mi =>
      simp only [getToolResultContent, sumTR] at h ⊢
      have := ih mi bi c h
      omega

/-- Helper: every location collected from a block list is sound — right
message index, in-range block index, and it records the live content length. -/
theorem collectBlocks_sound : ∀ (bs : List ContentBlock) (mi bi0 : Nat),
    ∀ loc ∈ collectBlocks mi bi0 bs,
      loc.msg_idx = mi ∧ bi0 ≤ loc.block_idx ∧
      ∃ c, getBlockTR bs (loc.block_idx - bi0) = some c ∧
        c.length = loc.char_len := by
  intro bs
  induction bs with
  | nil => intro mi bi0 loc h; simp [collectBlocks] at h
  | cons b rest ih =>
    intro mi bi0 loc h
    simp only [collectBlocks, List.mem_append] at h
    rcases h with h | h
    · cases b with
      | toolResult id nm c ie =>
        simp only [List.mem_singleton] at h
        subst h
        refine ⟨rfl, le_refl _, c, ?_, rfl⟩
        have hz : bi0 - bi0 = 0 := Nat.sub_self bi0
        rw [hz]
        rfl
      | text t => simp at h
      | image mt d => simp at h
      | toolUse id nm inp => simp at h
      | thinking t => simp at h
      | unknown => simp at h
    · obtain ⟨h1, h2, c, h3, h4⟩ := ih mi (bi0 + 1) loc h
      refine ⟨h1, by omega, c, ?_, h4⟩
      have hidx : loc.block_idx - bi0 = (loc.block_idx - (bi0 + 1)) + 1 := by omega
      rw [hidx]
      exact h3

/-- Helper: every live block position is collected. -/
theorem collectBlocks_complete : ∀ (bs : List ContentBlock) (mi bi0 bi : Nat)
    (c : Bytes), getBlockTR bs bi = some c →
    (⟨mi, bi0 + bi, c.length⟩ : ToolResultLoc) ∈ collectBlocks mi bi0 bs := by
  intro bs
  induction bs with
  | nil => intro mi bi0 bi c h; simp [getBlockTR] at h
  | cons b rest ih =>
    intro mi bi0 bi c h
    simp only [collectBlocks, List.mem_append]
    cases bi with
    | zero =>
      left
      cases b with
      | toolResult id nm c2 ie =>
        simp only [getBlockTR, Option.some.injEq] at h
        subst h
        simp
      | text t => simp [getBlockTR] at h
      | image mt d => simp [getBlockTR] at h
      | toolUse id nm inp => simp [getBlockTR] at h
      | thinking t => simp [getBlockTR] at h
      | unknown => simp [getBlockTR] at h
    | succ bi =>
      right
      have heq : bi0 + (bi + 1) = (bi0 + 1) + bi := by omega
      rw [show (⟨mi, bi0 + (bi + 1), c.length⟩ : ToolResultLoc) =
        ⟨mi, (bi0 + 1) + bi, c.length⟩ from by rw [heq]]
      exact ih mi (bi0 + 1) bi c h

/-- Helper: every collected location is sound at the message level. -/
theorem collectFrom_sound : ∀ (ms : List Message) (mi0 : Nat),
    ∀ loc ∈ collectFrom mi0 ms,
      mi0 ≤ loc.msg_idx ∧
      ∃ c, getToolResultContent ms (loc.msg_idx - mi0) loc.block_idx = some c ∧
        c.length = loc.char_len := by
  intro ms
  induction ms with
  | nil => intro mi0 loc h; simp [collectFrom] at h
  | cons m rest ih =>
    intro mi0 loc h
    simp only [collectFrom, List.mem_append] at h
    rcases h with h | h
    · obtain ⟨h1, _, c, h3, h4⟩ := collectBlocks_sound (blocksOf m) mi0 0 loc h
      refine ⟨le_of_eq h1.symm, c, ?_, h4⟩
      rw [h1, Nat.sub_self]
      simpa [Nat.sub_zero] using h3
    · obtain ⟨h1, c, h3, h4⟩ := ih (mi0 + 1) loc h
      refine ⟨by omega, c, ?_, h4⟩
      have hidx : loc.msg_idx - mi0 = (loc.msg_idx - (mi0 + 1)) + 1 := by omega
      rw [hidx]
      exact h3

/-- Helper: every live position is collected. -/
theorem collectFrom_complete : ∀ (ms : List Message) (mi0 mi bi : Nat)
    (c : Bytes), getToolResultContent ms mi bi = some c →
    (⟨mi0 + mi, bi, c.length⟩ : ToolResultLoc) ∈ collectFrom mi0 ms := by
  intro ms
  induction ms with
  | nil => intro mi0 mi bi c h; cases mi <;> simp [getToolResultContent] at h
  | cons m rest ih =>
    intro mi0 mi bi c h
    simp only [collectFrom, List.mem_append]
    cases mi with
    | zero =>
      left
      simp only [getToolResultContent] at h
      have := collectBlocks_complete (blocksOf m) mi0 0 bi c h
      rwa [Nat.zero_add] at this
    | succ mi =>
      right
      simp only [getToolResultContent] at h
      have heq : mi0 + (mi + 1) = (mi0 + 1) + mi := by omega
      rw [show (⟨mi0 + (mi + 1), bi, c.length⟩ : ToolResultLoc) =
        ⟨(mi0 + 1) + mi, bi, c.length⟩ from by rw [heq]]
      exact ih (mi0 + 1) mi bi c h

/-- Helper: the collected lengths sum to the block total. -/
theorem collectBlocks_sum : ∀ (bs : List ContentBlock) (mi bi0 : Nat),
    ((collectBlocks mi bi0 bs).map (·.char_len)).sum = sumBlocksTR bs := by
  intro bs
  induction bs with
  | nil => intro mi bi0; rfl
  | cons b rest ih =>
    intro mi bi0
    simp only [collectBlocks, List.map_append, List.sum_append, sumBlocksTR]
    rw [ih mi (bi0 + 1)]
    cases b <;> simp

/-- Helper: the collected lengths sum to the history total. -/
theorem collectFrom_sum : ∀ (ms : List Message) (mi0 : Nat),
    ((collectFrom mi0 ms).map (·.char_len)).sum = sumTR ms := by
  intro ms
  induction ms with
  | nil => intro mi0; rfl
  | cons m rest ih =>
    intro mi0
    simp only [collectFrom, List.map_append, List.sum_append, sumTR]
    rw [ih (mi0 + 1), collectBlocks_sum]
    cases hm : m.content with
    | text t => simp [blocksOf, hm, sumBlocksTR]
    | blocks bs => simp [blocksOf, hm]

/-- Helper: locations collected from one block list are pairwise distinct. -/
theorem collectBlocks_distinct : ∀ (bs : List ContentBlock) (mi bi0 : Nat),
    List.Pairwise locNe (collectBlocks mi bi0 bs) := by
  intro bs
  induction bs with
  | nil => intro mi bi0; exact List.Pairwise.nil
  | cons b rest ih =>
    intro mi bi0
    simp only [collectBlocks]
    rw [List.pairwise_append]
    refine ⟨?_, ih mi (bi0 + 1), ?_⟩
    · cases b <;> simp
    · intro a ha b2 hb2
      have ha2 : a.block_idx = bi0 := by
        cases b <;> simp at ha
        · rw [ha]
      have hb3 := (collectBlocks_sound rest mi (bi0 + 1) b2 hb2).2.1
      exact Or.inr (by omega)

/-- Helper: all collected locations are pairwise distinct. -/
theorem collectFrom_distinct : ∀ (ms : List Message) (mi0 : Nat),
    List.Pairwise locNe (collectFrom mi0 ms) := by
  intro ms
  induction ms with
  | nil => intro mi0; exact List.Pairwise.nil
  | cons m rest ih =>
    intro mi0
    simp only [collectFrom]
    rw [List.pairwise_append]
    refine ⟨collectBlocks_distinct _ mi0 0, ih (mi0 + 1), ?_⟩
    intro a ha b hb
    have ha2 := (collectBlocks_sound (blocksOf m) mi0 0 a ha).1
    have hb2 := (collectFrom_sound rest (mi0 + 1) b hb).1
    exact Or.inl (by omega)

/-- Helper: one step of the first pass, unfolded. -/
theorem guardPass1_cons (sm : Nat) (loc : ToolResultLoc)
    (rest : List ToolResultLoc) (st : GuardState) :
    guardPass1 sm (loc :: rest) st = guardPass1 sm rest
      (if sm < loc.char_len then
        match getToolResultContent st.1 loc.msg_idx loc.block_idx with
        | some content =>
          (setToolResultContent st.1 loc.msg_idx loc.block_idx
              (truncate_to content sm),
            st.2.1 - content.length + (truncate_to content sm).length,
            st.2.2 + 1)
        | none => st
      else st) := rfl

/-- Helper: first-pass invariants — the running total tracks `sumTR`, the
total never grows, untouched positions keep their content, and every
collected location ends capped at `sm` (or untouched when already within). -/
theorem guardPass1_spec (sm : Nat) (h80 : 80 ≤ sm) (hsmB : sm < 10 ^ 15) :
    ∀ (locs : List ToolResultLoc) (ms : List Message) (tc cnt : Nat),
    tc = sumTR ms → tc < 10 ^ 15 →
    List.Pairwise locNe locs →
    (∀ loc ∈ locs, ∃ c,
        getToolResultContent ms loc.msg_idx loc.block_idx = some c ∧
        c.length = loc.char_len) →
    (guardPass1 sm locs (ms, tc, cnt)).2.1 =
        sumTR (guardPass1 sm locs (ms, tc, cnt)).1 ∧
    sumTR (guardPass1 sm locs (ms, tc, cnt)).1 ≤ tc ∧
    (∀ mi bi, (∀ loc ∈ locs, ¬(loc.msg_idx = mi ∧ loc.block_idx = bi)) →
        getToolResultContent (guardPass1 sm locs (ms, tc, cnt)).1 mi bi =
          getToolResultContent ms mi bi) ∧
    (∀ loc ∈ locs, ∃ c',
        getToolResultContent (guardPass1 sm locs (ms, tc, cnt)).1
          loc.msg_idx loc.block_idx = some c' ∧
        (sm < loc.char_len → c'.length ≤ sm) ∧
        (loc.char_len ≤ sm → c'.length = loc.char_len)) := by
  intro locs
  induction locs with
  | nil =>
    intro ms tc cnt htc _ _ _
    exact ⟨htc, Nat.le_of_eq htc.symm, fun mi bi _ => rfl,
      fun loc h => absurd h (List.not_mem_nil loc)⟩
  | cons loc rest ih =>
    intro ms tc cnt htc hB hpw hlive
    obtain ⟨hhead, htail⟩ := List.pairwise_cons.mp hpw
    obtain ⟨c, hc, hclen⟩ := hlive loc (List.mem_cons_self loc rest)
    have hlive' : ∀ l ∈ rest, ∃ c0,
        getToolResultContent ms l.msg_idx l.block_idx = some c0 ∧
        c0.length = l.char_len :=
      fun l h => hlive l (List.mem_cons_of_mem loc h)
    have hnotin : ∀ l2 ∈ rest,
        ¬(l2.msg_idx = loc.msg_idx ∧ l2.block_idx = loc.block_idx) :=
      fun l2 h2 hcon => (hhead l2 h2).elim (fun h1 => h1 hcon.1.symm)
        (fun h1 => h1 hcon.2.symm)
    by_cases hlt : sm < loc.char_len
    · have hcle := getTRC_le_sumTR ms loc.msg_idx loc.block_idx c hc
      have hcB : c.length < 10 ^ 15 := by omega
      have hnew : (truncate_to c sm).length ≤ sm :=
        truncate_to_length c sm h80 hcB hsmB
      have hss := sumTR_setTRC ms loc.msg_idx loc.block_idx c
        (truncate_to c sm) hc
      have hstep : guardPass1 sm (loc :: rest) (ms, tc, cnt) =
          guardPass1 sm rest
            (setToolResultContent ms loc.msg_idx loc.block_idx
                (truncate_to c sm),
              tc - c.length + (truncate_to c sm).length, cnt + 1) := by
        rw [guardPass1_cons]
        dsimp only
        rw [if_pos hlt, hc]
      rw [hstep]
      have htc' : tc - c.length + (truncate_to c sm).length =
          sumTR (setToolResultContent ms loc.msg_idx loc.block_idx
            (truncate_to c sm)) := by omega
      have hB' : tc - c.length + (truncate_to c sm).length < 10 ^ 15 := by
        omega
      have hlive'' : ∀ l ∈ rest, ∃ c0,
          getToolResultContent
            (setToolResultContent ms loc.msg_idx loc.block_idx
              (truncate_to c sm)) l.msg_idx l.block_idx = some c0 ∧
          c0.length = l.char_len := by
        intro l h
        obtain ⟨c0, hc0, hl0⟩ := hlive' l h
        refine ⟨c0, ?_, hl0⟩
        rw [getTRC_setTRC_other ms loc.msg_idx loc.block_idx l.msg_idx
          l.block_idx (truncate_to c sm) (hnotin l h)]
        exact hc0
      obtain ⟨ih1, ih2, ih3, ih4⟩ :=
        ih (setToolResultContent ms loc.msg_idx loc.block_idx
            (truncate_to c sm))
          (tc - c.length + (truncate_to c sm).length) (cnt + 1)
          htc' hB' htail hlive''
      refine ⟨ih1, by omega, ?_, ?_⟩
      · intro mi bi hn
        rw [ih3 mi bi (fun l h => hn l (List.mem_cons_of_mem loc h))]
        exact getTRC_setTRC_other ms loc.msg_idx loc.block_idx mi bi
          (truncate_to c sm)
          (fun hcon => hn loc (List.mem_cons_self loc rest)
            ⟨hcon.1.symm, hcon.2.symm⟩)
      · intro l hl
        rcases List.mem_cons.mp hl with rfl | hl'
        · refine ⟨truncate_to c sm, ?_, fun _ => hnew,
            fun hle => absurd hlt (by omega)⟩
          rw [ih3 l.msg_idx l.block_idx hnotin]
          exact getTRC_setTRC_same ms l.msg_idx l.block_idx c
            (truncate_to c sm) hc
        · exact ih4 l hl'
    · have hstep : guardPass1 sm (loc :: rest) (ms, tc, cnt) =
          guardPass1 sm rest (ms, tc, cnt) := by
        rw [guardPass1_cons]
        dsimp only
        rw [if_neg hlt]
      rw [hstep]
      obtain ⟨ih1, ih2, ih3, ih4⟩ := ih ms tc cnt htc hB htail hlive'
      refine ⟨ih1, ih2, ?_, ?_⟩
      · intro mi bi hn
        exact ih3 mi bi (fun l h => hn l (List.mem_cons_of_mem loc h))
      · intro l hl
        rcases List.mem_cons.mp hl with rfl | hl'
        · refine ⟨c, ?_, fun h => absurd h hlt, fun _ => hclen⟩
          rw [ih3 l.msg_idx l.block_idx hnotin]
          exact hc
        · exact ih4 l hl'

/-- Helper: one step of the second pass, unfolded. -/
theorem guardPass2_cons (hr ct : Nat) (loc : ToolResultLoc)
    (rest : List ToolResultLoc) (st : GuardState) :
    guardPass2 hr ct (loc :: rest) st =
      if st.2.1 ≤ hr then st
      else if loc.char_len ≤ ct then guardPass2 hr ct rest st
      else
        match getToolResultContent st.1 loc.msg_idx loc.block_idx with
        | some content =>
          if ct < content.length then
            guardPass2 hr ct rest
              (setToolResultContent st.1 loc.msg_idx loc.block_idx
                  (truncate_to content ct),
                st.2.1 - content.length + (truncate_to content ct).length,
                st.2.2 + 1)
          else guardPass2 hr ct rest st
        | none => guardPass2 hr ct rest st := rfl

/-- Helper: second-pass invariants — the running total tracks `sumTR` and
never grows, the per-result cap `sm` is preserved, untouched positions keep
their content, and at the end either the total is within headroom or every
collected location sits at or below the 2,000-byte compact target. -/
theorem guardPass2_spec (hr sm : Nat) (hsm : 2000 ≤ sm) :
    ∀ (locs : List ToolResultLoc) (ms : List Message) (tc cnt : Nat),
    tc = sumTR ms → tc < 10 ^ 15 →
    List.Pairwise locNe locs →
    (∀ mi bi c, getToolResultContent ms mi bi = some c →
        c.length ≤ sm) →
    (∀ loc ∈ locs, ∃ c,
        getToolResultContent ms loc.msg_idx loc.block_idx = some c ∧
        (loc.char_len ≤ 2000 → c.length ≤ 2000)) →
    (guardPass2 hr 2000 locs (ms, tc, cnt)).2.1 =
        sumTR (guardPass2 hr 2000 locs (ms, tc, cnt)).1 ∧
    sumTR (guardPass2 hr 2000 locs (ms, tc, cnt)).1 ≤ tc ∧
    (∀ mi bi c,
        getToolResultContent (guardPass2 hr 2000 locs (ms, tc, cnt)).1 mi bi =
          some c → c.length ≤ sm) ∧
    (∀ mi bi, (∀ loc ∈ locs, ¬(loc.msg_idx = mi ∧ loc.block_idx = bi)) →
        getToolResultContent (guardPass2 hr 2000 locs (ms, tc, cnt)).1 mi bi =
          getToolResultContent ms mi bi) ∧
    ((guardPass2 hr 2000 locs (ms, tc, cnt)).2.1 ≤ hr ∨
      ∀ loc ∈ locs, ∃ c,
        getToolResultContent (guardPass2 hr 2000 locs (ms, tc, cnt)).1
          loc.msg_idx loc.block_idx = some c ∧ c.length ≤ 2000) := by
  intro locs
  induction locs with
  | nil =>
    intro ms tc cnt htc _ _ hInv _
    exact ⟨htc, Nat.le_of_eq htc.symm, hInv, fun mi bi _ => rfl,
      Or.inr (fun loc h => absurd h (List.not_mem_nil loc))⟩
  | cons loc rest ih =>
    intro ms tc cnt htc hB hpw hInv hlive2
    obtain ⟨hhead, htail⟩ := List.pairwise_cons.mp hpw
    obtain ⟨c, hc, himp⟩ := hlive2 loc (List.mem_cons_self loc rest)
    have hlive2' : ∀ l ∈ rest, ∃ c0,
        getToolResultContent ms l.msg_idx l.block_idx = some c0 ∧
        (l.char_len ≤ 2000 → c0.length ≤ 2000) :=
      fun l h => hlive2 l (List.mem_cons_of_mem loc h)
    have hnotin : ∀ l2 ∈ rest,
        ¬(l2.msg_idx = loc.msg_idx ∧ l2.block_idx = loc.block_idx) :=
      fun l2 h2 hcon => (hhead l2 h2).elim (fun h1 => h1 hcon.1.symm)
        (fun h1 => h1 hcon.2.symm)
    by_cases hbr : tc ≤ hr
    · have hstep : guardPass2 hr 2000 (loc :: rest) (ms, tc, cnt) =
          (ms, tc, cnt) := by
        rw [guardPass2_cons]
        dsimp only
        rw [if_pos hbr]
      rw [hstep]
      exact ⟨htc, Nat.le_of_eq htc.symm, hInv, fun mi bi _ => rfl,
        Or.inl hbr⟩
    · by_cases hskip : loc.char_len ≤ 2000
      · have hstep : guardPass2 hr 2000 (loc :: rest) (ms, tc, cnt) =
            guardPass2 hr 2000 rest (ms, tc, cnt) := by
          rw [guardPass2_cons]
          dsimp only
          rw [if_neg hbr, if_pos hskip]
        rw [hstep]
        obtain ⟨ih1, ih2, ih3, ih4, ih5⟩ :=
          ih ms tc cnt htc hB htail hInv hlive2'
        refine ⟨ih1, ih2, ih3, ?_, ?_⟩
        · intro mi bi hn
          exact ih4 mi bi (fun l h => hn l (List.mem_cons_of_mem loc h))
        · rcases ih5 with h | h
          · exact Or.inl h
          · refine Or.inr ?_
            intro l hl
            rcases List.mem_cons.mp hl with rfl | hl'
            · refine ⟨c, ?_, himp hskip⟩
              rw [ih4 l.msg_idx l.block_idx hnotin]
              exact hc
            · exact h l hl'
      · by_cases hlen : 2000 < c.length
        · have hcle := getTRC_le_sumTR ms loc.msg_idx loc.block_idx c hc
          have hcB : c.length < 10 ^ 15 := by omega
          have hnew : (truncate_to c 2000).length ≤ 2000 :=
            truncate_to_length c 2000 (by omega) hcB (by norm_num)
          have hss := sumTR_setTRC ms loc.msg_idx loc.block_idx c
            (truncate_to c 2000) hc
          have hstep : guardPass2 hr 2000 (loc :: rest) (ms, tc, cnt) =
              guardPass2 hr 2000 rest
                (setToolResultContent ms loc.msg_idx loc.block_idx
                    (truncate_to c 2000),
                  tc - c.length + (truncate_to c 2000).length, cnt + 1) := by
            rw [guardPass2_cons]
            dsimp only
            rw [if_neg hbr, if_neg hskip, hc]
            dsimp only
            rw [if_pos hlen]
          rw [hstep]
          have htc' : tc - c.length + (truncate_to c 2000).length =
              sumTR (setToolResultContent ms loc.msg_idx loc.block_idx
                (truncate_to c 2000)) := by omega
          have hB' : tc - c.length + (truncate_to c 2000).length < 10 ^ 15 :=
            by omega
          have hInv' : ∀ mi bi c0,
              getToolResultContent
                (setToolResultContent ms loc.msg_idx loc.block_idx
                  (truncate_to c 2000)) mi bi = some c0 →
              c0.length ≤ sm := by
            intro mi bi c0 h0
            by_cases hpos : mi = loc.msg_idx ∧ bi = loc.block_idx
            · rw [hpos.1, hpos.2] at h0
              rw [getTRC_setTRC_same ms loc.msg_idx loc.block_idx c
                (truncate_to c 2000) hc] at h0
              injection h0 with h0
              subst h0
              omega
            · rw [getTRC_setTRC_other ms loc.msg_idx loc.block_idx mi bi
                (truncate_to c 2000) hpos] at h0
              exact hInv mi bi c0 h0
          have hlive2'' : ∀ l ∈ rest, ∃ c0,
              getToolResultContent
                (setToolResultContent ms loc.msg_idx loc.block_idx
                  (truncate_to c 2000)) l.msg_idx l.block_idx = some c0 ∧
              (l.char_len ≤ 2000 → c0.length ≤ 2000) := by
            intro l h
            obtain ⟨c0, hc0, hl0⟩ := hlive2' l h
            refine ⟨c0, ?_, hl0⟩
            rw [getTRC_setTRC_other ms loc.msg_idx loc.block_idx l.msg_idx
              l.block_idx (truncate_to c 2000) (hnotin l h)]
            exact hc0
          obtain ⟨ih1, ih2, ih3, ih4, ih5⟩ :=
            ih (setToolResultContent ms loc.msg_idx loc.block_idx
                (truncate_to c 2000))
              (tc - c.length + (truncate_to c 2000).length) (cnt + 1)
              htc' hB' htail hInv' hlive2''
          refine ⟨ih1, by omega, ih3, ?_, ?_⟩
          · intro mi bi hn
            rw [ih4 mi bi (fun l h => hn l (List.mem_cons_of_mem loc h))]
            exact getTRC_setTRC_other ms loc.msg_idx loc.block_idx mi bi
              (truncate_to c 2000)
              (fun hcon => hn loc (List.mem_cons_self loc rest)
                ⟨hcon.1.symm, hcon.2.symm⟩)
          · rcases ih5 with h | h
            · exact Or.inl h
            · refine Or.inr ?_
              intro l hl
              rcases List.mem_cons.mp hl with rfl | hl'
              · refine ⟨truncate_to c 2000, ?_, hnew⟩
                rw [ih4 l.msg_idx l.block_idx hnotin]
                exact getTRC_setTRC_same ms l.msg_idx l.block_idx c
                  (truncate_to c 2000) hc
              · exact h l hl'
        · have hstep : guardPass2 hr 2000 (loc :: rest) (ms, tc, cnt) =
              guardPass2 hr 2000 rest (ms, tc, cnt) := by
            rw [guardPass2_cons]
            dsimp only
            rw [if_neg hbr, if_neg hskip, hc]
            dsimp only
            rw [if_neg hlen]
          rw [hstep]
          obtain ⟨ih1, ih2, ih3, ih4, ih5⟩ :=
            ih ms tc cnt htc hB htail hInv hlive2'
          refine ⟨ih1, ih2, ih3, ?_, ?_⟩
          · intro mi bi hn
            exact ih4 mi bi (fun l h => hn l (List.mem_cons_of_mem loc h))
          · rcases ih5 with h | h
            · exact Or.inl h
            · refine Or.inr ?_
              intro l hl
              rcases List.mem_cons.mp hl with rfl | hl'
              · refine ⟨c, ?_, by omega⟩
                rw [ih4 l.msg_idx l.block_idx hnotin]
                exact hc
              · exact h l hl'

/-- **C3** (corrected).  The claim is false as stated: when the initial
tool-result total is within `total_tool_headroom_chars` the guard returns
early and leaves untouched single results above `single_result_max` (see the
counterexample).  Amended: whenever the guard actually runs (initial total
above headroom) and sizes are in the f64-exact range, (a) after the first
pass every `ToolResult` is at most `single_result_max` — an oversized one is
truncated to at most (not exactly) that max, since `truncate_to` keeps at
most `single_result_max - 80` bytes plus a marker of at most 80 bytes; (b)
that per-result cap still holds at the end; and (c) the final total is
within headroom unless pass 2 exhausted all locations, in which case every
`ToolResult` is at or below the 2,000-byte compact target (the sum can then
still exceed headroom by far more than one compact-granularity, e.g. with
many 2,000-byte results). -/
theorem apply_context_guard_spec (messages : List Message)
    (budget : ContextBudget)
    (hsm : 2000 ≤ budget.single_result_max)
    (hsmB : budget.single_result_max < 10 ^ 15)
    (hsumB : sumTR messages < 10 ^ 15)
    (hrun : budget.total_tool_headroom_chars < sumTR messages) :
    guardConclusion messages budget := by
  unfold guardConclusion
  have hts : ((collectToolResults messages).map (·.char_len)).sum =
      sumTR messages := collectFrom_sum messages 0
  have hpw : List.Pairwise locNe (collectToolResults messages) :=
    collectFrom_distinct messages 0
  have hlive : ∀ loc ∈ collectToolResults messages, ∃ c,
      getToolResultContent messages loc.msg_idx loc.block_idx = some c ∧
      c.length = loc.char_len := by
    intro loc hm
    obtain ⟨_, c, h2, h3⟩ := collectFrom_sound messages 0 loc hm
    exact ⟨c, by simpa using h2, h3⟩
  have h80 : 80 ≤ budget.single_result_max := by omega
  obtain ⟨hp1, hp2, hp3, hp4⟩ :=
    guardPass1_spec budget.single_result_max h80 hsmB
      (collectToolResults messages) messages (sumTR messages) 0
      rfl hsumB hpw hlive
  set st1 := guardPass1 budget.single_result_max (collectToolResults messages)
    (messages, sumTR messages, 0) with hst1
  have hcl : ∀ mi bi c, getToolResultContent st1.1 mi bi = some c →
      c.length ≤ budget.single_result_max := by
    intro mi bi c hgc
    by_cases hin : ∃ loc ∈ collectToolResults messages,
        loc.msg_idx = mi ∧ loc.block_idx = bi
    · obtain ⟨loc, hmem, hm1, hm2⟩ := hin
      obtain ⟨c', hc', hb1, hb2⟩ := hp4 loc hmem
      rw [hm1, hm2, hgc] at hc'
      injection hc' with hcc
      subst hcc
      rcases le_or_lt loc.char_len budget.single_result_max with hle | hgt
      · have := hb2 hle
        omega
      · exact hb1 hgt
    · have hnotin : ∀ l ∈ collectToolResults messages,
          ¬(l.msg_idx = mi ∧ l.block_idx = bi) :=
        fun l h hcon => hin ⟨l, h, hcon⟩
      rw [hp3 mi bi hnotin] at hgc
      have hmem := collectFrom_complete messages 0 mi bi c hgc
      rw [Nat.zero_add] at hmem
      exact absurd ⟨rfl, rfl⟩ (hnotin _ hmem)
  have hB2 : st1.2.1 < 10 ^ 15 := by
    rw [hp1]
    omega
  have hlive2 : ∀ loc ∈ collectToolResults messages, ∃ c,
      getToolResultContent st1.1 loc.msg_idx loc.block_idx = some c ∧
      (loc.char_len ≤ 2000 → c.length ≤ 2000) := by
    intro loc hm
    obtain ⟨c', hc', _, hb2⟩ := hp4 loc hm
    refine ⟨c', hc', fun h2000 => ?_⟩
    have := hb2 (by omega)
    omega
  obtain ⟨hq1, hq2, hq3, hq4, hq5⟩ :=
    guardPass2_spec budget.total_tool_headroom_chars budget.single_result_max
      hsm (collectToolResults messages) st1.1 st1.2.1 st1.2.2
      hp1 hB2 hpw hcl hlive2
  have hguard : apply_context_guard messages budget =
      ((guardPass2 budget.total_tool_headroom_chars 2000
          (collectToolResults messages) (st1.1, st1.2.1, st1.2.2)).1,
        (guardPass2 budget.total_tool_headroom_chars 2000
          (collectToolResults messages) (st1.1, st1.2.1, st1.2.2)).2.2) := by
    unfold apply_context_guard
    dsimp only
    rw [hts, if_neg (by omega)]
  refine ⟨hcl, ?_, ?_⟩
  · intro mi bi c hgc
    rw [hguard] at hgc
    dsimp only at hgc
    exact hq3 mi bi c hgc
  · rcases hq5 with h | h
    · refine Or.inl ?_
      rw [hguard]
      dsimp only
      rw [← hq1]
      exact h
    · refine Or.inr ?_
      intro mi bi c hgc
      rw [hguard] at hgc
      dsimp only at hgc
      by_cases hin : ∃ loc ∈ collectToolResults messages,
          loc.msg_idx = mi ∧ loc.block_idx = bi
      · obtain ⟨loc, hmem, hm1, hm2⟩ := hin
        obtain ⟨c', hc', hlen⟩ := h loc hmem
        rw [hm1, hm2, hgc] at hc'
        injection hc' with hcc
        subst hcc
        exact hlen
      · have hnotin : ∀ l ∈ collectToolResults messages,
            ¬(l.msg_idx = mi ∧ l.block_idx = bi) :=
          fun l hh hcon => hin ⟨l, hh, hcon⟩
        rw [hq4 mi bi hnotin, hp3 mi bi hnotin] at hgc
        have hmem := collectFrom_complete messages 0 mi bi c hgc
        rw [Nat.zero_add] at hmem
        exact absurd ⟨rfl, rfl⟩ (hnotin _ hmem)

/-- **C3** counterexample to the literal claim: with a 100-token window the
headroom is 150 chars and `single_result_max` is 100 chars; a lone 120-byte
`ToolResult` is within headroom, so `apply_context_guard` returns the history
unchanged with a result still above `single_result_max`. -/
theorem apply_context_guard_counterexample :
    apply_context_guard guardCexMsgs ⟨100⟩ = (guardCexMsgs, 0) ∧
    getToolResultContent guardCexMsgs 0 0 = some (List.replicate 120 97) ∧
    (ContextBudget.mk 100).single_result_max <
      (List.replicate 120 97).length := by
  refine ⟨?_, ?_, ?_⟩ <;> decide

/-- **C3** witness: a 2,000-token window (`single_result_max` = 2,000,
headroom = 3,000) with a lone 3,100-byte `ToolResult` satisfies every
hypothesis of the amended theorem. -/
theorem apply_context_guard_spec_witness :
    (2000 ≤ (ContextBudget.mk 2000).single_result_max ∧
      (ContextBudget.mk 2000).single_result_max < 10 ^ 15 ∧
      sumTR guardWitMsgs < 10 ^ 15 ∧
      (ContextBudget.mk 2000).total_tool_headroom_chars <
        sumTR guardWitMsgs) ∧
    guardConclusion guardWitMsgs ⟨2000⟩ :=
  ⟨⟨by decide, by decide,
      by norm_num [guardWitMsgs, sumTR, sumBlocksTR],
      by norm_num [guardWitMsgs, sumTR, sumBlocksTR,
        ContextBudget.total_tool_headroom_chars]⟩,
    apply_context_guard_spec guardWitMsgs ⟨2000⟩ (by decide) (by decide)
      (by norm_num [guardWitMsgs, sumTR, sumBlocksTR])
      (by norm_num [guardWitMsgs, sumTR, sumBlocksTR,
        ContextBudget.total_tool_headroom_chars])⟩

/-- Helper: cons characterisation of `okSeq`. -/
theorem okSeq_cons (b : Nat) (t : Bytes) :
    okSeq (b :: t) = true ↔ okSeq t = true ∧ (b < 0x80 → headOk t = true) := by
  cases t with
  | nil => simp [okSeq, headOk]
  | cons c t' =>
    by_cases hb : b < 0x80 <;>
      cases hc : contByte c <;>
        simp [okSeq, headOk, hb, hc]

/-- Helper: `okSeq` passes to the tail. -/
theorem okSeq_tail (b : Nat) (t : Bytes) (h : okSeq (b :: t) = true) :
    okSeq t = true := ((okSeq_cons b t).mp h).1

/-- Helper: the head condition survives appending. -/
theorem headOk_append (x y : Bytes) (hx : headOk x = true)
    (hy : headOk y = true) : headOk (x ++ y) = true := by
  cases x <;> simp_all [headOk]

/-- Helper: `okSeq` of a concatenation whose right part starts cleanly. -/
theorem okSeq_append : ∀ (x y : Bytes), okSeq x = true → okSeq y = true →
    headOk y = true → okSeq (x ++ y) = true := by
  intro x
  induction x with
  | nil => intro y _ hy _; simpa using hy
  | cons b x' ih =>
    intro y hx hy hhy
    rw [List.cons_append, okSeq_cons]
    obtain ⟨hx', hcond⟩ := (okSeq_cons b x').mp hx
    refine ⟨ih y hx' hy hhy, fun hb => ?_⟩
    have hh := hcond hb
    cases x' with
    | nil => simpa using hhy
    | cons c x'' => simpa [headOk] using hh

/-- Helper: well-formedness is closed under concatenation. -/
theorem okStr_append (x y : Bytes) (hx : okStr x = true)
    (hy : okStr y = true) : okStr (x ++ y) = true := by
  unfold okStr at *
  rw [Bool.and_eq_true] at hx hy ⊢
  exact ⟨okSeq_append x y hx.1 hy.1 hy.2, headOk_append x y hx.2 hy.2⟩

/-- Helper: extract `okSeq` from well-formedness. -/
theorem okStr_okSeq (s : Bytes) (h : okStr s = true) : okSeq s = true := by
  unfold okStr at h
  rw [Bool.and_eq_true] at h
  exact h.1

/-- Helper: extract the head condition from well-formedness. -/
theorem okStr_headOk (s : Bytes) (h : okStr s = true) : headOk s = true := by
  unfold okStr at h
  rw [Bool.and_eq_true] at h
  exact h.2

/-- Helper: the head condition survives `take`. -/
theorem headOk_take (s : Bytes) (n : Nat) (h : headOk s = true) :
    headOk (s.take n) = true := by
  cases s <;> cases n <;> simp_all [headOk]

/-- Helper: `okSeq` survives `take`. -/
theorem okSeq_take : ∀ (s : Bytes) (n : Nat), okSeq s = true →
    okSeq (s.take n) = true := by
  intro s
  induction s with
  | nil => intro n _; simp [List.take_nil]; rfl
  | cons b t ih =>
    intro n h
    cases n with
    | zero => rfl
    | succ n' =>
      rw [List.take_succ_cons, okSeq_cons]
      obtain ⟨ht, hcond⟩ := (okSeq_cons b t).mp h
      exact ⟨ih n' ht, fun hb => headOk_take t n' (hcond hb)⟩

/-- Helper: `okSeq` survives `drop`. -/
theorem okSeq_drop : ∀ (s : Bytes) (n : Nat), okSeq s = true →
    okSeq (s.drop n) = true := by
  intro s
  induction s with
  | nil => intro n _; simpa
  | cons b t ih =>
    intro n h
    cases n with
    | zero => exact h
    | succ n' => exact ih n' (okSeq_tail b t h)

/-- Helper: well-formedness survives `take`. -/
theorem okStr_take (s : Bytes) (n : Nat) (h : okStr s = true) :
    okStr (s.take n) = true := by
  unfold okStr at *
  rw [Bool.and_eq_true] at h ⊢
  exact ⟨okSeq_take s n h.1, headOk_take s n h.2⟩

/-- Helper: `getD` through `take`. -/
theorem getD_take (s : Bytes) (k j : Nat) (hj : j < k) (hjs : j < s.length) :
    (s.take k).getD j 0 = s.getD j 0 := by
  rw [List.getD_eq_getElem _ _ (by simp; omega), List.getD_eq_getElem _ _ hjs]
  apply List.getElem_take

/-- Helper: `getD` through `drop`. -/
theorem getD_drop (s : Bytes) (a j : Nat) (ha : a + j < s.length) :
    (s.drop a).getD j 0 = s.getD (a + j) 0 := by
  rw [List.getD_eq_getElem _ _ (by simp; omega), List.getD_eq_getElem _ _ ha]
  apply List.getElem_drop

/-- Helper: `okSeq` forbids a continuation byte after an ASCII byte. -/
theorem ascii_next_not_cont : ∀ (s : Bytes) (i : Nat), okSeq s = true →
    i + 1 < s.length → s.getD i 0 < 0x80 →
    contByte (s.getD (i + 1) 0) = false := by
  intro s
  induction s with
  | nil => intro i _ h; simp at h
  | cons b t ih =>
    intro i h hlen hbyte
    obtain ⟨ht, hcond⟩ := (okSeq_cons b t).mp h
    cases i with
    | zero =>
      have hh := hcond (by simpa using hbyte)
      cases t with
      | nil => simp at hlen
      | cons c t' => simpa [headOk] using hh
    | succ i' =>
      have := ih i' ht (by simpa using hlen) (by simpa using hbyte)
      simpa using this

/-- Helper: an ASCII byte sits at a char boundary. -/
theorem boundary_of_ascii (s : Bytes) (i : Nat) (hi : i < s.length)
    (hb : s.getD i 0 < 0x80) : isCharBoundary s i = true := by
  unfold isCharBoundary
  rcases Nat.eq_zero_or_pos i with h0 | h0
  · subst h0; simp
  · rw [if_neg (by omega), if_pos hi]
    dsimp only
    simp only [Bool.or_eq_true, decide_eq_true_eq]
    omega

/-- Helper: the position after an ASCII byte is a char boundary. -/
theorem boundary_after_ascii (s : Bytes) (i : Nat) (hok : okSeq s = true)
    (hi : i < s.length) (hb : s.getD i 0 < 0x80) :
    isCharBoundary s (i + 1) = true := by
  unfold isCharBoundary
  split
  · rfl
  · by_cases hlt : i + 1 < s.length
    · rw [if_pos hlt]
      have hnc := ascii_next_not_cont s i hok hlt hb
      have : ¬(0x80 ≤ s.getD (i + 1) 0 ∧ s.getD (i + 1) 0 < 0xC0) := by
        simpa [contByte] using hnc
      simp only [Bool.or_eq_true, decide_eq_true_eq]
      omega
    · rw [if_neg hlt]
      simp only [decide_eq_true_eq]
      omega

/-- Helper: position 0 is a char boundary. -/
theorem boundary_zero (s : Bytes) : isCharBoundary s 0 = true := by
  unfold isCharBoundary
  simp

/-- Helper: the end position is a char boundary. -/
theorem boundary_len (s : Bytes) : isCharBoundary s s.length = true := by
  unfold isCharBoundary
  split
  · rfl
  · rw [if_neg (lt_irrefl _)]
    simp

/-- Helper: a checked slice at satisfied conditions. -/
theorem sliceCB_some_of (s : Bytes) (a b : Nat) (h1 : a ≤ b)
    (h2 : b ≤ s.length) (h3 : isCharBoundary s a = true)
    (h4 : isCharBoundary s b = true) :
    sliceCB s a b = some ((s.take b).drop a) := by
  unfold sliceCB
  rw [if_pos]
  simp [h1, h2, h3, h4]

/-- Helper: inversion of a successful checked slice. -/
theorem sliceCB_inv (s : Bytes) (a b : Nat) (t : Bytes)
    (h : sliceCB s a b = some t) :
    a ≤ b ∧ b ≤ s.length ∧ isCharBoundary s a = true ∧
    t = (s.take b).drop a := by
  unfold sliceCB at h
  split at h
  · next hc =>
    simp only [Bool.and_eq_true, decide_eq_true_eq] at hc
    injection h with h
    exact ⟨hc.1.1.1, hc.1.1.2, hc.1.2, h.symm⟩
  · cases h

/-- Helper: a well-formed string slices to a well-formed head. -/
theorem headOk_slice (s : Bytes) (a b : Nat) (hok : okStr s = true)
    (hb : isCharBoundary s a = true) :
    headOk ((s.take b).drop a) = true := by
  cases hsl : (s.take b).drop a with
  | nil => rfl
  | cons c rest =>
    have hlen : a < min b s.length := by
      have := congrArg List.length hsl
      simp only [List.length_drop, List.length_take, List.length_cons] at this
      omega
    have hc : c = s.getD a 0 := by
      have h0 : ((s.take b).drop a).getD 0 0 = c := by rw [hsl]; rfl
      rw [getD_drop (s.take b) a 0 (by simp; omega)] at h0
      rw [Nat.add_zero] at h0
      rw [getD_take s b a (by omega) (by omega)] at h0
      exact h0.symm
    show (!contByte c) = true
    rw [hc]
    unfold isCharBoundary at hb
    split at hb
    · next ha =>
      subst ha
      have hh := okStr_headOk s hok
      cases s with
      | nil => simp at hlen
      | cons d s' => simpa [headOk] using hh
    · by_cases hlt : a < s.length
      · rw [if_pos hlt] at hb
        simp only [Bool.or_eq_true, decide_eq_true_eq] at hb
        simp only [contByte, Bool.not_eq_true', Bool.and_eq_false_iff,
          decide_eq_false_iff_not]
        omega
      · omega

/-- Helper: a checked slice of a well-formed string is well-formed. -/
theorem sliceCB_okStr (s : Bytes) (a b : Nat) (hok : okStr s = true)
    (t : Bytes) (h : sliceCB s a b = some t) : okStr t = true := by
  obtain ⟨_, _, hba, ht⟩ := sliceCB_inv s a b t h
  subst ht
  unfold okStr
  rw [Bool.and_eq_true]
  refine ⟨okSeq_drop _ a (okSeq_take s b (okStr_okSeq s hok)), ?_⟩
  exact headOk_slice s a b hok hba

/-- Helper: inversion of a successful `find_ci`. -/
theorem find_ci_some (h n : Bytes) (f i : Nat) (hf : find_ci h n f = some i) :
    f ≤ i ∧ 0 < n.length ∧ i + n.length ≤ h.length ∧
    matchCiAt h n i = true := by
  unfold find_ci at hf
  split at hf
  · cases hf
  · next hcond =>
    push_neg at hcond
    have hm := List.mem_of_find?_eq_some hf
    have hp := List.find?_some hf
    rw [List.mem_range'_1] at hm
    exact ⟨hm.1, by omega, by omega, hp⟩

/-- Helper: the per-byte condition of a `matchCiAt` success. -/
theorem matchCiAt_byte (h n : Bytes) (i j : Nat) (hj : j < n.length)
    (hm : matchCiAt h n i = true) :
    eqIgnoreAsciiCase (h.getD (i + j) 0) (n.getD j 0) = true := by
  unfold matchCiAt at hm
  rw [List.all_eq_true] at hm
  exact hm j (List.mem_range.mpr hj)

/-- Helper: a byte case-insensitively equal to an ASCII byte is ASCII. -/
theorem eqIgnore_ascii (x y : Nat) (hy : y < 0x80)
    (he : eqIgnoreAsciiCase x y = true) : x < 0x80 := by
  unfold eqIgnoreAsciiCase toAsciiLower at he
  rw [beq_iff_eq] at he
  split at he <;> split at he <;> omega

/-- Helper: a `find_ci` hit on an ASCII needle gives char boundaries at both
ends of the match, inside the text. -/
theorem find_ci_anchor (ht n : Bytes) (f i : Nat)
    (hok : okSeq ht = true) (hn : ∀ b ∈ n, b < 0x80)
    (hf : find_ci ht n f = some i) :
    f ≤ i ∧ i + n.length ≤ ht.length ∧ i < ht.length ∧
    isCharBoundary ht i = true ∧ isCharBoundary ht (i + n.length) = true ∧
    ht.getD i 0 < 0x80 := by
  obtain ⟨h1, h2, h3, h4⟩ := find_ci_some ht n f i hf
  have hmem : ∀ j, j < n.length → n.getD j 0 ∈ n := by
    intro j hj
    rw [List.getD_eq_getElem n 0 hj]
    exact List.getElem_mem hj
  have hb0 : ht.getD i 0 < 0x80 := by
    have hbe := matchCiAt_byte ht n i 0 h2 h4
    rw [Nat.add_zero] at hbe
    exact eqIgnore_ascii _ _ (hn _ (hmem 0 h2)) hbe
  have hblast : ht.getD (i + (n.length - 1)) 0 < 0x80 := by
    have hbe := matchCiAt_byte ht n i (n.length - 1) (by omega) h4
    exact eqIgnore_ascii _ _ (hn _ (hmem (n.length - 1) (by omega))) hbe
  refine ⟨h1, h3, by omega, boundary_of_ascii ht i (by omega) hb0, ?_, hb0⟩
  have heq : i + n.length = (i + (n.length - 1)) + 1 := by omega
  rw [heq]
  exact boundary_after_ascii ht _ hok (by omega) hblast

/-- Helper: bytes under a literal pattern match. -/
theorem patternAt_byte (t p : Bytes) (i j : Nat) (hm : patternAt t p i = true)
    (hj : j < p.length) : t.getD (i + j) 0 = p.getD j 0 := by
  unfold patternAt at hm
  have he := of_decide_eq_true hm
  have hlen := congrArg List.length he
  simp only [List.length_take, List.length_drop] at hlen
  have h0 : ((t.drop i).take p.length).getD j 0 = p.getD j 0 := by rw [he]
  rw [getD_take (t.drop i) p.length j hj (by simp; omega)] at h0
  rw [getD_drop t i j (by omega)] at h0
  exact h0

/-- Helper: inversion of `findByte`. -/
theorem findByte_sound (s : Bytes) (b g : Nat) (h : findByte s b = some g) :
    g < s.length ∧ s.getD g 0 = b := by
  unfold findByte at h
  obtain ⟨hp, hfit⟩ := findPat_sound h
  have hg : g < s.length := by
    simp only [List.length_cons, List.length_nil] at hfit
    omega
  refine ⟨hg, ?_⟩
  have := patternAt_byte s [b] g 0 hp (by simp)
  simpa using this

/-- Helper: the `remove_tag_blocks` loop neither panics nor runs out of
fuel, and keeps the accumulator well-formed. -/
theorem removeTagBlocksGo_total (html op cl : Bytes)
    (hok : okStr html = true)
    (hop : ∀ b ∈ op, b < 0x80) (hcl : ∀ b ∈ cl, b < 0x80)
    (hcl0 : cl ≠ []) :
    ∀ fuel pos acc, isCharBoundary html pos = true → pos ≤ html.length →
    html.length + 1 - pos ≤ fuel → okStr acc = true →
    TotOk (removeTagBlocksGo html op cl fuel pos acc) := by
  intro fuel
  induction fuel with
  | zero =>
    intro pos acc _ hpos hfuel _
    exact absurd hfuel (by omega)
  | succ fuel ih =>
    intro pos acc hbd hpos hfuel hacc
    have hcll : 0 < cl.length := List.length_pos.mpr hcl0
    simp only [removeTagBlocksGo]
    by_cases hlt : pos < html.length
    · rw [if_pos hlt]
      split
      next abs_start hfc =>
        obtain ⟨hf1, hf2, hf3, hf4, hf5, hf6⟩ :=
          find_ci_anchor html op pos abs_start (okStr_okSeq html hok) hop hfc
        split
        next hslnone =>
          rw [sliceCB_some_of html pos abs_start hf1 (by omega) hbd hf4]
            at hslnone
          exact Option.noConfusion hslnone
        next piece hsl =>
          have haccOk := okStr_append acc piece hacc
            (sliceCB_okStr html pos abs_start hok piece hsl)
          split
          next e hfc2 =>
            obtain ⟨hg1, hg2, hg3, hg4, hg5, hg6⟩ :=
              find_ci_anchor html cl abs_start e (okStr_okSeq html hok)
                hcl hfc2
            exact ih (e + cl.length) (acc ++ piece) hg5 hg2 (by omega) haccOk
          next hfc2 =>
            split
            next hslnone =>
              rw [sliceCB_some_of html abs_start html.length (by omega)
                (le_refl _) hf4 (boundary_len html)] at hslnone
              exact Option.noConfusion hslnone
            next tail hslt =>
              obtain ⟨_, _, _, htail⟩ :=
                sliceCB_inv html abs_start html.length tail hslt
              split
              next gt hgt =>
                obtain ⟨hgt1, hgt2⟩ := findByte_sound tail 62 gt hgt
                rw [htail] at hgt1 hgt2
                rw [List.take_length] at hgt1 hgt2
                rw [List.length_drop] at hgt1
                rw [getD_drop html abs_start gt (by omega)] at hgt2
                have hb62 : html.getD (abs_start + gt) 0 < 0x80 := by omega
                exact ih (abs_start + gt + 1) (acc ++ piece)
                  (boundary_after_ascii html (abs_start + gt)
                    (okStr_okSeq html hok) (by omega) hb62)
                  (by omega) (by omega) haccOk
              next hgt =>
                exact ih html.length (acc ++ piece) (boundary_len html)
                  (le_refl _) (by omega) haccOk
      next hfc =>
        split
        next hslnone =>
          rw [sliceCB_some_of html pos html.length (le_of_lt hlt) (le_refl _)
            hbd (boundary_len html)] at hslnone
          exact Option.noConfusion hslnone
        next rest hsl =>
          exact ⟨acc ++ rest, rfl, okStr_append acc rest hacc
            (sliceCB_okStr html pos html.length hok rest hsl)⟩
    · rw [if_neg hlt]
      exact ⟨acc, rfl, hacc⟩

/-- Helper: the comment-removal loop neither panics nor runs out of fuel
(each pass removes at least four bytes), and keeps the string
well-formed. -/
theorem removeCommentsGo_total :
    ∀ (fuel : Nat) (s : Bytes), okStr s = true → s.length < fuel →
    TotOk (removeCommentsGo fuel s) := by
  intro fuel
  induction fuel with
  | zero => intro s _ h; exact absurd h (by omega)
  | succ fuel ih =>
    intro s hok hlen
    simp only [removeCommentsGo]
    split
    next => exact ⟨s, rfl, hok⟩
    next start hf1 =>
      split
      next => exact ⟨s, rfl, hok⟩
      next e hf2 =>
        split
        next hlt =>
          obtain ⟨hp1, hfit1⟩ := findPat_sound hf1
          obtain ⟨hp2, hfit2⟩ := findPat_sound hf2
          have hlen4 : (strBytes "<!--").length = 4 := by decide
          have hlen3 : (strBytes "-->").length = 3 := by decide
          rw [hlen4] at hfit1
          rw [hlen3] at hfit2
          have hb1 : s.getD start 0 = 60 := by
            have := patternAt_byte s (strBytes "<!--") start 0 hp1 (by decide)
            simpa using this
          have hb2 : s.getD (e + 2) 0 = 62 := by
            have := patternAt_byte s (strBytes "-->") e 2 hp2 (by decide)
            simpa using this
          have hbds : isCharBoundary s start = true :=
            boundary_of_ascii s start (by omega) (by omega)
          have hbde : isCharBoundary s (e + 3) = true := by
            have := boundary_after_ascii s (e + 2) (okStr_okSeq s hok)
              (by omega) (by omega)
            simpa [Nat.add_assoc] using this
          split
          next hslnone =>
            rw [sliceCB_some_of s 0 start (by omega) (by omega)
              (boundary_zero s) hbds] at hslnone
            exact Option.noConfusion hslnone
          next a hsla =>
            split
            next hslnone =>
              rw [sliceCB_some_of s (e + 3) s.length (by omega) (le_refl _)
                hbde (boundary_len s)] at hslnone
              exact Option.noConfusion hslnone
            next b hslb =>
              have haOk := sliceCB_okStr s 0 start hok a hsla
              have hbOk := sliceCB_okStr s (e + 3) s.length hok b hslb
              obtain ⟨_, _, _, ha⟩ := sliceCB_inv s 0 start a hsla
              obtain ⟨_, _, _, hb⟩ := sliceCB_inv s (e + 3) s.length b hslb
              have hal : a.length = start := by
                rw [ha]
                simp only [List.length_drop, List.length_take]
                omega
              have hbl : b.length = s.length - (e + 3) := by
                rw [hb]
                simp only [List.length_drop, List.length_take]
                omega
              refine ih (a ++ b) (okStr_append a b haOk hbOk) ?_
              rw [List.length_append]
              omega
        next hlt => exact ⟨s, rfl, hok⟩

/-- Helper: the `convert_inline_tag` loop neither panics nor runs out of
fuel, and keeps the accumulator well-formed. -/
theorem convertInlineGo_total (html op cl mdOpen mdClose : Bytes)
    (hok : okStr html = true)
    (hop : ∀ b ∈ op, b < 0x80) (hcl : ∀ b ∈ cl, b < 0x80) (hcl0 : cl ≠ [])
    (hmo : okStr mdOpen = true) (hmc : okStr mdClose = true) :
    ∀ fuel pos acc, isCharBoundary html pos = true → pos ≤ html.length →
    html.length + 1 - pos ≤ fuel → okStr acc = true →
    TotOk (convertInlineGo html op cl mdOpen mdClose fuel pos acc) := by
  intro fuel
  induction fuel with
  | zero =>
    intro pos acc _ hpos hfuel _
    exact absurd hfuel (by omega)
  | succ fuel ih =>
    intro pos acc hbd hpos hfuel hacc
    have hcll : 0 < cl.length := List.length_pos.mpr hcl0
    simp only [convertInlineGo]
    by_cases hlt : pos < html.length
    · rw [if_pos hlt]
      split
      next abs_start hfc =>
        obtain ⟨hf1, hf2, hf3, hf4, hf5, hf6⟩ :=
          find_ci_anchor html op pos abs_start (okStr_okSeq html hok) hop hfc
        split
        next hslnone =>
          rw [sliceCB_some_of html pos abs_start hf1 (by omega) hbd hf4]
            at hslnone
          exact Option.noConfusion hslnone
        next piece hsl =>
          have haccOk := okStr_append acc piece hacc
            (sliceCB_okStr html pos abs_start hok piece hsl)
          split
          next hslnone =>
            rw [sliceCB_some_of html abs_start html.length (by omega)
              (le_refl _) hf4 (boundary_len html)] at hslnone
            exact Option.noConfusion hslnone
          next tail hslt =>
            obtain ⟨_, _, _, htail⟩ :=
              sliceCB_inv html abs_start html.length tail hslt
            split
            next gt hgt =>
              obtain ⟨hgt1, hgt2⟩ := findByte_sound tail 62 gt hgt
              rw [htail] at hgt1 hgt2
              rw [List.take_length] at hgt1 hgt2
              rw [List.length_drop] at hgt1
              rw [getD_drop html abs_start gt (by omega)] at hgt2
              have hb62 : html.getD (abs_start + gt) 0 < 0x80 := by omega
              have hbcs : isCharBoundary html (abs_start + gt + 1) = true :=
                boundary_after_ascii html (abs_start + gt)
                  (okStr_okSeq html hok) (by omega) hb62
              split
              next e hfc2 =>
                obtain ⟨hg1, hg2, hg3, hg4, hg5, hg6⟩ :=
                  find_ci_anchor html cl (abs_start + gt + 1) e
                    (okStr_okSeq html hok) hcl hfc2
                split
                next hslnone =>
                  rw [sliceCB_some_of html (abs_start + gt + 1) e hg1
                    (by omega) hbcs hg4] at hslnone
                  exact Option.noConfusion hslnone
                next inner hsli =>
                  have hinOk := sliceCB_okStr html (abs_start + gt + 1) e
                    hok inner hsli
                  exact ih (e + cl.length)
                    (acc ++ piece ++ mdOpen ++ inner ++ mdClose) hg5 hg2
                    (by omega)
                    (okStr_append _ _ (okStr_append _ _
                      (okStr_append _ _ haccOk hmo) hinOk) hmc)
              next hfc2 =>
                exact ih (abs_start + gt + 1) (acc ++ piece ++ mdOpen) hbcs
                  (by omega) (by omega) (okStr_append _ _ haccOk hmo)
            next hgt =>
              split
              next hslnone =>
                rw [sliceCB_some_of html abs_start (abs_start + 1)
                  (by omega) (by omega) hf4
                  (boundary_after_ascii html abs_start (okStr_okSeq html hok)
                    (by omega) hf6)] at hslnone
                exact Option.noConfusion hslnone
              next one hslo =>
                exact ih (abs_start + 1) (acc ++ piece ++ one)
                  (boundary_after_ascii html abs_start (okStr_okSeq html hok)
                    (by omega) hf6) (by omega) (by omega)
                  (okStr_append _ _ haccOk
                    (sliceCB_okStr html abs_start (abs_start + 1) hok
                      one hslo))
      next hfc =>
        split
        next hslnone =>
          rw [sliceCB_some_of html pos html.length (le_of_lt hlt) (le_refl _)
            hbd (boundary_len html)] at hslnone
          exact Option.noConfusion hslnone
        next rest hsl =>
          exact ⟨acc ++ rest, rfl, okStr_append acc rest hacc
            (sliceCB_okStr html pos html.length hok rest hsl)⟩
    · rw [if_neg hlt]
      exact ⟨acc, rfl, hacc⟩

/-- Helper: `str::replace` neither panics nor runs out of fuel; it keeps
the byte sequence well-formed, and the head clean whenever the input head
was. -/
theorem replaceAllGo_total (pat rep : Bytes) (hp0 : pat ≠ [])
    (hpa : ∀ b ∈ pat, b < 0x80) (hrep : okStr rep = true) :
    ∀ fuel s, okSeq s = true → s.length ≤ fuel →
    ∃ out, replaceAllGo pat rep fuel s = some out ∧ okSeq out = true ∧
      (headOk s = true → headOk out = true) := by
  have hpl : 0 < pat.length := List.length_pos.mpr hp0
  intro fuel
  induction fuel with
  | zero =>
    intro s hok hlen
    cases s with
    | nil => exact ⟨[], rfl, rfl, fun _ => rfl⟩
    | cons b rest => simp at hlen
  | succ fuel ih =>
    intro s hok hlen
    cases s with
    | nil => exact ⟨[], rfl, rfl, fun _ => rfl⟩
    | cons b rest =>
      simp only [replaceAllGo]
      split
      next hpat =>
        have hdOk : okSeq ((b :: rest).drop pat.length) = true :=
          okSeq_drop (b :: rest) pat.length hok
        have hdHead : headOk ((b :: rest).drop pat.length) = true := by
          cases hrm : (b :: rest).drop pat.length with
          | nil => rfl
          | cons c r' =>
            have hlen2 : pat.length < (b :: rest).length := by
              by_contra hcon
              push_neg at hcon
              rw [List.drop_eq_nil_of_le hcon] at hrm
              exact List.noConfusion hrm
            have hc : c = (b :: rest).getD pat.length 0 := by
              have h0 : ((b :: rest).drop pat.length).getD 0 0 = c := by
                rw [hrm]; rfl
              rw [getD_drop (b :: rest) pat.length 0 (by omega)] at h0
              rw [Nat.add_zero] at h0
              exact h0.symm
            have hlast : (b :: rest).getD (pat.length - 1) 0 < 0x80 := by
              have hbyte := patternAt_byte (b :: rest) pat 0
                (pat.length - 1) hpat (by omega)
              rw [Nat.zero_add] at hbyte
              rw [hbyte]
              refine hpa _ ?_
              rw [List.getD_eq_getElem pat 0 (by omega)]
              exact List.getElem_mem (by omega)
            have hnc := ascii_next_not_cont (b :: rest) (pat.length - 1)
              hok (by omega) hlast
            show (!contByte c) = true
            rw [hc]
            have heq : pat.length - 1 + 1 = pat.length := by omega
            rw [heq] at hnc
            rw [hnc]
            rfl
        obtain ⟨r, hreq, hrOk, hrHead⟩ :=
          ih ((b :: rest).drop pat.length) hdOk
            (by simp only [List.length_drop, List.length_cons]
                simp only [List.length_cons] at hlen
                omega)
        split
        next r' hr' =>
          rw [hreq] at hr'
          injection hr' with hr'
          subst hr'
          exact ⟨rep ++ r, rfl,
            okSeq_append rep r (okStr_okSeq rep hrep) hrOk (hrHead hdHead),
            fun _ => headOk_append rep r (okStr_headOk rep hrep)
              (hrHead hdHead)⟩
        next hr' =>
          rw [hreq] at hr'
          exact Option.noConfusion hr'
      next hpat =>
        obtain ⟨hrest, hcond⟩ := (okSeq_cons b rest).mp hok
        obtain ⟨r, hreq, hrOk, hrHead⟩ := ih rest hrest
          (by simp only [List.length_cons] at hlen; omega)
        split
        next r' hr' =>
          rw [hreq] at hr'
          injection hr' with hr'
          subst hr'
          refine ⟨b :: r, rfl, ?_, fun hh => hh⟩
          rw [okSeq_cons]
          exact ⟨hrOk, fun hb => hrHead (hcond hb)⟩
        next hr' =>
          rw [hreq] at hr'
          exact Option.noConfusion hr'

/-- Helper: the `strip_all_tags` scan keeps sequences well-formed, and the
output head is clean whenever the scan starts inside a tag, or starts
outside with a clean input head. -/
theorem stripTagsGo_ok : ∀ (s : Bytes), okSeq s = true →
    (∀ it, okSeq (stripTagsGo it s) = true) ∧
    headOk (stripTagsGo true s) = true ∧
    (headOk s = true → headOk (stripTagsGo false s) = true) := by
  intro s
  induction s with
  | nil => intro _; exact ⟨fun it => rfl, rfl, fun _ => rfl⟩
  | cons b t ih =>
    intro hok
    obtain ⟨ht, hcond⟩ := (okSeq_cons b t).mp hok
    obtain ⟨iha, ihb, ihc⟩ := ih ht
    by_cases h60 : b = 60
    · subst h60
      exact ⟨fun it => iha true, ihb, fun _ => ihb⟩
    · by_cases h62 : b = 62
      · subst h62
        exact ⟨fun it => iha false, ihc (hcond (by omega)),
          fun _ => ihc (hcond (by omega))⟩
      · refine ⟨fun it => ?_, ?_, fun hh => ?_⟩
        · cases it
          · simp only [stripTagsGo, if_neg h60, if_neg h62]
            show okSeq (b :: stripTagsGo false t) = true
            rw [okSeq_cons]
            exact ⟨iha false, fun hb => ihc (hcond hb)⟩
          · simp only [stripTagsGo, if_neg h60, if_neg h62]
            show okSeq (stripTagsGo true t) = true
            exact iha true
        · simp only [stripTagsGo, if_neg h60, if_neg h62]
          show headOk (stripTagsGo true t) = true
          exact ihb
        · simp only [stripTagsGo, if_neg h60, if_neg h62]
          show headOk (b :: stripTagsGo false t) = true
          exact hh

/-- Helper: `strip_all_tags` keeps strings well-formed. -/
theorem okStr_strip_all_tags (s : Bytes) (h : okStr s = true) :
    okStr (strip_all_tags s) = true := by
  obtain ⟨iha, _, ihc⟩ := stripTagsGo_ok s (okStr_okSeq s h)
  unfold okStr strip_all_tags
  rw [Bool.and_eq_true]
  exact ⟨iha false, ihc (okStr_headOk s h)⟩

/-- Helper: dropping leading ASCII whitespace keeps strings well-formed. -/
theorem okStr_dropWhile_ws : ∀ (s : Bytes), okStr s = true →
    okStr (s.dropWhile isWsByte) = true := by
  intro s
  induction s with
  | nil => intro h; exact h
  | cons b t ih =>
    intro h
    by_cases hw : isWsByte b = true
    · rw [List.dropWhile_cons_of_pos hw]
      apply ih
      have hb : b < 0x80 := by
        simp only [isWsByte, Bool.or_eq_true, beq_iff_eq] at hw
        omega
      obtain ⟨ht, hcond⟩ := (okSeq_cons b t).mp (okStr_okSeq _ h)
      unfold okStr
      rw [Bool.and_eq_true]
      exact ⟨ht, hcond hb⟩
    · rw [List.dropWhile_cons_of_neg hw]
      exact h

/-- Helper: `dropWhile` is a `drop`. -/
theorem dropWhile_eq_drop_aux (p : Nat → Bool) :
    ∀ (l : Bytes), ∃ m, l.dropWhile p = l.drop m := by
  intro l
  induction l with
  | nil => exact ⟨0, rfl⟩
  | cons b t ih =>
    by_cases hp : p b = true
    · obtain ⟨m, hm⟩ := ih
      exact ⟨m + 1, by rw [List.dropWhile_cons_of_pos hp, hm]; rfl⟩
    · exact ⟨0, by rw [List.dropWhile_cons_of_neg hp]; rfl⟩

/-- Helper: `trim` keeps strings well-formed. -/
theorem okStr_trimBytes (s : Bytes) (h : okStr s = true) :
    okStr (trimBytes s) = true := by
  unfold trimBytes
  have h1 := okStr_dropWhile_ws s h
  obtain ⟨m, hm⟩ :=
    dropWhile_eq_drop_aux isWsByte (s.dropWhile isWsByte).reverse
  rw [hm]
  have hpfx : ((s.dropWhile isWsByte).reverse.drop m).reverse <+:
      s.dropWhile isWsByte := by
    have hsfx := List.drop_suffix m (s.dropWhile isWsByte).reverse
    have h2 := List.reverse_prefix.mpr hsfx
    rwa [List.reverse_reverse] at h2
  rw [List.prefix_iff_eq_take.mp hpfx]
  exact okStr_take _ _ h1

/-- Helper: the single-quote attribute fallback never panics, and any
extracted value is well-formed. -/
theorem extractAttrSq_total (tag attr : Bytes) (hok : okStr tag = true)
    (hattr : ∀ b ∈ attr, b < 0x80) :
    ∃ r, extractAttrSq tag attr = some r ∧
      (∀ v, r = some v → okStr v = true) := by
  unfold extractAttrSq
  split
  next => exact ⟨none, rfl, fun v hv => Option.noConfusion hv⟩
  next start hfc =>
    have hpat : ∀ b ∈ attr ++ strBytes "='", b < 0x80 := by
      intro b hb
      rcases List.mem_append.mp hb with h | h
      · exact hattr b h
      · have hall : ∀ x ∈ strBytes "='", x < 0x80 := by decide
        exact hall b h
    obtain ⟨hf1, hf2, hf3, hf4, hf5, hf6⟩ :=
      find_ci_anchor tag (attr ++ strBytes "='") 0 start
        (okStr_okSeq tag hok) hpat hfc
    split
    next hslnone =>
      rw [sliceCB_some_of tag (start + (attr ++ strBytes "='").length)
        tag.length hf2 (le_refl _) hf5 (boundary_len tag)] at hslnone
      exact Option.noConfusion hslnone
    next tailq hslq =>
      obtain ⟨_, _, _, htq⟩ := sliceCB_inv tag
        (start + (attr ++ strBytes "='").length) tag.length tailq hslq
      split
      next => exact ⟨none, rfl, fun v hv => Option.noConfusion hv⟩
      next e hgte =>
        obtain ⟨he1, he2⟩ := findByte_sound tailq 39 e hgte
        rw [htq] at he1 he2
        rw [List.take_length] at he1 he2
        rw [List.length_drop] at he1
        rw [getD_drop tag (start + (attr ++ strBytes "='").length) e
          (by omega)] at he2
        split
        next hslnone =>
          rw [sliceCB_some_of tag (start + (attr ++ strBytes "='").length)
            (start + (attr ++ strBytes "='").length + e) (by omega)
            (by omega) hf5
            (boundary_of_ascii tag _ (by omega) (by omega))] at hslnone
          exact Option.noConfusion hslnone
        next v hslv =>
          refine ⟨some v, rfl, fun v' hv' => ?_⟩
          injection hv' with hv'
          subst hv'
          exact sliceCB_okStr tag _ _ hok v hslv

/-- Helper: `extract_attribute` never panics, and any extracted value is
well-formed. -/
theorem extract_attribute_total (tag attr : Bytes) (hok : okStr tag = true)
    (hattr : ∀ b ∈ attr, b < 0x80) :
    ∃ r, extract_attribute tag attr = some r ∧
      (∀ v, r = some v → okStr v = true) := by
  unfold extract_attribute
  split
  next => exact extractAttrSq_total tag attr hok hattr
  next start hfc =>
    have hpat : ∀ b ∈ attr ++ strBytes "=" ++ strBytes "\"", b < 0x80 := by
      intro b hb
      rcases List.mem_append.mp hb with h | h
      · rcases List.mem_append.mp h with h2 | h2
        · exact hattr b h2
        · have hall : ∀ x ∈ strBytes "=", x < 0x80 := by decide
          exact hall b h2
      · have hall : ∀ x ∈ strBytes "\"", x < 0x80 := by decide
        exact hall b h
    obtain ⟨hf1, hf2, hf3, hf4, hf5, hf6⟩ :=
      find_ci_anchor tag (attr ++ strBytes "=" ++ strBytes "\"") 0 start
        (okStr_okSeq tag hok) hpat hfc
    split
    next hslnone =>
      rw [sliceCB_some_of tag
        (start + (attr ++ strBytes "=" ++ strBytes "\"").length)
        tag.length hf2 (le_refl _) hf5 (boundary_len tag)] at hslnone
      exact Option.noConfusion hslnone
    next tailq hslq =>
      obtain ⟨_, _, _, htq⟩ := sliceCB_inv tag
        (start + (attr ++ strBytes "=" ++ strBytes "\"").length)
        tag.length tailq hslq
      split
      next => exact extractAttrSq_total tag attr hok hattr
      next e hgte =>
        obtain ⟨he1, he2⟩ := findByte_sound tailq 34 e hgte
        rw [htq] at he1 he2
        rw [List.take_length] at he1 he2
        rw [List.length_drop] at he1
        rw [getD_drop tag
          (start + (attr ++ strBytes "=" ++ strBytes "\"").length) e
          (by omega)] at he2
        split
        next hslnone =>
          rw [sliceCB_some_of tag
            (start + (attr ++ strBytes "=" ++ strBytes "\"").length)
            (start + (attr ++ strBytes "=" ++ strBytes "\"").length + e)
            (by omega) (by omega) hf5
            (boundary_of_ascii tag _ (by omega) (by omega))] at hslnone
          exact Option.noConfusion hslnone
        next v hslv =>
          refine ⟨some v, rfl, fun v' hv' => ?_⟩
          injection hv' with hv'
          subst hv'
          exact sliceCB_okStr tag _ _ hok v hslv

/-- Helper: one `extract_main_content` tag attempt never panics, and any
extracted content is well-formed. -/
theorem extractTry_total (html tag : Bytes) (hok : okStr html = true)
    (htag : ∀ b ∈ tag, b < 0x80) :
    ∃ r, extractTry html tag = some r ∧
      (∀ c, r = some c → okStr c = true) := by
  unfold extractTry
  split
  next => exact ⟨none, rfl, fun c hc => Option.noConfusion hc⟩
  next start hfc =>
    have hpat : ∀ b ∈ strBytes "<" ++ tag, b < 0x80 := by
      intro b hb
      rcases List.mem_append.mp hb with h | h
      · have hall : ∀ x ∈ strBytes "<", x < 0x80 := by decide
        exact hall b h
      · exact htag b h
    obtain ⟨hf1, hf2, hf3, hf4, hf5, hf6⟩ :=
      find_ci_anchor html (strBytes "<" ++ tag) 0 start
        (okStr_okSeq html hok) hpat hfc
    split
    next hslnone =>
      rw [sliceCB_some_of html start html.length (by omega) (le_refl _)
        hf4 (boundary_len html)] at hslnone
      exact Option.noConfusion hslnone
    next tail hslt =>
      obtain ⟨_, _, _, htail⟩ :=
        sliceCB_inv html start html.length tail hslt
      split
      next => exact ⟨none, rfl, fun c hc => Option.noConfusion hc⟩
      next gt hgt =>
        obtain ⟨hgt1, hgt2⟩ := findByte_sound tail 62 gt hgt
        rw [htail] at hgt1 hgt2
        rw [List.take_length] at hgt1 hgt2
        rw [List.length_drop] at hgt1
        rw [getD_drop html start gt (by omega)] at hgt2
        have hbcs : isCharBoundary html (start + gt + 1) = true :=
          boundary_after_ascii html (start + gt) (okStr_okSeq html hok)
            (by omega) (by omega)
        split
        next => exact ⟨none, rfl, fun c hc => Option.noConfusion hc⟩
        next e hfc2 =>
          have hpat2 : ∀ b ∈ strBytes "</" ++ tag ++ strBytes ">",
              b < 0x80 := by
            intro b hb
            rcases List.mem_append.mp hb with h | h
            · rcases List.mem_append.mp h with h2 | h2
              · have hall : ∀ x ∈ strBytes "</", x < 0x80 := by decide
                exact hall b h2
              · exact htag b h2
            · have hall : ∀ x ∈ strBytes ">", x < 0x80 := by decide
              exact hall b h
          obtain ⟨hg1, hg2, hg3, hg4, hg5, hg6⟩ :=
            find_ci_anchor html (strBytes "</" ++ tag ++ strBytes ">")
              (start + gt + 1) e (okStr_okSeq html hok) hpat2 hfc2
          split
          next hslnone =>
            rw [sliceCB_some_of html (start + gt + 1) e hg1 (by omega)
              hbcs hg4] at hslnone
            exact Option.noConfusion hslnone
          next c hslc =>
            refine ⟨some c, rfl, fun c' hc' => ?_⟩
            injection hc' with hc'
            subst hc'
            exact sliceCB_okStr html _ _ hok c hslc

/-- Helper: `extract_main_content` never panics and yields a well-formed
content area. -/
theorem extract_main_content_total (html : Bytes) (hok : okStr html = true) :
    TotOk (extract_main_content html) := by
  unfold extract_main_content
  obtain ⟨r1, h1, ho1⟩ :=
    extractTry_total html (strBytes "main") hok (by decide)
  obtain ⟨r2, h2, ho2⟩ :=
    extractTry_total html (strBytes "article") hok (by decide)
  obtain ⟨r3, h3, ho3⟩ :=
    extractTry_total html (strBytes "body") hok (by decide)
  split
  next heq =>
    rw [heq] at h1
    exact Option.noConfusion h1
  next c heq =>
    rw [heq] at h1
    injection h1 with h1
    exact ⟨c, rfl, ho1 c h1.symm⟩
  next heq =>
    split
    next heq2 =>
      rw [heq2] at h2
      exact Option.noConfusion h2
    next c heq2 =>
      rw [heq2] at h2
      injection h2 with h2
      exact ⟨c, rfl, ho2 c h2.symm⟩
    next heq2 =>
      split
      next heq3 =>
        rw [heq3] at h3
        exact Option.noConfusion h3
      next c heq3 =>
        rw [heq3] at h3
        injection h3 with h3
        exact ⟨c, rfl, ho3 c h3.symm⟩
      next heq3 =>
        exact ⟨html, rfl, hok⟩

/-- Helper: the `convert_links` loop neither panics nor runs out of fuel,
and keeps the accumulator well-formed. -/
theorem convertLinksGo_total (html : Bytes) (hok : okStr html = true) :
    ∀ fuel pos acc, isCharBoundary html pos = true → pos ≤ html.length →
    html.length + 1 - pos ≤ fuel → okStr acc = true →
    TotOk (convertLinksGo html fuel pos acc) := by
  intro fuel
  induction fuel with
  | zero =>
    intro pos acc _ hpos hfuel _
    exact absurd hfuel (by omega)
  | succ fuel ih =>
    intro pos acc hbd hpos hfuel hacc
    simp only [convertLinksGo]
    by_cases hlt : pos < html.length
    · rw [if_pos hlt]
      split
      next abs_start hfc =>
        obtain ⟨hf1, hf2, hf3, hf4, hf5, hf6⟩ :=
          find_ci_anchor html (strBytes "<a ") pos abs_start
            (okStr_okSeq html hok) (by decide) hfc
        split
        next hslnone =>
          rw [sliceCB_some_of html pos abs_start hf1 (by omega) hbd hf4]
            at hslnone
          exact Option.noConfusion hslnone
        next piece hsl =>
          have haccOk := okStr_append acc piece hacc
            (sliceCB_okStr html pos abs_start hok piece hsl)
          split
          next hslnone =>
            rw [sliceCB_some_of html abs_start html.length (by omega)
              (le_refl _) hf4 (boundary_len html)] at hslnone
            exact Option.noConfusion hslnone
          next tag_content hslt =>
            have htcOk := sliceCB_okStr html abs_start html.length hok
              tag_content hslt
            obtain ⟨_, _, _, htail⟩ :=
              sliceCB_inv html abs_start html.length tag_content hslt
            obtain ⟨hr, hhr, hhro⟩ :=
              extract_attribute_total tag_content (strBytes "href") htcOk
                (by decide)
            split
            next heq =>
              rw [heq] at hhr
              exact Option.noConfusion hhr
            next href heq =>
              rw [heq] at hhr
              injection hhr with hhr
              split
              next gt hgt =>
                obtain ⟨hgt1, hgt2⟩ := findByte_sound tag_content 62 gt hgt
                rw [htail] at hgt1 hgt2
                rw [List.take_length] at hgt1 hgt2
                rw [List.length_drop] at hgt1
                rw [getD_drop html abs_start gt (by omega)] at hgt2
                have hbcs : isCharBoundary html (abs_start + gt + 1) = true :=
                  boundary_after_ascii html (abs_start + gt)
                    (okStr_okSeq html hok) (by omega) (by omega)
                split
                next e hfc2 =>
                  obtain ⟨hg1, hg2, hg3, hg4, hg5, hg6⟩ :=
                    find_ci_anchor html (strBytes "</a>") (abs_start + gt + 1)
                      e (okStr_okSeq html hok) (by decide) hfc2
                  have hlen4 : (strBytes "</a>").length = 4 := by decide
                  rw [hlen4] at hg2 hg5
                  split
                  next hslnone =>
                    rw [sliceCB_some_of html (abs_start + gt + 1) e hg1
                      (by omega) hbcs hg4] at hslnone
                    exact Option.noConfusion hslnone
                  next txt hsltxt =>
                    have htxtOk := okStr_trimBytes _
                      (okStr_strip_all_tags _
                        (sliceCB_okStr html (abs_start + gt + 1) e hok
                          txt hsltxt))
                    have hsegOk : ∀ (o : Option Bytes),
                        (∀ u, o = some u → okStr u = true) →
                        okStr (acc ++ piece ++
                          (match o with
                            | some url =>
                              strBytes "[" ++
                                trimBytes (strip_all_tags txt) ++
                                strBytes "](" ++ url ++ strBytes ")"
                            | none => trimBytes (strip_all_tags txt))) =
                          true := by
                      intro o ho
                      cases o with
                      | some url =>
                        exact okStr_append _ _ haccOk
                          (okStr_append _ _ (okStr_append _ _
                            (okStr_append _ _ (okStr_append _ _
                              (by decide) htxtOk) (by decide))
                            (ho url rfl)) (by decide))
                      | none => exact okStr_append _ _ haccOk htxtOk
                    exact ih (e + 4) _ hg5 hg2 (by omega)
                      (hsegOk href (fun u h => hhro u (hhr.symm.trans h)))
                next hfc2 =>
                  exact ih (abs_start + gt + 1) (acc ++ piece) hbcs
                    (by omega) (by omega) haccOk
              next hgt =>
                split
                next hslnone =>
                  rw [sliceCB_some_of html abs_start (abs_start + 1)
                    (by omega) (by omega) hf4
                    (boundary_after_ascii html abs_start
                      (okStr_okSeq html hok) (by omega) hf6)] at hslnone
                  exact Option.noConfusion hslnone
                next one hslo =>
                  exact ih (abs_start + 1) (acc ++ piece ++ one)
                    (boundary_after_ascii html abs_start
                      (okStr_okSeq html hok) (by omega) hf6)
                    (by omega) (by omega)
                    (okStr_append _ _ haccOk
                      (sliceCB_okStr html abs_start (abs_start + 1) hok
                        one hslo))
      next hfc =>
        split
        next hslnone =>
          rw [sliceCB_some_of html pos html.length (le_of_lt hlt) (le_refl _)
            hbd (boundary_len html)] at hslnone
          exact Option.noConfusion hslnone
        next rest hsl =>
          exact ⟨acc ++ rest, rfl, okStr_append acc rest hacc
            (sliceCB_okStr html pos html.length hok rest hsl)⟩
    · rw [if_neg hlt]
      exact ⟨acc, rfl, hacc⟩

/-- Helper: `remove_tag_blocks` never panics on an ASCII tag name. -/
theorem remove_tag_blocks_total (html tag : Bytes) (hok : okStr html = true)
    (htag : ∀ b ∈ tag, b < 0x80) : TotOk (remove_tag_blocks html tag) := by
  unfold remove_tag_blocks
  refine removeTagBlocksGo_total html _ _ hok ?_ ?_ ?_ (html.length + 1) 0 []
    (boundary_zero html) (Nat.zero_le _) (by omega) (by decide)
  · intro b hb
    rcases List.mem_append.mp hb with h | h
    · have hall : ∀ x ∈ strBytes "<", x < 0x80 := by decide
      exact hall b h
    · exact htag b h
  · intro b hb
    rcases List.mem_append.mp hb with h | h
    · rcases List.mem_append.mp h with h2 | h2
      · have hall : ∀ x ∈ strBytes "</", x < 0x80 := by decide
        exact hall b h2
      · exact htag b h2
    · have hall : ∀ x ∈ strBytes ">", x < 0x80 := by decide
      exact hall b h
  · intro hcon
    have := congrArg List.length hcon
    simp only [List.length_append, List.length_nil] at this
    have h2 : (strBytes "</").length = 2 := by decide
    omega

/-- Helper: the tag-removal fold never panics on ASCII tag names. -/
theorem foldTags_total : ∀ (tags : List Bytes) (h : Bytes),
    okStr h = true → (∀ t ∈ tags, ∀ b ∈ t, b < 0x80) →
    ∃ r, List.foldlM (fun r tag => remove_tag_blocks r tag) h tags =
      some r ∧ okStr r = true := by
  intro tags
  induction tags with
  | nil => intro h hok _; exact ⟨h, rfl, hok⟩
  | cons t ts ih =>
    intro h hok hall
    obtain ⟨r1, hr1, hr1ok⟩ := remove_tag_blocks_total h t hok
      (hall t (List.mem_cons_self t ts))
    have hrec := ih r1 hr1ok (fun t2 ht2 => hall t2 (List.mem_cons_of_mem _ ht2))
    obtain ⟨r2, hr2, hr2ok⟩ := hrec
    refine ⟨r2, ?_, hr2ok⟩
    rw [List.foldlM_cons, hr1]
    simpa using hr2

/-- Helper: `remove_non_content_blocks` never panics. -/
theorem remove_non_content_blocks_total (html : Bytes)
    (hok : okStr html = true) : TotOk (remove_non_content_blocks html) := by
  unfold remove_non_content_blocks
  obtain ⟨r, hr, hrok⟩ := foldTags_total tags_to_remove html hok (by decide)
  rw [hr]
  exact removeCommentsGo_total (r.length + 1) r hrok (by omega)

/-- Helper: `convert_inline_tag` never panics on ASCII tags and well-formed
markers. -/
theorem convert_inline_tag_total (html op cl mdOpen mdClose : Bytes)
    (hok : okStr html = true)
    (hop : ∀ b ∈ op, b < 0x80) (hcl : ∀ b ∈ cl, b < 0x80) (hcl0 : cl ≠ [])
    (hmo : okStr mdOpen = true) (hmc : okStr mdClose = true) :
    TotOk (convert_inline_tag html op cl mdOpen mdClose) :=
  convertInlineGo_total html op cl mdOpen mdClose hok hop hcl hcl0 hmo hmc
    (html.length + 1) 0 [] (boundary_zero html) (Nat.zero_le _)
    (by omega) (by decide)

/-- Helper: `replace` never panics and keeps strings well-formed. -/
theorem replaceAll_total (s pat rep : Bytes) (hok : okStr s = true)
    (hp0 : pat ≠ []) (hpa : ∀ b ∈ pat, b < 0x80)
    (hrep : okStr rep = true) : TotOk (replaceAll s pat rep) := by
  unfold replaceAll
  obtain ⟨out, ho, hoOk, hoHead⟩ := replaceAllGo_total pat rep hp0 hpa hrep
    s.length s (okStr_okSeq s hok) (le_refl _)
  refine ⟨out, ho, ?_⟩
  unfold okStr
  rw [Bool.and_eq_true]
  exact ⟨hoOk, hoHead (okStr_headOk s hok)⟩

/-- Helper: `convert_links` never panics. -/
theorem convert_links_total (html : Bytes) (hok : okStr html = true) :
    TotOk (convert_links html) :=
  convertLinksGo_total html hok (html.length + 1) 0 [] (boundary_zero html)
    (Nat.zero_le _) (by omega) (by decide)

/-- Helper: `convertHeadings` never panics and keeps strings well-formed. -/
theorem convertHeadings_total (r : Bytes) (hok : okStr r = true) :
    TotOk (convertHeadings r) := by
  unfold convertHeadings
  obtain ⟨r1, h1, k1⟩ := convert_inline_tag_total r (strBytes "<h6")
    (strBytes "</h6>") (strBytes "\n\n###### ") (strBytes "\n\n") hok
    (by decide) (by decide) (by decide) (by decide) (by decide)
  rw [h1]
  simp only [Option.some_bind]
  obtain ⟨r2, h2, k2⟩ := convert_inline_tag_total r1 (strBytes "<h5")
    (strBytes "</h5>") (strBytes "\n\n##### ") (strBytes "\n\n") k1
    (by decide) (by decide) (by decide) (by decide) (by decide)
  rw [h2]
  simp only [Option.some_bind]
  obtain ⟨r3, h3, k3⟩ := convert_inline_tag_total r2 (strBytes "<h4")
    (strBytes "</h4>") (strBytes "\n\n#### ") (strBytes "\n\n") k2
    (by decide) (by decide) (by decide) (by decide) (by decide)
  rw [h3]
  simp only [Option.some_bind]
  obtain ⟨r4, h4, k4⟩ := convert_inline_tag_total r3 (strBytes "<h3")
    (strBytes "</h3>") (strBytes "\n\n### ") (strBytes "\n\n") k3
    (by decide) (by decide) (by decide) (by decide) (by decide)
  rw [h4]
  simp only [Option.some_bind]
  obtain ⟨r5, h5, k5⟩ := convert_inline_tag_total r4 (strBytes "<h2")
    (strBytes "</h2>") (strBytes "\n\n## ") (strBytes "\n\n") k4
    (by decide) (by decide) (by decide) (by decide) (by decide)
  rw [h5]
  simp only [Option.some_bind]
  exact convert_inline_tag_total r5 (strBytes "<h1")
    (strBytes "</h1>") (strBytes "\n\n# ") (strBytes "\n\n") k5
    (by decide) (by decide) (by decide) (by decide) (by decide)

/-- Helper: `convertBreaks` never panics and keeps strings well-formed. -/
theorem convertBreaks_total (r : Bytes) (hok : okStr r = true) :
    TotOk (convertBreaks r) := by
  unfold convertBreaks
  obtain ⟨r1, h1, k1⟩ := replaceAll_total r (strBytes "<br>") (strBytes "\n")
    hok (by decide) (by decide) (by decide)
  rw [h1]
  simp only [Option.some_bind]
  obtain ⟨r2, h2, k2⟩ := replaceAll_total r1 (strBytes "<br/>") (strBytes "\n")
    k1 (by decide) (by decide) (by decide)
  rw [h2]
  simp only [Option.some_bind]
  exact replaceAll_total r2 (strBytes "<br />") (strBytes "\n")
    k2 (by decide) (by decide) (by decide)

/-- Helper: `convertEmphasis` never panics and keeps strings well-formed. -/
theorem convertEmphasis_total (r : Bytes) (hok : okStr r = true) :
    TotOk (convertEmphasis r) := by
  unfold convertEmphasis
  obtain ⟨r1, h1, k1⟩ := convert_inline_tag_total r (strBytes "<strong")
    (strBytes "</strong>") (strBytes "**") (strBytes "**") hok
    (by decide) (by decide) (by decide) (by decide) (by decide)
  rw [h1]
  simp only [Option.some_bind]
  obtain ⟨r2, h2, k2⟩ := convert_inline_tag_total r1 (strBytes "<b")
    (strBytes "</b>") (strBytes "**") (strBytes "**") k1
    (by decide) (by decide) (by decide) (by decide) (by decide)
  rw [h2]
  simp only [Option.some_bind]
  obtain ⟨r3, h3, k3⟩ := convert_inline_tag_total r2 (strBytes "<em")
    (strBytes "</em>") (strBytes "*") (strBytes "*") k2
    (by decide) (by decide) (by decide) (by decide) (by decide)
  rw [h3]
  simp only [Option.some_bind]
  exact convert_inline_tag_total r3 (strBytes "<i")
    (strBytes "</i>") (strBytes "*") (strBytes "*") k3
    (by decide) (by decide) (by decide) (by decide) (by decide)

/-- Helper: `convertCodeQuote` never panics and keeps strings well-formed. -/
theorem convertCodeQuote_total (r : Bytes) (hok : okStr r = true) :
    TotOk (convertCodeQuote r) := by
  unfold convertCodeQuote
  obtain ⟨r1, h1, k1⟩ := convert_inline_tag_total r (strBytes "<pre")
    (strBytes "</pre>") (strBytes "\n```\n") (strBytes "\n```\n") hok
    (by decide) (by decide) (by decide) (by decide) (by decide)
  rw [h1]
  simp only [Option.some_bind]
  obtain ⟨r2, h2, k2⟩ := convert_inline_tag_total r1 (strBytes "<code")
    (strBytes "</code>") (strBytes "`") (strBytes "`") k1
    (by decide) (by decide) (by decide) (by decide) (by decide)
  rw [h2]
  simp only [Option.some_bind]
  exact convert_inline_tag_total r2 (strBytes "<blockquote")
    (strBytes "</blockquote>") (strBytes "\n> ") (strBytes "\n") k2
    (by decide) (by decide) (by decide) (by decide) (by decide)

/-- Helper: `convertLists` never panics and keeps strings well-formed. -/
theorem convertLists_total (r : Bytes) (hok : okStr r = true) :
    TotOk (convertLists r) := by
  unfold convertLists
  obtain ⟨r1, h1, k1⟩ := convert_inline_tag_total r (strBytes "<ul")
    (strBytes "</ul>") (strBytes "\n") (strBytes "\n") hok
    (by decide) (by decide) (by decide) (by decide) (by decide)
  rw [h1]
  simp only [Option.some_bind]
  obtain ⟨r2, h2, k2⟩ := convert_inline_tag_total r1 (strBytes "<ol")
    (strBytes "</ol>") (strBytes "\n") (strBytes "\n") k1
    (by decide) (by decide) (by decide) (by decide) (by decide)
  rw [h2]
  simp only [Option.some_bind]
  exact convert_inline_tag_total r2 (strBytes "<li")
    (strBytes "</li>") (strBytes "- ") (strBytes "\n") k2
    (by decide) (by decide) (by decide) (by decide) (by decide)

/-- Helper: `convertContainers` never panics and keeps strings well-formed. -/
theorem convertContainers_total (r : Bytes) (hok : okStr r = true) :
    TotOk (convertContainers r) := by
  unfold convertContainers
  obtain ⟨r1, h1, k1⟩ := convert_inline_tag_total r (strBytes "<div")
    (strBytes "</div>") (strBytes "\n") (strBytes "\n") hok
    (by decide) (by decide) (by decide) (by decide) (by decide)
  rw [h1]
  simp only [Option.some_bind]
  obtain ⟨r2, h2, k2⟩ := convert_inline_tag_total r1 (strBytes "<span")
    (strBytes "</span>") (strBytes "") (strBytes "") k1
    (by decide) (by decide) (by decide) (by decide) (by decide)
  rw [h2]
  simp only [Option.some_bind]
  exact convert_inline_tag_total r2 (strBytes "<section")
    (strBytes "</section>") (strBytes "\n") (strBytes "\n") k2
    (by decide) (by decide) (by decide) (by decide) (by decide)

/-- Helper: `decodeEntitiesA` never panics and keeps strings well-formed. -/
theorem decodeEntitiesA_total (r : Bytes) (hok : okStr r = true) :
    TotOk (decodeEntitiesA r) := by
  unfold decodeEntitiesA
  obtain ⟨r1, h1, k1⟩ := replaceAll_total r (strBytes "&amp;") (strBytes "&")
    hok (by decide) (by decide) (by decide)
  rw [h1]
  simp only [Option.some_bind]
  obtain ⟨r2, h2, k2⟩ := replaceAll_total r1 (strBytes "&lt;") (strBytes "<")
    k1 (by decide) (by decide) (by decide)
  rw [h2]
  simp only [Option.some_bind]
  obtain ⟨r3, h3, k3⟩ := replaceAll_total r2 (strBytes "&gt;") (strBytes ">")
    k2 (by decide) (by decide) (by decide)
  rw [h3]
  simp only [Option.some_bind]
  obtain ⟨r4, h4, k4⟩ := replaceAll_total r3 (strBytes "&quot;") (strBytes "\"")
    k3 (by decide) (by decide) (by decide)
  rw [h4]
  simp only [Option.some_bind]
  obtain ⟨r5, h5, k5⟩ := replaceAll_total r4 (strBytes "&#x27;") (strBytes "'")
    k4 (by decide) (by decide) (by decide)
  rw [h5]
  simp only [Option.some_bind]
  obtain ⟨r6, h6, k6⟩ := replaceAll_total r5 (strBytes "&#39;") (strBytes "'")
    k5 (by decide) (by decide) (by decide)
  rw [h6]
  simp only [Option.some_bind]
  exact replaceAll_total r6 (strBytes "&nbsp;") (strBytes " ")
    k6 (by decide) (by decide) (by decide)

/-- Helper: `decodeEntitiesB` never panics and keeps strings well-formed. -/
theorem decodeEntitiesB_total (r : Bytes) (hok : okStr r = true) :
    TotOk (decodeEntitiesB r) := by
  unfold decodeEntitiesB
  obtain ⟨r1, h1, k1⟩ := replaceAll_total r (strBytes "&mdash;") (strBytes "—")
    hok (by decide) (by decide) (by decide)
  rw [h1]
  simp only [Option.some_bind]
  obtain ⟨r2, h2, k2⟩ := replaceAll_total r1 (strBytes "&ndash;") (strBytes "–")
    k1 (by decide) (by decide) (by decide)
  rw [h2]
  simp only [Option.some_bind]
  obtain ⟨r3, h3, k3⟩ := replaceAll_total r2 (strBytes "&hellip;") (strBytes "…")
    k2 (by decide) (by decide) (by decide)
  rw [h3]
  simp only [Option.some_bind]
  obtain ⟨r4, h4, k4⟩ := replaceAll_total r3 (strBytes "&copy;") (strBytes "©")
    k3 (by decide) (by decide) (by decide)
  rw [h4]
  simp only [Option.some_bind]
  obtain ⟨r5, h5, k5⟩ := replaceAll_total r4 (strBytes "&reg;") (strBytes "®")
    k4 (by decide) (by decide) (by decide)
  rw [h5]
  simp only [Option.some_bind]
  exact replaceAll_total r5 (strBytes "&trade;") (strBytes "™")
    k5 (by decide) (by decide) (by decide)

/-- Helper: `decode_entities` never panics and keeps strings well-formed. -/
theorem decode_entities_total (s : Bytes) (hok : okStr s = true) :
    TotOk (decode_entities s) := by
  unfold decode_entities
  obtain ⟨a, ha, ka⟩ := decodeEntitiesA_total s hok
  rw [ha]
  simp only [Option.some_bind]
  exact decodeEntitiesB_total a ka

/-- Helper: `convert_elements` never panics and keeps strings
well-formed. -/
theorem convert_elements_total (html : Bytes) (hok : okStr html = true) :
    TotOk (convert_elements html) := by
  unfold convert_elements
  obtain ⟨r1, h1, k1⟩ := convertHeadings_total html hok
  rw [h1]
  simp only [Option.some_bind]
  obtain ⟨r2, h2, k2⟩ := convert_inline_tag_total r1 (strBytes "<p")
    (strBytes "</p>") (strBytes "\n\n") (strBytes "\n\n") k1
    (by decide) (by decide) (by decide) (by decide) (by decide)
  rw [h2]
  simp only [Option.some_bind]
  obtain ⟨r3, h3, k3⟩ := convertBreaks_total r2 k2
  rw [h3]
  simp only [Option.some_bind]
  obtain ⟨r4, h4, k4⟩ := convertEmphasis_total r3 k3
  rw [h4]
  simp only [Option.some_bind]
  obtain ⟨r5, h5, k5⟩ := convertCodeQuote_total r4 k4
  rw [h5]
  simp only [Option.some_bind]
  obtain ⟨r6, h6, k6⟩ := convertLists_total r5 k5
  rw [h6]
  simp only [Option.some_bind]
  obtain ⟨r7, h7, k7⟩ := convert_links_total r6 k6
  rw [h7]
  simp only [Option.some_bind]
  obtain ⟨r8, h8, k8⟩ := convertContainers_total r7 k7
  rw [h8]
  simp only [Option.some_bind]
  exact decode_entities_total (strip_all_tags r8) (okStr_strip_all_tags r8 k8)

/-- Helper: a byte at least `0xC0` is not a continuation byte. -/
theorem notCont_of_ge (x : Nat) (h : 0xC0 ≤ x) : (!contByte x) = true := by
  simp only [contByte, Bool.not_eq_true', Bool.and_eq_false_iff,
    decide_eq_false_iff_not]
  right
  omega

/-- Helper: `okSeq` of a cons whose head is not ASCII. -/
theorem okSeq_cons_of_ge (a : Nat) (t : Bytes) (h : 0x80 ≤ a)
    (ht : okSeq t = true) : okSeq (a :: t) = true := by
  rw [okSeq_cons]
  exact ⟨ht, fun habs => absurd habs (by omega)⟩

/-- Helper: every UTF-8 char encoding is a well-formed byte string. -/
theorem okStr_charUtf8 (c : Char) : okStr (charUtf8 c) = true := by
  unfold charUtf8 okStr
  dsimp only
  split
  next h =>
    rw [Bool.and_eq_true]
    constructor
    · rfl
    · show (!contByte c.toNat) = true
      simp only [contByte, Bool.not_eq_true', Bool.and_eq_false_iff,
        decide_eq_false_iff_not]
      left
      omega
  next h =>
    split
    next h2 =>
      rw [Bool.and_eq_true]
      exact ⟨okSeq_cons_of_ge _ _ (by omega) rfl,
        notCont_of_ge _ (by omega)⟩
    next h2 =>
      split
      next h3 =>
        rw [Bool.and_eq_true]
        exact ⟨okSeq_cons_of_ge _ _ (by omega)
          (okSeq_cons_of_ge _ _ (by omega) rfl),
          notCont_of_ge _ (by omega)⟩
      next h3 =>
        rw [Bool.and_eq_true]
        exact ⟨okSeq_cons_of_ge _ _ (by omega)
          (okSeq_cons_of_ge _ _ (by omega)
            (okSeq_cons_of_ge _ _ (by omega) rfl)),
          notCont_of_ge _ (by omega)⟩

/-- Helper: the UTF-8 bytes of any string are well-formed — so the
`okStr` hypotheses below cover every real Rust string. -/
theorem okStr_strBytes (s : String) : okStr (strBytes s) = true := by
  unfold strBytes
  induction s.data with
  | nil => rfl
  | cons c cs ih =>
    rw [List.flatMap_cons]
    exact okStr_append _ _ (okStr_charUtf8 c) ih

/-- Helper: `html_to_markdown` returns a value on every well-formed byte
string. -/
theorem html_to_markdown_total (html : Bytes) (hok : okStr html = true) :
    (html_to_markdown html).isSome = true := by
  unfold html_to_markdown
  obtain ⟨c1, h1, k1⟩ := remove_non_content_blocks_total html hok
  rw [h1]
  simp only [Option.some_bind]
  obtain ⟨c2, h2, k2⟩ := extract_main_content_total c1 k1
  rw [h2]
  simp only [Option.some_bind]
  obtain ⟨c3, h3, _⟩ := convert_elements_total c2 k2
  rw [h3]
  rfl

/-- **C8** (confirmed).  `html_to_markdown` is a pure total function of the
input bytes: on the UTF-8 bytes of any input string — including strings
with chars whose Unicode lowercasing changes byte length — it returns a
value, with every internal byte slice checked to lie on char boundaries
(`sliceCB` returns `none` exactly where a Rust slice would panic, and every
loop's fuel is shown sufficient). -/
theorem html_to_markdown_no_panic (s : String) :
    (html_to_markdown (strBytes s)).isSome = true :=
  html_to_markdown_total (strBytes s) (okStr_strBytes s)
